import Mathlib

/-!
Shallow embedding of src/line_mapper.py (class LineMapper) and proofs about it.

Conventions of the embedding:
 - Python lists become Lean lists; indexed reads use List.getD, and every read is
   proved (or structurally guaranteed) to be in bounds wherever the Python code is.
 - Python dicts keyed by small integers become functions out of Nat with default 0
   (resp. Option for dicts holding float("inf") entries); only membership-insensitive
   reads occur, so this is exact.
 - Python ints are Nat/Int; Python floats are real numbers.  float("inf") is modelled
   by none in Option Real.
 - Python sets used only for membership tests become lists with membership.
 - while loops whose termination is a nontrivial invariant of the algorithm
   (the Hungarian augmenting-path search) take explicit fuel; the fuel passed by the
   callers is proved sufficient, so the exhaustion branch is unreachable.
 - The interpreter string hash used by LineMapper._simhash (CPython hash(), which is
   per-process seeded) is passed in as an explicit parameter pyHash.
-/

set_option maxHeartbeats 1600000

namespace LineMapper

/-- Represents a single correspondence between an old and a new line number
(dataclass LineMapping in src/line_mapper.py, lines 18-25). -/
structure LineMapping where
  old_line : Option Nat
  new_line : Option Nat
  deriving DecidableEq, Repr

/-- Text is modelled as its character list (String.data), because every operation on it
below is then a structural computation.  A Python str value is its list of characters. -/
abbrev Chars := List Char

/-- Maximal runs of non-separator characters, as produced by re.findall of a
one-character-class-plus pattern or by str.split: split at separator characters and
drop the empty segments. -/
def wordsBy (sep : Char → Bool) (cs : Chars) : List Chars :=
  (cs.foldr
    (fun c acc => if sep c then [] :: acc else (c :: acc.headD []) :: acc.tail)
    [[]]).filter (fun w => w ≠ [])

/-- Python str.lower() (the inputs are plain text; per-character lowering matches). -/
def lower (cs : Chars) : Chars := cs.map Char.toLower

/-- Truthiness of line.strip() in Python: true when the line has at least one
non-whitespace character (used by map_lines to keep only non-empty lines). -/
def keepLine (s : String) : Bool := s.data.any (fun c => !c.isWhitespace)

/-- Python str.split() with no arguments: split on whitespace runs, dropping empties. -/
def pyWords (cs : Chars) : List Chars := wordsBy Char.isWhitespace cs

/-- Python " ".join(ws). -/
def joinSpace (ws : List Chars) : Chars := (List.intersperse [' '] ws).flatten

/-- LineMapper._normalize: lowercase and collapse whitespace
(" ".join(line.lower().split())). -/
def normalize (line : String) : Chars := joinSpace (pyWords (lower line.data))

/-- LineMapper._tokens: maximal [a-zA-Z0-9_]+ runs of the lowercased text (the character
class of the regex is exactly isAlphanum-or-underscore on ASCII). -/
def tokens (text : Chars) : List Chars :=
  wordsBy (fun c => !(c.isAlphanum || c == '_')) (lower text)

/-- Distinct keys of a token counter.  A collections.Counter built from a token list is
represented by the token list itself; its counts are List.count, its key set the
deduplicated list.  All Counter reads below are order-insensitive sums, so this is a
faithful model. -/
def ckeys (t : List Chars) : List Chars := t.dedup

/-- Integer dot product of two token counters (sum(t1[k] * t2.get(k, 0) for k in t1)). -/
def cdot (t1 t2 : List Chars) : Nat :=
  (ckeys t1).foldl (fun acc k => acc + t1.count k * t2.count k) 0

/-- Integer sum of squared counts of a counter (the square of its euclidean norm). -/
def csq (t : List Chars) : Nat :=
  (ckeys t).foldl (fun acc k => acc + t.count k * t.count k) 0

/-- LineMapper._tf_cosine: cosine similarity between two token frequency counters.
The dot product and squared norms are exact integers in the Python code as well; only
the final quotient is a float.  The test norm1 == 0 or norm2 == 0 on the float square
roots holds exactly when the integer radicands are 0, which is how it is written here. -/
noncomputable def tf_cosine (t1 t2 : List Chars) : ℝ :=
  if t1 = [] ∨ t2 = [] then 0
  else if cdot t1 t2 = 0 then 0
  else if csq t1 = 0 ∨ csq t2 = 0 then 0
  else (cdot t1 t2 : ℝ) / (Real.sqrt (csq t1) * Real.sqrt (csq t2))

/-- Bit i of a Python integer h, ((h >> i) & 1): arithmetic shift is floor division,
and Python % always returns a nonnegative remainder. -/
def pyBit (h : Int) (i : Nat) : Int := (Int.fdiv h (2 ^ i)).emod 2

/-- LineMapper._simhash, parametrized by the interpreter string hash.  map_lines computes
these values (lines 105-106) but never reads them. -/
def simhash (pyHash : Chars → Int) (text : Chars) : Nat :=
  if text = [] then 0
  else
    let weights : List Int := (pyWords text).foldl
      (fun w token =>
        let h := pyHash token
        (List.range 64).map (fun i => w.getD i 0 + (if pyBit h i = 1 then 1 else -1)))
      (List.replicate 64 0)
    (List.range 64).foldl
      (fun result i => if 0 ≤ weights.getD i 0 then result ||| (1 <<< i) else result) 0

/-- LineMapper._hamming: population count of xor (int.bit_count). -/
def hammingDist (a b : Nat) : Nat := (Nat.bits (a ^^^ b)).count true

/-- The ctx_tokens helper inside map_lines: merge the token counters of lines
idx-4 .. idx+4 (clamped to the file bounds); counter update is list concatenation. -/
def ctxTokens (tokensList : List (List Chars)) (idx : Nat) : List Chars :=
  let start := idx - 4
  let stop := min tokensList.length (idx + 5)
  ((tokensList.drop start).take (stop - start)).flatten

/-! difflib.SequenceMatcher(a=norm_old, b=norm_new, autojunk=False): with autojunk off
and no isjunk function the junk machinery is entirely inert, so it is omitted. -/

/-- SequenceMatcher.__chain_b: for each element value, the ascending list of its
positions in b. -/
def b2j (b : List Chars) (x : Chars) : List Nat :=
  (List.range b.length).filter (fun j => b.getD j [] == x)

/-- Candidate columns for one row of find_longest_match: the loop skips j < blo with
continue and stops at the first j ≥ bhi with break; on the ascending position list that
is a filter followed by a takeWhile. -/
def flmCandidates (b : List Chars) (x : Chars) (blo bhi : Nat) : List Nat :=
  ((b2j b x).filter (fun j => decide (blo ≤ j))).takeWhile (fun j => decide (j < bhi))

/-- One step of find_longest_match's inner candidate loop.  The state is the new
dictionary newj2len under construction together with the best (besti, bestj, bestsize);
j2len is the dictionary from the previous row.  Writing i + 1 - k instead of Python's
i - k + 1 keeps the Nat subtraction exact (k ≤ i + 1 always holds). -/
def flmStep (j2len : Nat → Nat) (i : Nat) (st : (Nat → Nat) × Nat × Nat × Nat) (j : Nat) :
    (Nat → Nat) × Nat × Nat × Nat :=
  let k := (if j = 0 then 0 else j2len (j - 1)) + 1
  let nj2 := fun x => if x = j then k else st.1 x
  if st.2.2.2 < k then (nj2, i + 1 - k, j + 1 - k, k) else (nj2, st.2)

/-- The row loop of find_longest_match, returning the final (j2len, besti, bestj,
bestsize).  Each row starts from a fresh empty dictionary (constant 0: stored values
are always positive, so default-0 reads agree with dict.get(j-1, 0)). -/
def flmLoop (a b : List Chars) (alo ahi blo bhi : Nat) : (Nat → Nat) × Nat × Nat × Nat :=
  (List.range' alo (ahi - alo)).foldl
    (fun st i => (flmCandidates b (a.getD i []) blo bhi).foldl (flmStep st.1 i) ((fun _ => 0), st.2))
    ((fun _ => 0), alo, blo, 0)

/-- First extension loop of find_longest_match: grow the match downwards while the
preceding elements are equal (the junk-conditioned variants never fire).  The loop
decrements besti each pass, so structural fuel equal to the incoming besti is exact:
when it runs out besti is 0 and the guard alo < besti is false anyway. -/
def extendLow (a b : List Chars) (alo blo : Nat) : Nat → Nat → Nat → Nat → Nat × Nat × Nat
  | 0, besti, bestj, size => (besti, bestj, size)
  | fuel + 1, besti, bestj, size =>
    if alo < besti ∧ blo < bestj ∧ a.getD (besti - 1) [] = b.getD (bestj - 1) []
    then extendLow a b alo blo fuel (besti - 1) (bestj - 1) (size + 1)
    else (besti, bestj, size)

/-- Second extension loop of find_longest_match: grow the match upwards.  Each pass
increments size while besti + size < ahi holds, so structural fuel equal to ahi is
exact in the same sense as for extendLow. -/
def extendHigh (a b : List Chars) (ahi bhi besti bestj : Nat) : Nat → Nat → Nat
  | 0, size => size
  | fuel + 1, size =>
    if besti + size < ahi ∧ bestj + size < bhi ∧
        a.getD (besti + size) [] = b.getD (bestj + size) []
    then extendHigh a b ahi bhi besti bestj fuel (size + 1)
    else size

/-- SequenceMatcher.find_longest_match on [alo, ahi) x [blo, bhi). -/
def findLongestMatch (a b : List Chars) (alo ahi blo bhi : Nat) : Nat × Nat × Nat :=
  let st := flmLoop a b alo ahi blo bhi
  let e := extendLow a b alo blo st.2.1 st.2.1 st.2.2.1 st.2.2.2
  (e.1, e.2.1, extendHigh a b ahi bhi e.1 e.2.1 ahi e.2.2)

/-- Recursive region decomposition of get_matching_blocks.  The source drives an
explicit stack (depth-first); the multiset of emitted blocks is the same and the list
is sorted immediately afterwards, so the traversal order is immaterial.  Fuel bounds
the recursion depth; (ahi - alo) + (bhi - blo) + 1 always suffices because each
recursive call strictly shrinks the region. -/
def matchingBlocksRec (a b : List Chars) : Nat → Nat → Nat → Nat → Nat → List (Nat × Nat × Nat)
  | 0, _, _, _, _ => []
  | fuel + 1, alo, ahi, blo, bhi =>
    let m := findLongestMatch a b alo ahi blo bhi
    if m.2.2 = 0 then []
    else
      (if alo < m.1 ∧ blo < m.2.1 then matchingBlocksRec a b fuel alo m.1 blo m.2.1 else [])
        ++ [m]
        ++ (if m.1 + m.2.2 < ahi ∧ m.2.1 + m.2.2 < bhi then
              matchingBlocksRec a b fuel (m.1 + m.2.2) ahi (m.2.1 + m.2.2) bhi
            else [])

/-- Lexicographic comparison of (i, j, size) triples, as used by list.sort() on tuples. -/
def tripleLe (x y : Nat × Nat × Nat) : Bool :=
  decide (x.1 < y.1 ∨ (x.1 = y.1 ∧ (x.2.1 < y.2.1 ∨ (x.2.1 = y.2.1 ∧ x.2.2 ≤ y.2.2))))

/-- One step of the adjacent-block coalescing pass: either extend the pending block or
flush it and start a new pending block. -/
def mergeStep (st : (Nat × Nat × Nat) × List (Nat × Nat × Nat)) (x : Nat × Nat × Nat) :
    (Nat × Nat × Nat) × List (Nat × Nat × Nat) :=
  if st.1.1 + st.1.2.2 = x.1 ∧ st.1.2.1 + st.1.2.2 = x.2.1 then
    ((st.1.1, st.1.2.1, st.1.2.2 + x.2.2), st.2)
  else
    (x, if st.1.2.2 ≠ 0 then st.2 ++ [st.1] else st.2)

/-- The adjacent-block coalescing pass of get_matching_blocks (second half), including
the final flush of the pending block. -/
def mergeAdjacent (blocks : List (Nat × Nat × Nat)) : List (Nat × Nat × Nat) :=
  let st := blocks.foldl mergeStep ((0, 0, 0), [])
  if st.1.2.2 ≠ 0 then st.2 ++ [st.1] else st.2

/-- SequenceMatcher.get_matching_blocks: collect blocks, sort, merge adjacent ones and
append the (len(a), len(b), 0) terminator. -/
def matchingBlocks (a b : List Chars) : List (Nat × Nat × Nat) :=
  let collected :=
    (matchingBlocksRec a b (a.length + b.length + 1) 0 a.length 0 b.length).mergeSort tripleLe
  mergeAdjacent collected ++ [(a.length, b.length, 0)]

/-- Alignment opcode tags of SequenceMatcher.get_opcodes. -/
inductive Tag where
  | equal | replace | delete | insert
  deriving DecidableEq, Repr

/-- One opcode (tag, i1, i2, j1, j2) with half-open ranges. -/
structure Opcode where
  tag : Tag
  i1 : Nat
  i2 : Nat
  j1 : Nat
  j2 : Nat
  deriving DecidableEq, Repr

/-- One step of get_opcodes: emit the gap opcode before the block (if any) and the
equal opcode of the block (if nonempty), then advance to the end of the block. -/
def opStep (st : Nat × Nat × List Opcode) (bl : Nat × Nat × Nat) : Nat × Nat × List Opcode :=
  let i := st.1
  let j := st.2.1
  let acc := st.2.2
  let acc :=
    if i < bl.1 ∧ j < bl.2.1 then acc ++ [⟨Tag.replace, i, bl.1, j, bl.2.1⟩]
    else if i < bl.1 then acc ++ [⟨Tag.delete, i, bl.1, j, bl.2.1⟩]
    else if j < bl.2.1 then acc ++ [⟨Tag.insert, i, bl.1, j, bl.2.1⟩]
    else acc
  let acc :=
    if bl.2.2 ≠ 0 then
      acc ++ [⟨Tag.equal, bl.1, bl.1 + bl.2.2, bl.2.1, bl.2.1 + bl.2.2⟩]
    else acc
  (bl.1 + bl.2.2, bl.2.1 + bl.2.2, acc)

/-- SequenceMatcher.get_opcodes, as a pass over the matching blocks. -/
def opcodesOf (blocks : List (Nat × Nat × Nat)) : List Opcode :=
  (blocks.foldl opStep (0, 0, [])).2.2

/-- get_opcodes of SequenceMatcher(a=a, b=b, autojunk=False). -/
def seqOpcodes (a b : List Chars) : List Opcode := opcodesOf (matchingBlocks a b)

/-- Similarity matrix of one replace span (map_lines lines 123-133): 0.7/0.3 blend of
content and context cosine, with a +0.2 positional bonus when the in-span offsets
differ by at most one, applied only when the blended base reaches 0.05. -/
noncomputable def simMatrix (oldTok newTok oldCtx newCtx : List (List Chars))
    (blockOld blockNew : List Nat) : List (List ℝ) :=
  blockOld.enum.map (fun oi =>
    blockNew.enum.map (fun nj =>
      let content := tf_cosine (oldTok.getD oi.2 []) (newTok.getD nj.2 [])
      let context := tf_cosine (oldCtx.getD oi.2 []) (newCtx.getD nj.2 [])
      let pos_bonus : ℝ := if ((oi.1 : Int) - (nj.1 : Int)).natAbs ≤ 1 then 0.2 else 0.0
      let base := 0.7 * content + 0.3 * context
      if base ≥ 0.05 then base + pos_bonus else base))

/-- Comparison x < y between a finite float and a possibly-infinite one
(float("inf") is none). -/
def oLt : Option ℝ → Option ℝ → Prop
  | some a, some b => a < b
  | some _, none => True
  | none, _ => False

noncomputable instance oLt.decidable : ∀ x y, Decidable (oLt x y)
  | some a, some b => inferInstanceAs (Decidable (a < b))
  | some _, none => .isTrue trivial
  | none, some _ => .isFalse (fun h => h)
  | none, none => .isFalse (fun h => h)

/-- The body of the first inner for-loop of one Hungarian iteration (_max_assignment
lines 201-210): skip used columns, refresh minv/way with the reduced cost cur, and
track the running minimum (delta, j1).  State: (minv, way, delta, j1). -/
noncomputable def hungScanStep (cost : Nat → Nat → ℝ) (u v : Nat → ℝ) (used : Nat → Bool)
    (i0 j0 : Nat) (st : (Nat → Option ℝ) × (Nat → Nat) × Option ℝ × Nat) (j : Nat) :
    (Nat → Option ℝ) × (Nat → Nat) × Option ℝ × Nat :=
  if used j then st
  else
    let cur := cost (i0 - 1) (j - 1) - u i0 - v j
    let minv' := if oLt (some cur) (st.1 j) then (fun x => if x = j then some cur else st.1 x) else st.1
    let way' := if oLt (some cur) (st.1 j) then (fun x => if x = j then j0 else st.2.1 x) else st.2.1
    if oLt (minv' j) st.2.2.1 then (minv', way', minv' j, j) else (minv', way', st.2.2.1, st.2.2.2)

/-- The first inner for-loop of one Hungarian iteration as a fold over columns 1..n. -/
noncomputable def hungScan (cost : Nat → Nat → ℝ) (n : Nat) (u v : Nat → ℝ)
    (used : Nat → Bool) (i0 j0 : Nat)
    (st0 : (Nat → Option ℝ) × (Nat → Nat) × Option ℝ × Nat) :
    (Nat → Option ℝ) × (Nat → Nat) × Option ℝ × Nat :=
  (List.range' 1 n).foldl (hungScanStep cost u v used i0 j0) st0

/-- The body of the second inner for-loop of one Hungarian iteration (lines 211-216):
shift the dual potentials at used columns, lower minv elsewhere. -/
noncomputable def hungUpdateStep (delta : ℝ) (used : Nat → Bool) (p : Nat → Nat)
    (st : (Nat → ℝ) × (Nat → ℝ) × (Nat → Option ℝ)) (j : Nat) :
    (Nat → ℝ) × (Nat → ℝ) × (Nat → Option ℝ) :=
  if used j then
    ((fun x => if x = p j then st.1 x + delta else st.1 x),
     (fun x => if x = j then st.2.1 x - delta else st.2.1 x),
     st.2.2)
  else
    (st.1, st.2.1,
     (fun x => if x = j then Option.map (fun m => m - delta) (st.2.2 x) else st.2.2 x))

/-- The second inner for-loop of one Hungarian iteration as a fold over columns 0..n. -/
noncomputable def hungUpdate (n : Nat) (delta : ℝ) (used : Nat → Bool) (p : Nat → Nat)
    (st0 : (Nat → ℝ) × (Nat → ℝ) × (Nat → Option ℝ)) :
    (Nat → ℝ) × (Nat → ℝ) × (Nat → Option ℝ) :=
  (List.range (n + 1)).foldl (hungUpdateStep delta used p) st0

/-- The augmenting-path search (while True ... if p[j0] == 0: break) of one Hungarian
phase.  p is read-only here; the result is (u, v, way, break column).  Fuel n + 1
always suffices: every pass marks a previously unused column used.  delta can never be
infinite when an unused column remains (cur is always finite); the none branch merely
totalizes the match. -/
noncomputable def hungPath (cost : Nat → Nat → ℝ) (n : Nat) :
    Nat → (Nat → ℝ) → (Nat → ℝ) → (Nat → Nat) → (Nat → Nat) → (Nat → Option ℝ) →
    (Nat → Bool) → Nat → (Nat → ℝ) × (Nat → ℝ) × (Nat → Nat) × Nat
  | 0, u, v, _p, way, _minv, _used, j0 => (u, v, way, j0)
  | fuel + 1, u, v, p, way, minv, used, j0 =>
    let used' := fun x => if x = j0 then true else used x
    let i0 := p j0
    let scan := hungScan cost n u v used' i0 j0 (minv, way, none, 0)
    match scan.2.2.1 with
    | none => (u, v, scan.2.1, scan.2.2.2)
    | some d =>
      let upd := hungUpdate n d used' p (u, v, scan.1)
      let j0' := scan.2.2.2
      if p j0' = 0 then (upd.1, upd.2.1, scan.2.1, j0')
      else hungPath cost n fuel upd.1 upd.2.1 p scan.2.1 upd.2.2 used' j0'

/-- The augmentation walk (while True: j1 = way[j0]; p[j0] = p[j1]; j0 = j1; until
j0 == 0).  Fuel n + 2 always suffices (the way pointers of used columns point strictly
earlier in the order of first use). -/
def hungAug : Nat → (Nat → Nat) → (Nat → Nat) → Nat → (Nat → Nat)
  | 0, p, _way, _j0 => p
  | fuel + 1, p, way, j0 =>
    let j1 := way j0
    let p' := fun x => if x = j0 then p j1 else p x
    if j1 = 0 then p' else hungAug fuel p' way j1

/-- Maximum of a nonempty float list as written in the source (max over a Python list);
folding from the head is exact for nonempty rows, the only case the guard lets through. -/
noncomputable def listMax (l : List ℝ) : ℝ := l.foldl max (l.headD 0)

/-- LineMapper._max_assignment: Hungarian algorithm (e-maxx formulation) for maximum
weight matching on a rectangular float matrix, by minimizing max_val - score on the
square matrix padded with zero scores.  One phase per row i of the padded square
matrix; u, v, p, way persist across phases, minv and used are fresh per phase. -/
noncomputable def maxAssignment (M : List (List ℝ)) : List (Nat × Nat) :=
  if M = [] ∨ M.headD [] = [] then []
  else
    let nRows := M.length
    let nCols := (M.headD []).length
    let n := max nRows nCols
    let maxVal := listMax (M.map listMax)
    let cost : Nat → Nat → ℝ :=
      fun i j => maxVal - (if i < nRows ∧ j < nCols then (M.getD i []).getD j 0 else 0)
    let final := (List.range' 1 n).foldl
      (fun (st : (Nat → ℝ) × (Nat → ℝ) × (Nat → Nat) × (Nat → Nat)) i =>
        let p0 := fun x => if x = 0 then i else st.2.2.1 x
        let r := hungPath cost n (n + 1) st.1 st.2.1 p0 st.2.2.2 (fun _ => none) (fun _ => false) 0
        (r.1, r.2.1, hungAug (n + 2) p0 r.2.2.1 r.2.2.2, r.2.2.1))
      ((fun _ => 0), (fun _ => 0), (fun _ => 0), (fun _ => 0))
    (List.range' 1 n).foldl
      (fun acc j =>
        if final.2.2.1 j ≠ 0 ∧ final.2.2.1 j - 1 < nRows ∧ j - 1 < nCols then
          acc ++ [(final.2.2.1 j - 1, j - 1)]
        else acc)
      []

/-- Row pointers are bounded: every matched column points to a row placed so far. -/
def hungBounded (n i : Nat) (p : Nat → Nat) : Prop :=
  ∀ x, 1 ≤ x → x ≤ n → p x < i

/-- Row pointers are injective where nonzero: no row is matched to two columns. -/
def hungInj (n : Nat) (p : Nat → Nat) : Prop :=
  ∀ x1 x2, 1 ≤ x1 → x1 ≤ n → 1 ≤ x2 → x2 ≤ n → x1 ≠ x2 → p x1 ≠ 0 → p x1 ≠ p x2

/-- The order of first use of columns in one augmenting-path search: distinct columns
bounded by n, the first is column 0, and every later one's way pointer is an earlier one. -/
def ordInv (n : Nat) (way : Nat → Nat) (ord : List Nat) : Prop :=
  ord.Nodup ∧ (∀ x ∈ ord, x ≤ n) ∧
  (∀ hk : 0 < ord.length, ord.get ⟨0, hk⟩ = 0) ∧
  (∀ k (hk : k < ord.length), 0 < k → way (ord.get ⟨k, hk⟩) ∈ ord.take k)

/-- Accumulator of map_lines: the mappings list and the mapped_old / mapped_new sets
(sets are modelled by lists, used only through membership). -/
structure EmitState where
  maps : List LineMapping
  mappedOld : List Nat
  mappedNew : List Nat
  deriving Repr

/-- The equal branch of map_lines (lines 113-119). -/
def emitEqual (keepOld keepNew : List Nat) (st : EmitState) (op : Opcode) : EmitState :=
  (List.range (op.i2 - op.i1)).foldl
    (fun s k =>
      ⟨s.maps ++ [⟨some (keepOld.getD (op.i1 + k) 0 + 1), some (keepNew.getD (op.j1 + k) 0 + 1)⟩],
       s.mappedOld ++ [op.i1 + k], s.mappedNew ++ [op.j1 + k]⟩)
    st

/-- The acceptance loop body of the replace branch (lines 138-148): skip sub-threshold
pairs, otherwise record the matched pair in the mappings and in all four sets. -/
noncomputable def repAcceptStep (keepOld keepNew blockOld blockNew : List Nat)
    (M : List (List ℝ)) (acc : EmitState × List Nat × List Nat) (rc : Nat × Nat) :
    EmitState × List Nat × List Nat :=
  let score := (M.getD rc.1 []).getD rc.2 0
  if score < 0.1 then acc
  else
    let oi := blockOld.getD rc.1 0
    let nj := blockNew.getD rc.2 0
    (⟨acc.1.maps ++ [⟨some (keepOld.getD oi 0 + 1), some (keepNew.getD nj 0 + 1)⟩],
      acc.1.mappedOld ++ [oi], acc.1.mappedNew ++ [nj]⟩,
     acc.2.1 ++ [oi], acc.2.2 ++ [nj])

/-- The old-side leftover loop body of the replace branch (lines 150-153). -/
def repLeftOldStep (keepOld usedOld : List Nat) (s : EmitState) (oi : Nat) : EmitState :=
  if oi ∈ usedOld then s
  else ⟨s.maps ++ [⟨some (keepOld.getD oi 0 + 1), none⟩], s.mappedOld ++ [oi], s.mappedNew⟩

/-- The new-side leftover loop body of the replace branch (lines 154-157). -/
def repLeftNewStep (keepNew usedNew : List Nat) (s : EmitState) (nj : Nat) : EmitState :=
  if nj ∈ usedNew then s
  else ⟨s.maps ++ [⟨none, some (keepNew.getD nj 0 + 1)⟩], s.mappedOld, s.mappedNew ++ [nj]⟩

/-- The replace branch of map_lines (lines 120-157): score the span, solve the
assignment, accept pairs scoring at least 0.1, then emit the leftovers of both sides. -/
noncomputable def emitReplace (keepOld keepNew : List Nat)
    (oldTok newTok oldCtx newCtx : List (List Chars)) (st : EmitState) (op : Opcode) :
    EmitState :=
  let blockOld := List.range' op.i1 (op.i2 - op.i1)
  let blockNew := List.range' op.j1 (op.j2 - op.j1)
  let M := simMatrix oldTok newTok oldCtx newCtx blockOld blockNew
  let assignment := maxAssignment M
  let acc := assignment.foldl (repAcceptStep keepOld keepNew blockOld blockNew M) (st, [], [])
  let st2 := blockOld.foldl (repLeftOldStep keepOld acc.2.1) acc.1
  blockNew.foldl (repLeftNewStep keepNew acc.2.2) st2

/-- The delete branch of map_lines (lines 158-162). -/
def emitDelete (keepOld : List Nat) (st : EmitState) (op : Opcode) : EmitState :=
  (List.range' op.i1 (op.i2 - op.i1)).foldl
    (fun s oi =>
      if oi ∈ s.mappedOld then s
      else ⟨s.maps ++ [⟨some (keepOld.getD oi 0 + 1), none⟩], s.mappedOld ++ [oi], s.mappedNew⟩)
    st

/-- The insert branch of map_lines (lines 163-167). -/
def emitInsert (keepNew : List Nat) (st : EmitState) (op : Opcode) : EmitState :=
  (List.range' op.j1 (op.j2 - op.j1)).foldl
    (fun s nj =>
      if nj ∈ s.mappedNew then s
      else ⟨s.maps ++ [⟨none, some (keepNew.getD nj 0 + 1)⟩], s.mappedOld, s.mappedNew ++ [nj]⟩)
    st

/-- Dispatch on the opcode tag (the Python else branch raises on an unknown tag, which
the Tag type rules out). -/
noncomputable def processOpcode (keepOld keepNew : List Nat)
    (oldTok newTok oldCtx newCtx : List (List Chars)) (st : EmitState) (op : Opcode) :
    EmitState :=
  match op.tag with
  | Tag.equal => emitEqual keepOld keepNew st op
  | Tag.replace => emitReplace keepOld keepNew oldTok newTok oldCtx newCtx st op
  | Tag.delete => emitDelete keepOld st op
  | Tag.insert => emitInsert keepNew st op

/-- The value of an optional line number inside the Python sort key, where a missing
number is float("inf"). -/
def withInf (x : Option Nat) : WithTop Nat :=
  match x with
  | none => ⊤
  | some v => (v : WithTop Nat)

/-- The final sort key comparison of map_lines (lines 171-172):
(m.old_line is None, m.old_line or inf, m.new_line or inf) compared lexicographically,
with False < True on the leading bool. -/
def keyLe (m1 m2 : LineMapping) : Bool :=
  decide ((m1.old_line.isNone = false ∧ m2.old_line.isNone = true) ∨
    (m1.old_line.isNone = m2.old_line.isNone ∧
      (withInf m1.old_line < withInf m2.old_line ∨
        (withInf m1.old_line = withInf m2.old_line ∧ withInf m1.new_line ≤ withInf m2.new_line))))

/-- Indices of the kept (non-blank) lines of a file, 0-based
([i for i, l in enumerate(lines) if l.strip()], map_lines lines 86-87). -/
def keepIdx (lines : List String) : List Nat :=
  (List.range lines.length).filter (fun i => keepLine (lines.getD i ""))

/-- Normalized text of the kept lines (map_lines lines 88-89). -/
def normKept (lines : List String) : List Chars :=
  (keepIdx lines).map (fun i => normalize (lines.getD i ""))

/-- Token counters of the kept lines (map_lines lines 92-93). -/
def tokKept (lines : List String) : List (List Chars) := (normKept lines).map tokens

/-- Context token counters of the kept lines (map_lines lines 103-104). -/
def ctxKept (lines : List String) : List (List Chars) :=
  (List.range (tokKept lines).length).map (ctxTokens (tokKept lines))

/-- The mappings accumulated by the opcode loop of map_lines (lines 112-169), before
the final sort. -/
noncomputable def rawMappings (old_lines new_lines : List String) : List LineMapping :=
  ((seqOpcodes (normKept old_lines) (normKept new_lines)).foldl
    (processOpcode (keepIdx old_lines) (keepIdx new_lines)
      (tokKept old_lines) (tokKept new_lines) (ctxKept old_lines) (ctxKept new_lines))
    ⟨[], [], []⟩).maps

/-- LineMapper.map_lines on old_lines and new_lines.  pyHash is the interpreter string
hash used by _simhash; its values are computed (lines 105-106) and never read, hence
the underscored bindings. -/
noncomputable def mapLines (pyHash : Chars → Int) (old_lines new_lines : List String) :
    List LineMapping :=
  let _oldHashes := (normKept old_lines).map (fun t => simhash pyHash (joinSpace (tokens t)))
  let _newHashes := (normKept new_lines).map (fun t => simhash pyHash (joinSpace (tokens t)))
  (rawMappings old_lines new_lines).mergeSort keyLe

/-- Modelled from the spec: the simhash shortlist of the pruned greedy fallback mode of
the Assignment Solver (spec 4.6), which is absent from src/line_mapper.py (the file
computes simhashes at lines 105-106 and defines _hamming but never consults them).
Unmatched new lines are given as (index, simhash) pairs; the K Hamming-nearest are
kept, ties broken by input order (stable sort). -/
def shortlistK (K : Nat) (h : Nat) (newUnmatched : List (Nat × Nat)) : List Nat :=
  ((newUnmatched.mergeSort
      (fun x y => decide (hammingDist h x.2 ≤ hammingDist h y.2))).take K).map (fun x => x.1)

/-- Modelled from the spec: all scored proposals of the pruned greedy mode, sorted by
descending score across the whole unmatched set (stable, so ties keep input order). -/
noncomputable def prunedProposals (K : Nat) (oldU newU : List (Nat × Nat))
    (score : Nat → Nat → ℝ) : List (Nat × Nat) :=
  (oldU.flatMap (fun o => (shortlistK K o.2 newU).map (fun j => (o.1, j)))).mergeSort
    (fun x y => decide (score y.1 y.2 ≤ score x.1 x.2))

/-- Modelled from the spec: greedy acceptance in proposal order, skipping any pair whose
old or new index is already consumed. -/
def greedyAccept (props : List (Nat × Nat)) : List (Nat × Nat) :=
  props.foldl
    (fun acc ij => if acc.any (fun kl => kl.1 == ij.1 || kl.2 == ij.2) then acc else acc ++ [ij])
    []

/-- Modelled from the spec: the pruned greedy matching mode (spec 4.6). -/
noncomputable def prunedGreedy (K : Nat) (oldU newU : List (Nat × Nat))
    (score : Nat → Nat → ℝ) : List (Nat × Nat) :=
  greedyAccept (prunedProposals K oldU newU score)

/-- Modelled from the spec: mode selection of the Assignment Solver (spec 4.6 and 9):
bounded exact assignment up to the configurable span-size cap, pruned greedy above it. -/
noncomputable def solveSpan (cap K : Nat) (oldU newU : List (Nat × Nat))
    (score : Nat → Nat → ℝ) (M : List (List ℝ)) : List (Nat × Nat) :=
  if max oldU.length newU.length > cap then prunedGreedy K oldU newU score
  else maxAssignment M

/-! Specification predicates used to state the verified properties. -/

/-- Ordering contract of the final mapping list: old-indexed entries precede pure
insertions; old-indexed entries ascend by old index; pure insertions ascend by new
index. -/
def mappingOrdered (a b : LineMapping) : Prop :=
  (a.old_line = none → b.old_line = none) ∧
  (∀ x y, a.old_line = some x → b.old_line = some y → x ≤ y) ∧
  (a.old_line = none → b.old_line = none →
    ∀ u v, a.new_line = some u → b.new_line = some v → u ≤ v)

/-- Chained blocks: the blocks of list l lie between the running lower bound
(loI, loJ) and (hiI, hiJ), each block is nonempty, and block starts advance past the
end of the previous block on both sides. -/
def BlocksChain : Nat → Nat → List (Nat × Nat × Nat) → Nat → Nat → Prop
  | loI, loJ, [], hiI, hiJ => loI ≤ hiI ∧ loJ ≤ hiJ
  | loI, loJ, bl :: rest, hiI, hiJ =>
    loI ≤ bl.1 ∧ loJ ≤ bl.2.1 ∧ 1 ≤ bl.2.2 ∧
      BlocksChain (bl.1 + bl.2.2) (bl.2.1 + bl.2.2) rest hiI hiJ

/-- Shape of one opcode relative to the running position: its ranges start at the
current position, are consistent with its tag, and at least one side is nonempty. -/
def OpcodeShape (pI pJ : Nat) (op : Opcode) : Prop :=
  op.i1 = pI ∧ op.j1 = pJ ∧
    (match op.tag with
     | Tag.equal => pI < op.i2 ∧ pJ < op.j2 ∧ op.i2 - op.i1 = op.j2 - op.j1
     | Tag.replace => pI < op.i2 ∧ pJ < op.j2
     | Tag.delete => pI < op.i2 ∧ op.j2 = pJ
     | Tag.insert => op.i2 = pI ∧ pJ < op.j2)

/-- Opcode lists whose ranges tile [pI, eI) x [pJ, eJ) consecutively. -/
def OpsCover : Nat → Nat → List Opcode → Nat → Nat → Prop
  | pI, pJ, [], eI, eJ => pI = eI ∧ pJ = eJ
  | pI, pJ, op :: rest, eI, eJ => OpcodeShape pI pJ op ∧ OpsCover op.i2 op.j2 rest eI eJ

/-- Entry (r, c) of a float matrix, with default 0 (used only to state properties of
in-range entries). -/
noncomputable def entryAt (M : List (List ℝ)) (r c : Nat) : ℝ := (M.getD r []).getD c 0

/-- Well-formedness of one output entry: at least one side is present, and every
present side is one more than a kept (non-blank) 0-based index of its file. -/
def wellFormedMapping (old_lines new_lines : List String) (m : LineMapping) : Prop :=
  (m.old_line ≠ none ∨ m.new_line ≠ none) ∧
  (∀ v, m.old_line = some v → 1 ≤ v ∧ v - 1 ∈ keepIdx old_lines) ∧
  (∀ v, m.new_line = some v → 1 ≤ v ∧ v - 1 ∈ keepIdx new_lines)

/-- Concrete token list used in the worked examples. -/
def fooT : Chars := "foo".data

/-- Concrete token list used in the worked examples. -/
def bazT : Chars := "baz".data

/-! Theorems.  First the order infrastructure for the final sort. -/

theorem withInf_inj {x y : Option Nat} (h : withInf x = withInf y) : x = y := by
  cases x <;> cases y <;> simp_all [withInf]

theorem keyLe_iff (m1 m2 : LineMapping) :
    keyLe m1 m2 = true ↔
      ((m1.old_line.isNone = false ∧ m2.old_line.isNone = true) ∨
        (m1.old_line.isNone = m2.old_line.isNone ∧
          (withInf m1.old_line < withInf m2.old_line ∨
            (withInf m1.old_line = withInf m2.old_line ∧
              withInf m1.new_line ≤ withInf m2.new_line)))) := by
  simp [keyLe]

theorem keyLe_total (m1 m2 : LineMapping) : (keyLe m1 m2 || keyLe m2 m1) = true := by
  rw [Bool.or_eq_true, keyLe_iff, keyLe_iff]
  rcases h1 : m1.old_line.isNone <;> rcases h2 : m2.old_line.isNone
  · rcases lt_trichotomy (withInf m1.old_line) (withInf m2.old_line) with h | h | h
    · exact Or.inl (Or.inr ⟨rfl, Or.inl h⟩)
    · rcases le_total (withInf m1.new_line) (withInf m2.new_line) with hn | hn
      · exact Or.inl (Or.inr ⟨rfl, Or.inr ⟨h, hn⟩⟩)
      · exact Or.inr (Or.inr ⟨rfl, Or.inr ⟨h.symm, hn⟩⟩)
    · exact Or.inr (Or.inr ⟨rfl, Or.inl h⟩)
  · exact Or.inl (Or.inl ⟨rfl, rfl⟩)
  · exact Or.inr (Or.inl ⟨rfl, rfl⟩)
  · rcases lt_trichotomy (withInf m1.old_line) (withInf m2.old_line) with h | h | h
    · exact Or.inl (Or.inr ⟨rfl, Or.inl h⟩)
    · rcases le_total (withInf m1.new_line) (withInf m2.new_line) with hn | hn
      · exact Or.inl (Or.inr ⟨rfl, Or.inr ⟨h, hn⟩⟩)
      · exact Or.inr (Or.inr ⟨rfl, Or.inr ⟨h.symm, hn⟩⟩)
    · exact Or.inr (Or.inr ⟨rfl, Or.inl h⟩)

theorem keyLe_trans (a b c : LineMapping) (hab : keyLe a b = true) (hbc : keyLe b c = true) :
    keyLe a c = true := by
  rw [keyLe_iff] at hab hbc ⊢
  rcases hab with ⟨ha, hb⟩ | ⟨hab, habl⟩
  · rcases hbc with ⟨hb', _⟩ | ⟨hbc, _⟩
    · rw [hb] at hb'; exact absurd hb' (by simp)
    · exact Or.inl ⟨ha, hbc ▸ hb⟩
  · rcases hbc with ⟨hb', hc⟩ | ⟨hbc, hbcl⟩
    · exact Or.inl ⟨hab ▸ hb', hc⟩
    · refine Or.inr ⟨hab.trans hbc, ?_⟩
      rcases habl with h1 | ⟨h1, h1'⟩
      · rcases hbcl with h2 | ⟨h2, _⟩
        · exact Or.inl (h1.trans h2)
        · exact Or.inl (h2 ▸ h1)
      · rcases hbcl with h2 | ⟨h2, h2'⟩
        · exact Or.inl (h1 ▸ h2)
        · exact Or.inr ⟨h1.trans h2, h1'.trans h2'⟩

theorem keyLe_antisymm (a b : LineMapping) (hab : keyLe a b = true) (hba : keyLe b a = true) :
    a = b := by
  rw [keyLe_iff] at hab hba
  rcases hab with ⟨ha, hb⟩ | ⟨hab, habl⟩
  · rcases hba with ⟨hb', _⟩ | ⟨hba, _⟩
    · rw [hb] at hb'; exact absurd hb' (by simp)
    · rw [hba] at hb; rw [hb] at ha; exact absurd ha (by simp)
  · rcases hba with ⟨hb', ha'⟩ | ⟨hba, hbal⟩
    · rw [hab] at ha'; rw [ha'] at hb'; exact absurd hb' (by simp)
    · have hold : withInf a.old_line = withInf b.old_line := by
        rcases habl with h1 | ⟨h1, _⟩
        · rcases hbal with h2 | ⟨h2, _⟩
          · exact absurd (h1.trans h2) (lt_irrefl _)
          · exact absurd (h2 ▸ h1) (lt_irrefl _)
        · exact h1
      have hnew : withInf a.new_line = withInf b.new_line := by
        rcases habl with h1 | ⟨_, h1'⟩
        · exact absurd (hold ▸ h1) (lt_irrefl _)
        · rcases hbal with h2 | ⟨_, h2'⟩
          · exact absurd (hold ▸ h2) (lt_irrefl _)
          · exact le_antisymm h1' h2'
      rcases a with ⟨ao, an⟩
      rcases b with ⟨bo, bn⟩
      have h1 := withInf_inj hold
      have h2 := withInf_inj hnew
      simp_all

theorem sorted_raw_eq {l : List LineMapping}
    (h : List.Pairwise (fun a b => keyLe a b = true) l) : l.mergeSort keyLe = l := by
  haveI : IsAntisymm LineMapping (fun a b => keyLe a b = true) := ⟨keyLe_antisymm⟩
  exact List.eq_of_perm_of_sorted (List.mergeSort_perm l keyLe)
    (List.sorted_mergeSort keyLe_trans keyLe_total l) h

theorem keyLe_imp_ordered {a b : LineMapping} (h : keyLe a b = true) : mappingOrdered a b := by
  rw [keyLe_iff] at h
  refine ⟨?_, ?_, ?_⟩
  · intro ha
    rcases h with ⟨h1, _⟩ | ⟨h1, _⟩
    · rw [ha] at h1; exact absurd h1 (by simp)
    · rw [ha] at h1; exact Option.isNone_iff_eq_none.mp (by simp [← h1])
  · intro x y hx hy
    rcases h with ⟨_, h2⟩ | ⟨_, h2 | ⟨h2, _⟩⟩
    · rw [hy] at h2; exact absurd h2 (by simp)
    · rw [hx, hy] at h2
      simp only [withInf] at h2
      exact le_of_lt (by exact_mod_cast h2)
    · rw [hx, hy] at h2
      simp only [withInf] at h2
      exact le_of_eq (by exact_mod_cast h2)
  · intro ha hb u v hu hv
    rcases h with ⟨h1, _⟩ | ⟨_, h2 | ⟨_, h2'⟩⟩
    · rw [ha] at h1; exact absurd h1 (by simp)
    · rw [ha, hb] at h2; exact absurd h2 (lt_irrefl _)
    · rw [hu, hv] at h2'
      simp only [withInf] at h2'
      exact_mod_cast h2'

/-- C8: the list returned by map_lines is totally ordered: entries with a present
old_line come first in ascending order of old_line, and entries with an absent old_line
(pure insertions) come after them in ascending order of new_line. -/
theorem c8_output_ordered (pyHash : Chars → Int) (old_lines new_lines : List String) :
    List.Pairwise mappingOrdered (mapLines pyHash old_lines new_lines) := by
  show List.Pairwise mappingOrdered ((rawMappings old_lines new_lines).mergeSort keyLe)
  exact (List.sorted_mergeSort keyLe_trans keyLe_total _).imp keyLe_imp_ordered

/-- C5: map_lines is deterministic: for every fixed pair of input sequences, any two
calls, including calls under different per-process seedings of the interpreter string
hash feeding _simhash, produce identical output lists (the hash values computed at
lines 105-106 are never read). -/
theorem c5_deterministic (h1 h2 : Chars → Int) (old_lines new_lines : List String) :
    mapLines h1 old_lines new_lines = mapLines h2 old_lines new_lines := rfl

/-! The score rule of replace spans (claim C7). -/

theorem simMatrix_entry (oldTok newTok oldCtx newCtx : List (List Chars))
    (blockOld blockNew : List Nat) (r c : Nat)
    (hr : r < blockOld.length) (hc : c < blockNew.length) :
    entryAt (simMatrix oldTok newTok oldCtx newCtx blockOld blockNew) r c =
      (0.7 * tf_cosine (oldTok.getD (blockOld.getD r 0) []) (newTok.getD (blockNew.getD c 0) []) +
        0.3 * tf_cosine (oldCtx.getD (blockOld.getD r 0) []) (newCtx.getD (blockNew.getD c 0) [])) +
      (if ((r : Int) - (c : Int)).natAbs ≤ 1 ∧
          0.05 ≤ 0.7 * tf_cosine (oldTok.getD (blockOld.getD r 0) [])
              (newTok.getD (blockNew.getD c 0) []) +
            0.3 * tf_cosine (oldCtx.getD (blockOld.getD r 0) []) (newCtx.getD (blockNew.getD c 0) [])
        then (0.2 : ℝ) else 0) := by
  have hr' : r < (blockOld.enum.map (fun oi =>
      blockNew.enum.map (fun nj =>
        let content := tf_cosine (oldTok.getD oi.2 []) (newTok.getD nj.2 [])
        let context := tf_cosine (oldCtx.getD oi.2 []) (newCtx.getD nj.2 [])
        let pos_bonus : ℝ := if ((oi.1 : Int) - (nj.1 : Int)).natAbs ≤ 1 then 0.2 else 0.0
        let base := 0.7 * content + 0.3 * context
        if base ≥ 0.05 then base + pos_bonus else base))).length := by
    simpa using hr
  rw [entryAt, simMatrix, List.getD_eq_getElem _ _ hr', List.getElem_map, List.getElem_enum]
  have hc' : c < (blockNew.enum.map (fun nj =>
      let content := tf_cosine (oldTok.getD blockOld[r] []) (newTok.getD nj.2 [])
      let context := tf_cosine (oldCtx.getD blockOld[r] []) (newCtx.getD nj.2 [])
      let pos_bonus : ℝ := if ((r : Int) - (nj.1 : Int)).natAbs ≤ 1 then 0.2 else 0.0
      let base := 0.7 * content + 0.3 * context
      if base ≥ 0.05 then base + pos_bonus else base)).length := by
    simpa using hc
  rw [List.getD_eq_getElem _ _ hc', List.getElem_map, List.getElem_enum]
  rw [List.getD_eq_getElem blockOld 0 hr, List.getD_eq_getElem blockNew 0 hc]
  simp only [ge_iff_le]
  by_cases hbase : (0.05 : ℝ) ≤
      0.7 * tf_cosine (oldTok.getD blockOld[r] []) (newTok.getD blockNew[c] []) +
        0.3 * tf_cosine (oldCtx.getD blockOld[r] []) (newCtx.getD blockNew[c] [])
  · rw [if_pos hbase]
    by_cases hoff : ((r : Int) - (c : Int)).natAbs ≤ 1
    · rw [if_pos hoff, if_pos ⟨hoff, hbase⟩]
    · rw [if_neg hoff, if_neg (fun h => hoff h.1)]
      norm_num
  · rw [if_neg hbase, if_neg (fun h => hbase h.2)]
    ring

theorem tf_cosine_foo : tf_cosine [fooT] [fooT] = 1 := by
  have hdot : cdot [fooT] [fooT] = 1 := rfl
  have hsq : csq [fooT] = 1 := rfl
  rw [tf_cosine, if_neg (by simp), hdot, hsq]
  norm_num

/-- C7 is false as stated: in the span below, the pair at offsets (0, 1) occupies
different relative offsets, yet its score 1.2 carries the +0.2 bonus and differs from
the claimed value 0.7*content + 0.3*context + 0 = 1 (the code adds the bonus whenever
the offsets differ by at most one and the base reaches 0.05). -/
theorem c7_counterexample :
    entryAt (simMatrix [[fooT]] [[bazT], [fooT]] [[fooT]] [[bazT], [fooT]] [0] [0, 1]) 0 1 ≠
      0.7 * tf_cosine [fooT] [fooT] + 0.3 * tf_cosine [fooT] [fooT] +
        (if (0 : Nat) = (1 : Nat) then (0.2 : ℝ) else 0) := by
  rw [simMatrix_entry _ _ _ _ _ _ 0 1 (by decide) (by decide)]
  have h1 : ([[bazT], [fooT]] : List (List Chars)).getD ([0, 1].getD 1 0) [] = [fooT] := rfl
  have h2 : ([[fooT]] : List (List Chars)).getD ([0].getD 0 0) [] = [fooT] := rfl
  rw [h1, h2, tf_cosine_foo]
  rw [if_pos ⟨by decide, by norm_num⟩, if_neg (by decide)]
  norm_num

/-- C7 amended: for every candidate pair inside a replace span, the score is
0.7*content + 0.3*context, and the +0.2 bonus is added exactly when the in-span
offsets of the pair differ by at most one and the blended base is at least 0.05. -/
theorem c7_score_rule (oldTok newTok oldCtx newCtx : List (List Chars))
    (blockOld blockNew : List Nat) (r c : Nat)
    (hr : r < blockOld.length) (hc : c < blockNew.length) :
    entryAt (simMatrix oldTok newTok oldCtx newCtx blockOld blockNew) r c =
      (0.7 * tf_cosine (oldTok.getD (blockOld.getD r 0) []) (newTok.getD (blockNew.getD c 0) []) +
        0.3 * tf_cosine (oldCtx.getD (blockOld.getD r 0) []) (newCtx.getD (blockNew.getD c 0) [])) +
      (if ((r : Int) - (c : Int)).natAbs ≤ 1 ∧
          0.05 ≤ 0.7 * tf_cosine (oldTok.getD (blockOld.getD r 0) [])
              (newTok.getD (blockNew.getD c 0) []) +
            0.3 * tf_cosine (oldCtx.getD (blockOld.getD r 0) []) (newCtx.getD (blockNew.getD c 0) [])
        then (0.2 : ℝ) else 0) :=
  simMatrix_entry oldTok newTok oldCtx newCtx blockOld blockNew r c hr hc

/-- Witness for c7_score_rule at a concrete in-range pair. -/
theorem c7_score_rule_witness :
    (0 < ([0] : List Nat).length) ∧ (0 < ([0, 1] : List Nat).length) ∧
      entryAt (simMatrix [[fooT]] [[bazT], [fooT]] [[fooT]] [[bazT], [fooT]] [0] [0, 1]) 0 0 =
        (0.7 * tf_cosine (([[fooT]] : List (List Chars)).getD (([0] : List Nat).getD 0 0) [])
            (([[bazT], [fooT]] : List (List Chars)).getD (([0, 1] : List Nat).getD 0 0) []) +
          0.3 * tf_cosine (([[fooT]] : List (List Chars)).getD (([0] : List Nat).getD 0 0) [])
            (([[bazT], [fooT]] : List (List Chars)).getD (([0, 1] : List Nat).getD 0 0) [])) +
        (if ((0 : Int) - (0 : Int)).natAbs ≤ 1 ∧
            0.05 ≤ 0.7 * tf_cosine (([[fooT]] : List (List Chars)).getD (([0] : List Nat).getD 0 0) [])
                (([[bazT], [fooT]] : List (List Chars)).getD (([0, 1] : List Nat).getD 0 0) []) +
              0.3 * tf_cosine (([[fooT]] : List (List Chars)).getD (([0] : List Nat).getD 0 0) [])
                (([[bazT], [fooT]] : List (List Chars)).getD (([0, 1] : List Nat).getD 0 0) [])
          then (0.2 : ℝ) else 0) :=
  ⟨by decide, by decide,
    c7_score_rule [[fooT]] [[bazT], [fooT]] [[fooT]] [[bazT], [fooT]] [0] [0, 1] 0 0
      (by decide) (by decide)⟩

/-! The pruned greedy solver mode, modelled from the spec (claim C3). -/

theorem greedyAccept_split (props : List (Nat × Nat)) : ∀ acc : List (Nat × Nat),
    ∃ l, props.foldl
        (fun acc ij => if acc.any (fun kl => kl.1 == ij.1 || kl.2 == ij.2) then acc else acc ++ [ij])
        acc = acc ++ l ∧ l.Sublist props := by
  induction props with
  | nil => exact fun acc => ⟨[], by simp⟩
  | cons ij rest ih =>
    intro acc
    by_cases h : acc.any (fun kl => kl.1 == ij.1 || kl.2 == ij.2)
    · obtain ⟨l, hl, hs⟩ := ih acc
      exact ⟨l, by simpa [h] using hl, hs.cons ij⟩
    · obtain ⟨l, hl, hs⟩ := ih (acc ++ [ij])
      refine ⟨ij :: l, ?_, hs.cons₂ ij⟩
      simp only [List.foldl_cons, Bool.not_eq_true] at *
      rw [if_neg (by simp [h]), hl, List.append_assoc]
      rfl

theorem greedyAccept_pairwise (props : List (Nat × Nat)) : ∀ acc : List (Nat × Nat),
    List.Pairwise (fun a b => a.1 ≠ b.1 ∧ a.2 ≠ b.2) acc →
    List.Pairwise (fun a b => a.1 ≠ b.1 ∧ a.2 ≠ b.2)
      (props.foldl
        (fun acc ij => if acc.any (fun kl => kl.1 == ij.1 || kl.2 == ij.2) then acc else acc ++ [ij])
        acc) := by
  induction props with
  | nil => exact fun acc h => h
  | cons ij rest ih =>
    intro acc hacc
    by_cases h : acc.any (fun kl => kl.1 == ij.1 || kl.2 == ij.2)
    · simpa [h] using ih acc hacc
    · have hfree : ∀ kl ∈ acc, kl.1 ≠ ij.1 ∧ kl.2 ≠ ij.2 := by
        intro kl hkl
        constructor
        · intro he; exact h (List.any_eq_true.mpr ⟨kl, hkl, by simp [he]⟩)
        · intro he; exact h (List.any_eq_true.mpr ⟨kl, hkl, by simp [he]⟩)
      have : List.Pairwise (fun a b => a.1 ≠ b.1 ∧ a.2 ≠ b.2) (acc ++ [ij]) := by
        rw [List.pairwise_append]
        exact ⟨hacc, List.pairwise_singleton _ _, fun a ha b hb => by
          rw [List.mem_singleton] at hb
          exact hb ▸ hfree a ha⟩
      simpa [h] using ih (acc ++ [ij]) this

theorem prunedProposals_sorted (K : Nat) (oldU newU : List (Nat × Nat))
    (score : Nat → Nat → ℝ) :
    List.Pairwise (fun a b => score b.1 b.2 ≤ score a.1 a.2)
      (prunedProposals K oldU newU score) := by
  have := @List.sorted_mergeSort (Nat × Nat)
    (fun x y => decide (score y.1 y.2 ≤ score x.1 x.2))
    (fun a b c hab hbc => by
      simp only [decide_eq_true_eq] at *
      exact le_trans hbc hab)
    (fun a b => by
      simp only [Bool.or_eq_true, decide_eq_true_eq]
      exact le_total (score b.1 b.2) (score a.1 a.2))
    (oldU.flatMap (fun o => (shortlistK K o.2 newU).map (fun j => (o.1, j))))
  exact this.imp (fun h => by simpa using h)

theorem prunedGreedy_spec (K : Nat) (oldU newU : List (Nat × Nat)) (score : Nat → Nat → ℝ) :
    List.Pairwise (fun a b => a.1 ≠ b.1 ∧ a.2 ≠ b.2) (prunedGreedy K oldU newU score) ∧
    List.Pairwise (fun a b => score b.1 b.2 ≤ score a.1 a.2) (prunedGreedy K oldU newU score) ∧
    ∀ p ∈ prunedGreedy K oldU newU score,
      ∃ o ∈ oldU, o.1 = p.1 ∧ p.2 ∈ shortlistK K o.2 newU := by
  obtain ⟨l, hl, hs⟩ := greedyAccept_split (prunedProposals K oldU newU score) []
  have hres : prunedGreedy K oldU newU score = l := by
    rw [prunedGreedy, greedyAccept, hl]; rfl
  refine ⟨greedyAccept_pairwise _ [] (List.Pairwise.nil), ?_, ?_⟩
  · rw [hres]
    exact List.Pairwise.sublist hs (prunedProposals_sorted K oldU newU score)
  · intro p hp
    rw [hres] at hp
    have hp' : p ∈ prunedProposals K oldU newU score := hs.subset hp
    have : p ∈ oldU.flatMap (fun o => (shortlistK K o.2 newU).map (fun j => (o.1, j))) :=
      (List.mergeSort_perm _ _).subset hp'
    rw [List.mem_flatMap] at this
    obtain ⟨o, ho, hmem⟩ := this
    rw [List.mem_map] at hmem
    obtain ⟨j, hj, hpj⟩ := hmem
    exact ⟨o, ho, by rw [← hpj], by rw [← hpj]; exact hj⟩

/-- C3 (spec-modelled): for every replace span whose size exceeds the cap, the solver
does not run the bounded exact-assignment mode but matches in pruned greedy mode: each
accepted pair comes from the simhash shortlist of its old line, proposals are accepted
in descending score order, and no old or new index is consumed twice. -/
theorem c3_pruned_greedy_mode (cap K : Nat) (oldU newU : List (Nat × Nat))
    (score : Nat → Nat → ℝ) (M : List (List ℝ))
    (hbig : cap < max oldU.length newU.length) :
    solveSpan cap K oldU newU score M = prunedGreedy K oldU newU score ∧
    List.Pairwise (fun a b => a.1 ≠ b.1 ∧ a.2 ≠ b.2) (solveSpan cap K oldU newU score M) ∧
    List.Pairwise (fun a b => score b.1 b.2 ≤ score a.1 a.2)
      (solveSpan cap K oldU newU score M) ∧
    ∀ p ∈ solveSpan cap K oldU newU score M,
      ∃ o ∈ oldU, o.1 = p.1 ∧ p.2 ∈ shortlistK K o.2 newU := by
  have hmode : solveSpan cap K oldU newU score M = prunedGreedy K oldU newU score := by
    rw [solveSpan, if_pos hbig]
  obtain ⟨h1, h2, h3⟩ := prunedGreedy_spec K oldU newU score
  exact ⟨hmode, hmode ▸ h1, hmode ▸ h2, hmode ▸ h3⟩

/-! Bounds of find_longest_match: the reported match lies inside the queried region.
The dictionary invariant bounds every stored run length by the number of processed rows
and by the distance of its column from blo. -/

theorem flmInner_bounds (alo blo bhi i : Nat) (prev : Nat → Nat)
    (hprev : ∀ x, prev x ≤ i - alo ∧ (prev x ≠ 0 → blo ≤ x ∧ prev x ≤ x + 1 - blo))
    (hi : alo ≤ i) :
    ∀ (cand : List Nat) (st : (Nat → Nat) × Nat × Nat × Nat),
      (∀ j ∈ cand, blo ≤ j ∧ j < bhi) →
      (∀ x, st.1 x ≤ i + 1 - alo ∧ (st.1 x ≠ 0 → blo ≤ x ∧ st.1 x ≤ x + 1 - blo)) →
      alo ≤ st.2.1 ∧ blo ≤ st.2.2.1 ∧ st.2.1 + st.2.2.2 ≤ i + 1 ∧ st.2.2.1 + st.2.2.2 ≤ bhi →
      (∀ x, (cand.foldl (flmStep prev i) st).1 x ≤ i + 1 - alo ∧
          ((cand.foldl (flmStep prev i) st).1 x ≠ 0 →
            blo ≤ x ∧ (cand.foldl (flmStep prev i) st).1 x ≤ x + 1 - blo)) ∧
        (alo ≤ (cand.foldl (flmStep prev i) st).2.1 ∧
          blo ≤ (cand.foldl (flmStep prev i) st).2.2.1 ∧
          (cand.foldl (flmStep prev i) st).2.1 + (cand.foldl (flmStep prev i) st).2.2.2 ≤ i + 1 ∧
          (cand.foldl (flmStep prev i) st).2.2.1 + (cand.foldl (flmStep prev i) st).2.2.2 ≤ bhi) := by
  intro cand
  induction cand with
  | nil => exact fun st _ hdict hbest => ⟨hdict, hbest⟩
  | cons j rest ih =>
    intro st hcand hdict hbest
    simp only [List.foldl_cons]
    have hj := hcand j (List.mem_cons_self j rest)
    have hk : (if j = 0 then 0 else prev (j - 1)) + 1 ≤ i + 1 - alo ∧
        blo ≤ j ∧ (if j = 0 then 0 else prev (j - 1)) + 1 ≤ j + 1 - blo := by
      by_cases h0 : j = 0
      · subst h0
        rw [if_pos rfl]
        exact ⟨by omega, hj.1, by omega⟩
      · rw [if_neg h0]
        have h1 := (hprev (j - 1)).1
        have h2 := (hprev (j - 1)).2
        by_cases hz : prev (j - 1) = 0
        · rw [hz]
          exact ⟨by omega, hj.1, by omega⟩
        · have h3 := h2 hz
          exact ⟨by omega, hj.1, by omega⟩
    have hstep : (∀ x, (flmStep prev i st j).1 x ≤ i + 1 - alo ∧
          ((flmStep prev i st j).1 x ≠ 0 → blo ≤ x ∧ (flmStep prev i st j).1 x ≤ x + 1 - blo)) ∧
        (alo ≤ (flmStep prev i st j).2.1 ∧ blo ≤ (flmStep prev i st j).2.2.1 ∧
          (flmStep prev i st j).2.1 + (flmStep prev i st j).2.2.2 ≤ i + 1 ∧
          (flmStep prev i st j).2.2.1 + (flmStep prev i st j).2.2.2 ≤ bhi) := by
      rw [flmStep]
      have hdictnew : ∀ x, (fun x => if x = j then (if j = 0 then 0 else prev (j - 1)) + 1
            else st.1 x) x ≤ i + 1 - alo ∧
          ((fun x => if x = j then (if j = 0 then 0 else prev (j - 1)) + 1 else st.1 x) x ≠ 0 →
            blo ≤ x ∧ (fun x => if x = j then (if j = 0 then 0 else prev (j - 1)) + 1
              else st.1 x) x ≤ x + 1 - blo) := by
        intro x
        by_cases hx : x = j
        · simp only [hx, if_pos rfl]
          exact ⟨hk.1, fun _ => ⟨hk.2.1, hk.2.2⟩⟩
        · simp only [if_neg hx]
          exact hdict x
      by_cases hcmp : st.2.2.2 < (if j = 0 then 0 else prev (j - 1)) + 1
      · rw [if_pos hcmp]
        refine ⟨hdictnew, ?_, ?_, ?_, ?_⟩ <;>
          · simp only []
            omega
      · rw [if_neg hcmp]
        exact ⟨hdictnew, hbest⟩
    exact ih (flmStep prev i st j) (fun x hx => hcand x (List.mem_cons_of_mem j hx))
      hstep.1 hstep.2

theorem flmLoop_fold_bounds (a b : List Chars) (alo blo bhi : Nat) :
    ∀ (len s : Nat) (st : (Nat → Nat) × Nat × Nat × Nat),
      alo ≤ s →
      (∀ x, st.1 x ≤ s - alo ∧ (st.1 x ≠ 0 → blo ≤ x ∧ st.1 x ≤ x + 1 - blo)) →
      (alo ≤ st.2.1 ∧ blo ≤ st.2.2.1 ∧ st.2.1 + st.2.2.2 ≤ s ∧ st.2.2.1 + st.2.2.2 ≤ bhi) →
      alo ≤ ((List.range' s len).foldl
          (fun st i =>
            (flmCandidates b (a.getD i []) blo bhi).foldl (flmStep st.1 i) ((fun _ => 0), st.2))
          st).2.1 ∧
        blo ≤ ((List.range' s len).foldl
          (fun st i =>
            (flmCandidates b (a.getD i []) blo bhi).foldl (flmStep st.1 i) ((fun _ => 0), st.2))
          st).2.2.1 ∧
        ((List.range' s len).foldl
          (fun st i =>
            (flmCandidates b (a.getD i []) blo bhi).foldl (flmStep st.1 i) ((fun _ => 0), st.2))
          st).2.1 +
          ((List.range' s len).foldl
            (fun st i =>
              (flmCandidates b (a.getD i []) blo bhi).foldl (flmStep st.1 i) ((fun _ => 0), st.2))
            st).2.2.2 ≤ s + len ∧
        ((List.range' s len).foldl
          (fun st i =>
            (flmCandidates b (a.getD i []) blo bhi).foldl (flmStep st.1 i) ((fun _ => 0), st.2))
          st).2.2.1 +
          ((List.range' s len).foldl
            (fun st i =>
              (flmCandidates b (a.getD i []) blo bhi).foldl (flmStep st.1 i) ((fun _ => 0), st.2))
            st).2.2.2 ≤ bhi := by
  intro len
  induction len with
  | zero =>
    intro s st hs hdict hbest
    simpa using ⟨hbest.1, hbest.2.1, hbest.2.2.1, hbest.2.2.2⟩
  | succ n ih =>
    intro s st hs hdict hbest
    have hcand : ∀ j ∈ flmCandidates b (a.getD s []) blo bhi, blo ≤ j ∧ j < bhi := by
      intro j hj
      constructor
      · have := (List.takeWhile_sublist _).subset hj
        rw [List.mem_filter] at this
        simpa using this.2
      · simpa using List.mem_takeWhile_imp hj
    have hinner := flmInner_bounds alo blo bhi s st.1 hdict hs
      (flmCandidates b (a.getD s []) blo bhi) ((fun _ => 0), st.2) hcand
      (fun x => by simp)
      ⟨hbest.1, hbest.2.1, Nat.le_succ_of_le hbest.2.2.1, hbest.2.2.2⟩
    rw [List.range'_succ, List.foldl_cons]
    have := ih (s + 1)
      ((flmCandidates b (a.getD s []) blo bhi).foldl (flmStep st.1 s) ((fun _ => 0), st.2))
      (Nat.le_succ_of_le hs) hinner.1 hinner.2
    rw [show s + (n + 1) = s + 1 + n by omega]
    exact this

theorem extendLow_bounds (a b : List Chars) (alo blo : Nat) :
    ∀ (fuel besti bestj size : Nat),
      alo ≤ besti → blo ≤ bestj →
      alo ≤ (extendLow a b alo blo fuel besti bestj size).1 ∧
        blo ≤ (extendLow a b alo blo fuel besti bestj size).2.1 ∧
        (extendLow a b alo blo fuel besti bestj size).1 +
            (extendLow a b alo blo fuel besti bestj size).2.2 = besti + size ∧
        (extendLow a b alo blo fuel besti bestj size).2.1 +
            (extendLow a b alo blo fuel besti bestj size).2.2 = bestj + size := by
  intro fuel
  induction fuel with
  | zero => exact fun besti bestj size h1 h2 => ⟨h1, h2, rfl, rfl⟩
  | succ n ih =>
    intro besti bestj size h1 h2
    rw [extendLow]
    by_cases h : alo < besti ∧ blo < bestj ∧ a.getD (besti - 1) [] = b.getD (bestj - 1) []
    · rw [if_pos h]
      have := ih (besti - 1) (bestj - 1) (size + 1) (by omega) (by omega)
      refine ⟨this.1, this.2.1, ?_, ?_⟩ <;> omega
    · rw [if_neg h]
      exact ⟨h1, h2, rfl, rfl⟩

theorem extendHigh_bounds (a b : List Chars) (ahi bhi besti bestj : Nat) :
    ∀ (fuel size : Nat),
      besti + size ≤ ahi → bestj + size ≤ bhi →
      size ≤ extendHigh a b ahi bhi besti bestj fuel size ∧
        besti + extendHigh a b ahi bhi besti bestj fuel size ≤ ahi ∧
        bestj + extendHigh a b ahi bhi besti bestj fuel size ≤ bhi := by
  intro fuel
  induction fuel with
  | zero => exact fun size h1 h2 => ⟨Nat.le_refl size, h1, h2⟩
  | succ n ih =>
    intro size h1 h2
    rw [extendHigh]
    by_cases h : besti + size < ahi ∧ bestj + size < bhi ∧
        a.getD (besti + size) [] = b.getD (bestj + size) []
    · rw [if_pos h]
      have := ih (size + 1) (by omega) (by omega)
      exact ⟨by omega, this.2.1, this.2.2⟩
    · rw [if_neg h]
      exact ⟨Nat.le_refl size, h1, h2⟩

theorem flm_bounds (a b : List Chars) (alo ahi blo bhi : Nat) (hA : alo ≤ ahi)
    (hB : blo ≤ bhi) :
    alo ≤ (findLongestMatch a b alo ahi blo bhi).1 ∧
      blo ≤ (findLongestMatch a b alo ahi blo bhi).2.1 ∧
      (findLongestMatch a b alo ahi blo bhi).1 + (findLongestMatch a b alo ahi blo bhi).2.2 ≤ ahi ∧
      (findLongestMatch a b alo ahi blo bhi).2.1 +
        (findLongestMatch a b alo ahi blo bhi).2.2 ≤ bhi := by
  have hloop := flmLoop_fold_bounds a b alo blo bhi (ahi - alo) alo
    ((fun _ => 0), alo, blo, 0) (Nat.le_refl alo) (fun x => by simp)
    ⟨Nat.le_refl alo, Nat.le_refl blo, by simp, by simpa using hB⟩
  rw [show alo + (ahi - alo) = ahi by omega] at hloop
  set st := flmLoop a b alo ahi blo bhi with hst
  have hstdef : st = (List.range' alo (ahi - alo)).foldl
      (fun st i =>
        (flmCandidates b (a.getD i []) blo bhi).foldl (flmStep st.1 i) ((fun _ => 0), st.2))
      ((fun _ => 0), alo, blo, 0) := rfl
  rw [← hstdef] at hloop
  have hlow := extendLow_bounds a b alo blo st.2.1 st.2.1 st.2.2.1 st.2.2.2
    hloop.1 hloop.2.1
  set e := extendLow a b alo blo st.2.1 st.2.1 st.2.2.1 st.2.2.2 with he
  have hhigh := extendHigh_bounds a b ahi bhi e.1 e.2.1 ahi e.2.2
    (by omega) (by omega)
  rw [findLongestMatch]
  refine ⟨?_, ?_, ?_, ?_⟩
  · exact hlow.1
  · exact hlow.2.1
  · exact hhigh.2.1
  · exact hhigh.2.2

/-! Chain structure of the matching blocks and the tiling structure of the opcodes. -/

theorem blocksChain_mono_lo {loI loJ loI' loJ' : Nat} {l : List (Nat × Nat × Nat)}
    {hiI hiJ : Nat} (h1 : loI' ≤ loI) (h2 : loJ' ≤ loJ) (h : BlocksChain loI loJ l hiI hiJ) :
    BlocksChain loI' loJ' l hiI hiJ := by
  cases l with
  | nil => exact ⟨le_trans h1 h.1, le_trans h2 h.2⟩
  | cons bl rest => exact ⟨le_trans h1 h.1, le_trans h2 h.2.1, h.2.2.1, h.2.2.2⟩

theorem blocksChain_append {l1 l2 : List (Nat × Nat × Nat)} :
    ∀ {loI loJ midI midJ hiI hiJ : Nat}, BlocksChain loI loJ l1 midI midJ →
      BlocksChain midI midJ l2 hiI hiJ → BlocksChain loI loJ (l1 ++ l2) hiI hiJ := by
  induction l1 with
  | nil =>
    intro loI loJ midI midJ hiI hiJ h1 h2
    exact blocksChain_mono_lo h1.1 h1.2 h2
  | cons bl rest ih =>
    intro loI loJ midI midJ hiI hiJ h1 h2
    exact ⟨h1.1, h1.2.1, h1.2.2.1, ih h1.2.2.2 h2⟩

theorem blocksChain_rec_spec (a b : List Chars) :
    ∀ (fuel alo ahi blo bhi : Nat), alo ≤ ahi → blo ≤ bhi →
      (ahi - alo) + (bhi - blo) < fuel →
      BlocksChain alo blo (matchingBlocksRec a b fuel alo ahi blo bhi) ahi bhi := by
  intro fuel
  induction fuel with
  | zero => intro alo ahi blo bhi _ _ hf; omega
  | succ n ih =>
    intro alo ahi blo bhi hA hB hf
    rw [matchingBlocksRec]
    have hb := flm_bounds a b alo ahi blo bhi hA hB
    set m := findLongestMatch a b alo ahi blo bhi with hm
    by_cases h0 : m.2.2 = 0
    · rw [if_pos h0]
      exact ⟨hA, hB⟩
    · rw [if_neg h0]
      have h1 : BlocksChain alo blo
          (if alo < m.1 ∧ blo < m.2.1 then matchingBlocksRec a b n alo m.1 blo m.2.1 else [])
          m.1 m.2.1 := by
        by_cases hg : alo < m.1 ∧ blo < m.2.1
        · rw [if_pos hg]
          exact ih alo m.1 blo m.2.1 (le_of_lt hg.1) (le_of_lt hg.2) (by omega)
        · rw [if_neg hg]
          exact ⟨hb.1, hb.2.1⟩
      have h3 : BlocksChain (m.1 + m.2.2) (m.2.1 + m.2.2)
          (if m.1 + m.2.2 < ahi ∧ m.2.1 + m.2.2 < bhi then
            matchingBlocksRec a b n (m.1 + m.2.2) ahi (m.2.1 + m.2.2) bhi
          else []) ahi bhi := by
        by_cases hg : m.1 + m.2.2 < ahi ∧ m.2.1 + m.2.2 < bhi
        · rw [if_pos hg]
          exact ih (m.1 + m.2.2) ahi (m.2.1 + m.2.2) bhi (le_of_lt hg.1) (le_of_lt hg.2)
            (by omega)
        · rw [if_neg hg]
          exact ⟨hb.2.2.1, hb.2.2.2⟩
      exact blocksChain_append
        (blocksChain_append h1 ⟨Nat.le_refl _, Nat.le_refl _, by omega, Nat.le_refl _, Nat.le_refl _⟩)
        h3

theorem blocksChain_lb {l : List (Nat × Nat × Nat)} :
    ∀ {loI loJ hiI hiJ : Nat}, BlocksChain loI loJ l hiI hiJ →
      ∀ y ∈ l, loI ≤ y.1 ∧ loJ ≤ y.2.1 := by
  induction l with
  | nil => intro _ _ _ _ _ y hy; exact absurd hy (List.not_mem_nil y)
  | cons bl rest ih =>
    intro loI loJ hiI hiJ h y hy
    rcases List.mem_cons.mp hy with hy | hy
    · rw [hy]; exact ⟨h.1, h.2.1⟩
    · have := ih h.2.2.2 y hy
      exact ⟨le_trans h.1 (le_trans (Nat.le_add_right _ _) this.1),
        le_trans h.2.1 (le_trans (Nat.le_add_right _ _) this.2)⟩

theorem blocksChain_pairwise {l : List (Nat × Nat × Nat)} :
    ∀ {loI loJ hiI hiJ : Nat}, BlocksChain loI loJ l hiI hiJ →
      List.Pairwise (fun x y => tripleLe x y = true) l := by
  induction l with
  | nil => exact fun _ => List.Pairwise.nil
  | cons bl rest ih =>
    intro loI loJ hiI hiJ h
    refine List.Pairwise.cons ?_ (ih h.2.2.2)
    intro y hy
    have hlb := blocksChain_lb h.2.2.2 y hy
    simp only [tripleLe, decide_eq_true_eq]
    have hk := h.2.2.1
    omega

theorem opsCover_append {l1 l2 : List Opcode} :
    ∀ {p q r s t u : Nat}, OpsCover p q l1 r s → OpsCover r s l2 t u →
      OpsCover p q (l1 ++ l2) t u := by
  induction l1 with
  | nil =>
    intro p q r s t u h1 h2
    rw [show p = r from h1.1, show q = s from h1.2]
    exact h2
  | cons op rest ih =>
    intro p q r s t u h1 h2
    exact ⟨h1.1, ih h1.2 h2⟩

theorem opStep_cover {i j : Nat} {acc : List Opcode} {bl : Nat × Nat × Nat}
    (hcov : OpsCover 0 0 acc i j) (hij : i ≤ bl.1) (hjj : j ≤ bl.2.1) :
    OpsCover 0 0 (opStep (i, j, acc) bl).2.2 (bl.1 + bl.2.2) (bl.2.1 + bl.2.2) ∧
      (opStep (i, j, acc) bl).1 = bl.1 + bl.2.2 ∧
      (opStep (i, j, acc) bl).2.1 = bl.2.1 + bl.2.2 := by
  refine ⟨?_, rfl, rfl⟩
  have hgap : OpsCover 0 0
      (if i < bl.1 ∧ j < bl.2.1 then acc ++ [⟨Tag.replace, i, bl.1, j, bl.2.1⟩]
        else if i < bl.1 then acc ++ [⟨Tag.delete, i, bl.1, j, bl.2.1⟩]
        else if j < bl.2.1 then acc ++ [⟨Tag.insert, i, bl.1, j, bl.2.1⟩]
        else acc) bl.1 bl.2.1 := by
    by_cases h1 : i < bl.1 ∧ j < bl.2.1
    · rw [if_pos h1]
      exact opsCover_append hcov ⟨⟨rfl, rfl, h1.1, h1.2⟩, rfl, rfl⟩
    · rw [if_neg h1]
      by_cases h2 : i < bl.1
      · rw [if_pos h2]
        have hj2 : bl.2.1 = j := by omega
        exact opsCover_append hcov ⟨⟨rfl, rfl, h2, hj2⟩, rfl, rfl⟩
      · rw [if_neg h2]
        by_cases h3 : j < bl.2.1
        · rw [if_pos h3]
          have hi2 : bl.1 = i := by omega
          exact opsCover_append hcov ⟨⟨rfl, rfl, hi2, h3⟩, rfl, rfl⟩
        · rw [if_neg h3]
          have hi2 : i = bl.1 := by omega
          have hj2 : j = bl.2.1 := by omega
          rw [← hi2, ← hj2]
          exact hcov
  show OpsCover 0 0
      (if bl.2.2 ≠ 0 then _ ++ [⟨Tag.equal, bl.1, bl.1 + bl.2.2, bl.2.1, bl.2.1 + bl.2.2⟩]
        else _) _ _
  by_cases h4 : bl.2.2 ≠ 0
  · rw [if_pos h4]
    exact opsCover_append hgap
      ⟨⟨rfl, rfl, (by omega : bl.1 < bl.1 + bl.2.2), (by omega : bl.2.1 < bl.2.1 + bl.2.2),
        (by omega : bl.1 + bl.2.2 - bl.1 = bl.2.1 + bl.2.2 - bl.2.1)⟩, rfl, rfl⟩
  · rw [if_neg h4]
    have : bl.2.2 = 0 := by omega
    rw [this, Nat.add_zero, Nat.add_zero]
    exact hgap

theorem opsFold_cover {l : List (Nat × Nat × Nat)} :
    ∀ {i j : Nat} {acc : List Opcode} {hiI hiJ : Nat},
      OpsCover 0 0 acc i j → BlocksChain i j l hiI hiJ →
      OpsCover 0 0 (l.foldl opStep (i, j, acc)).2.2 (l.foldl opStep (i, j, acc)).1
          (l.foldl opStep (i, j, acc)).2.1 ∧
        (l.foldl opStep (i, j, acc)).1 ≤ hiI ∧ (l.foldl opStep (i, j, acc)).2.1 ≤ hiJ := by
  induction l with
  | nil =>
    intro i j acc hiI hiJ hcov hchain
    exact ⟨hcov, hchain.1, hchain.2⟩
  | cons bl rest ih =>
    intro i j acc hiI hiJ hcov hchain
    simp only [List.foldl_cons]
    have hstep := opStep_cover hcov hchain.1 hchain.2.1
    have : opStep (i, j, acc) bl =
        (bl.1 + bl.2.2, bl.2.1 + bl.2.2, (opStep (i, j, acc) bl).2.2) := by
      exact Prod.ext hstep.2.1 (Prod.ext hstep.2.2 rfl)
    rw [this]
    exact ih hstep.1 hchain.2.2.2

theorem tripleLe_trans (a b c : Nat × Nat × Nat) (h1 : tripleLe a b = true)
    (h2 : tripleLe b c = true) : tripleLe a c = true := by
  simp only [tripleLe, decide_eq_true_eq] at h1 h2 ⊢
  omega

theorem tripleLe_total (a b : Nat × Nat × Nat) : (tripleLe a b || tripleLe b a) = true := by
  simp only [Bool.or_eq_true, tripleLe, decide_eq_true_eq]
  omega

theorem tripleLe_antisymm (a b : Nat × Nat × Nat) (h1 : tripleLe a b = true)
    (h2 : tripleLe b a = true) : a = b := by
  obtain ⟨a1, a2, a3⟩ := a
  obtain ⟨b1, b2, b3⟩ := b
  simp only [tripleLe, decide_eq_true_eq] at h1 h2
  simp only [Prod.mk.injEq]
  omega

theorem mergeSort_tripleLe_eq {l l' : List (Nat × Nat × Nat)} (hperm : l.Perm l')
    (hsort : List.Pairwise (fun x y => tripleLe x y = true) l') :
    l.mergeSort tripleLe = l' := by
  haveI : IsAntisymm (Nat × Nat × Nat) (fun x y => tripleLe x y = true) := ⟨tripleLe_antisymm⟩
  exact List.eq_of_perm_of_sorted ((List.mergeSort_perm l tripleLe).trans hperm)
    (List.sorted_mergeSort tripleLe_trans tripleLe_total l) hsort

theorem mergeFold_chain {hiI hiJ : Nat} :
    ∀ (l : List (Nat × Nat × Nat)) (st : (Nat × Nat × Nat) × List (Nat × Nat × Nat)),
      BlocksChain 0 0 st.2 st.1.1 st.1.2.1 →
      (st.1.2.2 = 0 → st.2 = [] ∧ st.1.1 = 0 ∧ st.1.2.1 = 0) →
      BlocksChain (st.1.1 + st.1.2.2) (st.1.2.1 + st.1.2.2) l hiI hiJ →
      BlocksChain 0 0
        (if (l.foldl mergeStep st).1.2.2 ≠ 0 then
          (l.foldl mergeStep st).2 ++ [(l.foldl mergeStep st).1]
        else (l.foldl mergeStep st).2) hiI hiJ := by
  intro l
  induction l with
  | nil =>
    intro st hacc hz hchain
    rw [List.foldl_nil]
    by_cases h : st.1.2.2 ≠ 0
    · rw [if_pos h]
      exact blocksChain_append hacc
        ⟨Nat.le_refl _, Nat.le_refl _, by omega, hchain.1, hchain.2⟩
    · rw [if_neg h]
      rw [(hz (by omega)).1]
      exact ⟨Nat.zero_le _, Nat.zero_le _⟩
  | cons x rest ih =>
    intro st hacc hz hchain
    rw [List.foldl_cons]
    by_cases hadj : st.1.1 + st.1.2.2 = x.1 ∧ st.1.2.1 + st.1.2.2 = x.2.1
    · have hstep : mergeStep st x = ((st.1.1, st.1.2.1, st.1.2.2 + x.2.2), st.2) := by
        rw [mergeStep, if_pos hadj]
      rw [hstep]
      apply ih
      · exact hacc
      · intro h0
        simp only [] at h0
        exact absurd hchain.2.2.1 (by simp at h0; omega)
      · have hrest := hchain.2.2.2
        have e1 : x.1 + x.2.2 = st.1.1 + (st.1.2.2 + x.2.2) := by omega
        have e2 : x.2.1 + x.2.2 = st.1.2.1 + (st.1.2.2 + x.2.2) := by omega
        rw [e1, e2] at hrest
        exact hrest
    · have hstep : mergeStep st x = (x, if st.1.2.2 ≠ 0 then st.2 ++ [st.1] else st.2) := by
        rw [mergeStep, if_neg hadj]
      rw [hstep]
      apply ih
      · by_cases h0 : st.1.2.2 ≠ 0
        · rw [if_pos h0]
          exact blocksChain_append hacc
            ⟨Nat.le_refl _, Nat.le_refl _, by omega, hchain.1, hchain.2.1⟩
        · rw [if_neg h0]
          rw [(hz (by omega)).1]
          exact ⟨Nat.zero_le _, Nat.zero_le _⟩
      · intro h0
        exact absurd hchain.2.2.1 (by simp at h0; omega)
      · exact hchain.2.2.2

theorem mergeAdjacent_chain {l : List (Nat × Nat × Nat)} {hiI hiJ : Nat}
    (h : BlocksChain 0 0 l hiI hiJ) : BlocksChain 0 0 (mergeAdjacent l) hiI hiJ := by
  have := mergeFold_chain l ((0, 0, 0), []) ⟨Nat.le_refl 0, Nat.le_refl 0⟩
    (fun _ => ⟨rfl, rfl, rfl⟩) (by simpa using h)
  simpa [mergeAdjacent] using this

theorem seqOpcodes_cover (a b : List Chars) :
    OpsCover 0 0 (seqOpcodes a b) a.length b.length := by
  have hchain : BlocksChain 0 0
      (matchingBlocksRec a b (a.length + b.length + 1) 0 a.length 0 b.length)
      a.length b.length :=
    blocksChain_rec_spec a b _ 0 a.length 0 b.length (Nat.zero_le _) (Nat.zero_le _) (by omega)
  have hsorted : (matchingBlocksRec a b (a.length + b.length + 1) 0 a.length
        0 b.length).mergeSort tripleLe =
      matchingBlocksRec a b (a.length + b.length + 1) 0 a.length 0 b.length :=
    mergeSort_tripleLe_eq (List.Perm.refl _) (blocksChain_pairwise hchain)
  have hmerge := mergeAdjacent_chain hchain
  have hmb : matchingBlocks a b =
      mergeAdjacent (matchingBlocksRec a b (a.length + b.length + 1) 0 a.length 0 b.length) ++
        [(a.length, b.length, 0)] := by
    simp only [matchingBlocks]
    rw [hsorted]
  rw [seqOpcodes, hmb, opcodesOf, List.foldl_append]
  have hfold := @opsFold_cover
    (mergeAdjacent (matchingBlocksRec a b (a.length + b.length + 1) 0 a.length 0 b.length))
    0 0 [] a.length b.length ⟨rfl, rfl⟩ hmerge
  set r := (mergeAdjacent
      (matchingBlocksRec a b (a.length + b.length + 1) 0 a.length 0 b.length)).foldl
    opStep (0, 0, []) with hr
  rw [List.foldl_cons, List.foldl_nil]
  have hstep := @opStep_cover _ _ _ (a.length, b.length, 0) hfold.1 hfold.2.1 hfold.2.2
  simpa using hstep.1

/-! Concrete evaluation machinery: the pipeline is structurally computable except for
the two mergeSort calls (opaque to the kernel) and the real-valued scores, which are
resolved by the lemmas below. -/

theorem seqOpcodes_eval (a b : List Chars) (L : List (Nat × Nat × Nat)) (ops : List Opcode)
    (h1 : matchingBlocksRec a b (a.length + b.length + 1) 0 a.length 0 b.length = L)
    (h2 : List.Pairwise (fun x y => tripleLe x y = true) L)
    (h3 : opcodesOf (mergeAdjacent L ++ [(a.length, b.length, 0)]) = ops) :
    seqOpcodes a b = ops := by
  simp only [seqOpcodes, matchingBlocks]
  rw [h1, mergeSort_tripleLe_eq (List.Perm.refl L) h2, h3]

theorem processOpcode_equal (kO kN : List Nat) (oT nT oC nC : List (List Chars))
    (st : EmitState) (i1 i2 j1 j2 : Nat) :
    processOpcode kO kN oT nT oC nC st ⟨Tag.equal, i1, i2, j1, j2⟩ =
      emitEqual kO kN st ⟨Tag.equal, i1, i2, j1, j2⟩ := rfl

theorem processOpcode_replace (kO kN : List Nat) (oT nT oC nC : List (List Chars))
    (st : EmitState) (i1 i2 j1 j2 : Nat) :
    processOpcode kO kN oT nT oC nC st ⟨Tag.replace, i1, i2, j1, j2⟩ =
      emitReplace kO kN oT nT oC nC st ⟨Tag.replace, i1, i2, j1, j2⟩ := rfl

theorem processOpcode_delete (kO kN : List Nat) (oT nT oC nC : List (List Chars))
    (st : EmitState) (i1 i2 j1 j2 : Nat) :
    processOpcode kO kN oT nT oC nC st ⟨Tag.delete, i1, i2, j1, j2⟩ =
      emitDelete kO st ⟨Tag.delete, i1, i2, j1, j2⟩ := rfl

theorem processOpcode_insert (kO kN : List Nat) (oT nT oC nC : List (List Chars))
    (st : EmitState) (i1 i2 j1 j2 : Nat) :
    processOpcode kO kN oT nT oC nC st ⟨Tag.insert, i1, i2, j1, j2⟩ =
      emitInsert kN st ⟨Tag.insert, i1, i2, j1, j2⟩ := rfl

theorem mapLines_eq_sorted_raw (pyHash : Chars → Int) (old_lines new_lines : List String) :
    mapLines pyHash old_lines new_lines = (rawMappings old_lines new_lines).mergeSort keyLe :=
  rfl

theorem rawMappings_blank_empty : rawMappings [""] [] = [] := by
  have hops : seqOpcodes (normKept [""]) (normKept []) = [] :=
    seqOpcodes_eval _ _ [] [] (by decide) List.Pairwise.nil (by decide)
  simp only [rawMappings, hops, List.foldl_nil]

theorem rawMappings_blank_blank : rawMappings [""] [""] = [] := by
  have hops : seqOpcodes (normKept [""]) (normKept [""]) = [] :=
    seqOpcodes_eval _ _ [] [] (by decide) List.Pairwise.nil (by decide)
  simp only [rawMappings, hops, List.foldl_nil]

theorem mapLines_a_a : mapLines (fun _ => 0) ["a"] ["a"] = [⟨some 1, some 1⟩] := by
  have hops : seqOpcodes (normKept ["a"]) (normKept ["a"]) = [⟨Tag.equal, 0, 1, 0, 1⟩] :=
    seqOpcodes_eval _ _ [(0, 0, 1)] _ (by decide) (by decide) (by decide)
  have hraw : rawMappings ["a"] ["a"] = [⟨some 1, some 1⟩] := by
    simp only [rawMappings, hops, List.foldl_cons, List.foldl_nil, processOpcode_equal]
    decide
  rw [mapLines_eq_sorted_raw, hraw]
  exact sorted_raw_eq (by decide)

/-- C1 is false as stated: a whitespace-only line is dropped from the mapping
altogether.  For old_lines = [""] (N = 1) and new_lines = [], no output entry at all
carries old_line = 1, so index 1 does not appear in exactly one entry. -/
theorem c1_counterexample :
    List.countP (fun m => decide (m.old_line = some 1)) (mapLines (fun _ => 0) [""] []) = 0 ∧
      ([""] : List String).length = 1 := by
  constructor
  · rw [mapLines_eq_sorted_raw, rawMappings_blank_empty, sorted_raw_eq List.Pairwise.nil]
    rfl
  · rfl

/-- C2 is false as stated: for old_lines = new_lines = [""] the identity output would
be [(1, 1)], but the blank line is dropped and map_lines returns the empty list. -/
theorem c2_counterexample :
    mapLines (fun _ => 0) [""] [""] = [] ∧
      ([] : List LineMapping) ≠ [⟨some 1, some 1⟩] := by
  constructor
  · rw [mapLines_eq_sorted_raw, rawMappings_blank_blank]
    exact sorted_raw_eq List.Pairwise.nil
  · decide

/-! Shape of the emitted mappings (claims C9 and C10). -/

theorem getD_mem_of_lt {α : Type} (l : List α) (i : Nat) (d : α) (h : i < l.length) :
    l.getD i d ∈ l := by
  rw [List.getD_eq_getElem _ _ h]
  exact List.getElem_mem h

theorem extract_pairs_bounds (p : Nat → Nat) (nR nC : Nat) :
    ∀ (js : List Nat) (acc : List (Nat × Nat)),
      (∀ rc ∈ acc, rc.1 < nR ∧ rc.2 < nC) →
      ∀ rc ∈ js.foldl
          (fun acc j =>
            if p j ≠ 0 ∧ p j - 1 < nR ∧ j - 1 < nC then acc ++ [(p j - 1, j - 1)] else acc)
          acc,
        rc.1 < nR ∧ rc.2 < nC := by
  intro js
  induction js with
  | nil => exact fun acc h => h
  | cons j rest ih =>
    intro acc hacc rc hrc
    rw [List.foldl_cons] at hrc
    refine ih _ ?_ rc hrc
    intro rc' hrc'
    by_cases hc : p j ≠ 0 ∧ p j - 1 < nR ∧ j - 1 < nC
    · rw [if_pos hc] at hrc'
      rcases List.mem_append.mp hrc' with h | h
      · exact hacc rc' h
      · rw [List.mem_singleton] at h
        rw [h]
        exact ⟨hc.2.1, hc.2.2⟩
    · rw [if_neg hc] at hrc'
      exact hacc rc' hrc'

theorem maxAssignment_mem (M : List (List ℝ)) :
    ∀ rc ∈ maxAssignment M, rc.1 < M.length ∧ rc.2 < (M.headD []).length := by
  intro rc hrc
  by_cases h : M = [] ∨ M.headD [] = []
  · rw [maxAssignment, if_pos h] at hrc
    exact absurd hrc (List.not_mem_nil rc)
  · simp only [maxAssignment, if_neg h] at hrc
    exact extract_pairs_bounds _ M.length (M.headD []).length _ []
      (fun rc' hrc' => absurd hrc' (List.not_mem_nil rc')) rc hrc

theorem simMatrix_length (oldTok newTok oldCtx newCtx : List (List Chars))
    (blockOld blockNew : List Nat) :
    (simMatrix oldTok newTok oldCtx newCtx blockOld blockNew).length = blockOld.length := by
  simp [simMatrix]

theorem simMatrix_headD_length (oldTok newTok oldCtx newCtx : List (List Chars))
    (x : Nat) (rest : List Nat) (blockNew : List Nat) :
    ((simMatrix oldTok newTok oldCtx newCtx (x :: rest) blockNew).headD []).length =
      blockNew.length := by
  simp [simMatrix, List.enum_cons]

theorem foldl_maps_add {α β : Type} (P : LineMapping → Prop) (proj : β → EmitState) :
    ∀ (xs : List α) (f : β → α → β),
      (∀ s x, x ∈ xs → ∃ l, (proj (f s x)).maps = (proj s).maps ++ l ∧ ∀ m ∈ l, P m) →
      ∀ s, ∃ l, (proj (xs.foldl f s)).maps = (proj s).maps ++ l ∧ ∀ m ∈ l, P m := by
  intro xs
  induction xs with
  | nil => exact fun f _ s => ⟨[], by simp, fun m hm => absurd hm (List.not_mem_nil m)⟩
  | cons x rest ih =>
    intro f hf s
    obtain ⟨l1, hl1, hp1⟩ := hf s x (List.mem_cons_self x rest)
    obtain ⟨l2, hl2, hp2⟩ := ih f (fun s' x' hx' => hf s' x' (List.mem_cons_of_mem x hx')) (f s x)
    refine ⟨l1 ++ l2, ?_, ?_⟩
    · rw [List.foldl_cons, hl2, hl1, List.append_assoc]
    · intro m hm
      rcases List.mem_append.mp hm with h | h
      · exact hp1 m h
      · exact hp2 m h

theorem emitEqual_shape (kO kN : List Nat) (st : EmitState) (op : Opcode) :
    ∃ l, (emitEqual kO kN st op).maps = st.maps ++ l ∧
      ∀ m ∈ l, ∃ k, k < op.i2 - op.i1 ∧
        m = ⟨some (kO.getD (op.i1 + k) 0 + 1), some (kN.getD (op.j1 + k) 0 + 1)⟩ := by
  apply foldl_maps_add _ (fun s : EmitState => s)
  intro s k hk
  refine ⟨[⟨some (kO.getD (op.i1 + k) 0 + 1), some (kN.getD (op.j1 + k) 0 + 1)⟩], rfl, ?_⟩
  intro m hm
  rw [List.mem_singleton] at hm
  exact ⟨k, List.mem_range.mp hk, hm⟩

theorem emitDelete_shape (kO : List Nat) (st : EmitState) (op : Opcode) :
    ∃ l, (emitDelete kO st op).maps = st.maps ++ l ∧
      ∀ m ∈ l, ∃ oi, oi ∈ List.range' op.i1 (op.i2 - op.i1) ∧
        m = ⟨some (kO.getD oi 0 + 1), none⟩ := by
  apply foldl_maps_add _ (fun s : EmitState => s)
  intro s oi hoi
  by_cases hmem : oi ∈ s.mappedOld
  · exact ⟨[], by simp [hmem], fun m hm => absurd hm (List.not_mem_nil m)⟩
  · exact ⟨[⟨some (kO.getD oi 0 + 1), none⟩], by simp [hmem],
      fun m hm => ⟨oi, hoi, List.mem_singleton.mp hm⟩⟩

theorem emitInsert_shape (kN : List Nat) (st : EmitState) (op : Opcode) :
    ∃ l, (emitInsert kN st op).maps = st.maps ++ l ∧
      ∀ m ∈ l, ∃ nj, nj ∈ List.range' op.j1 (op.j2 - op.j1) ∧
        m = ⟨none, some (kN.getD nj 0 + 1)⟩ := by
  apply foldl_maps_add _ (fun s : EmitState => s)
  intro s nj hnj
  by_cases hmem : nj ∈ s.mappedNew
  · exact ⟨[], by simp [hmem], fun m hm => absurd hm (List.not_mem_nil m)⟩
  · exact ⟨[⟨none, some (kN.getD nj 0 + 1)⟩], by simp [hmem],
      fun m hm => ⟨nj, hnj, List.mem_singleton.mp hm⟩⟩

theorem emitReplace_shape (kO kN : List Nat) (oT nT oC nC : List (List Chars))
    (st : EmitState) (op : Opcode) :
    ∃ l, (emitReplace kO kN oT nT oC nC st op).maps = st.maps ++ l ∧
      ∀ m ∈ l,
        (∃ oi nj, oi ∈ List.range' op.i1 (op.i2 - op.i1) ∧
          nj ∈ List.range' op.j1 (op.j2 - op.j1) ∧
          m = ⟨some (kO.getD oi 0 + 1), some (kN.getD nj 0 + 1)⟩) ∨
        (∃ oi, oi ∈ List.range' op.i1 (op.i2 - op.i1) ∧
          m = ⟨some (kO.getD oi 0 + 1), none⟩) ∨
        (∃ nj, nj ∈ List.range' op.j1 (op.j2 - op.j1) ∧
          m = ⟨none, some (kN.getD nj 0 + 1)⟩) := by
  set bO := List.range' op.i1 (op.i2 - op.i1) with hbO
  set bN := List.range' op.j1 (op.j2 - op.j1) with hbN
  set M := simMatrix oT nT oC nC bO bN with hM
  set A := maxAssignment M with hA
  set acc := A.foldl (repAcceptStep kO kN bO bN M) (st, ([] : List Nat), ([] : List Nat))
    with hacc
  have hdef : emitReplace kO kN oT nT oC nC st op =
      bN.foldl (repLeftNewStep kN acc.2.2) (bO.foldl (repLeftOldStep kO acc.2.1) acc.1) := rfl
  have h1 := foldl_maps_add
    (fun m => ∃ oi nj, oi ∈ bO ∧ nj ∈ bN ∧
      m = ⟨some (kO.getD oi 0 + 1), some (kN.getD nj 0 + 1)⟩)
    (fun t : EmitState × List Nat × List Nat => t.1) A (repAcceptStep kO kN bO bN M)
    (by
      intro s rc hrc
      rw [repAcceptStep]
      by_cases hsc : (M.getD rc.1 []).getD rc.2 0 < 0.1
      · rw [if_pos hsc]
        exact ⟨[], by simp, fun m hm => absurd hm (List.not_mem_nil m)⟩
      · rw [if_neg hsc]
        have hb := maxAssignment_mem M rc hrc
        have hlen : M.length = bO.length := simMatrix_length oT nT oC nC bO bN
        have hoi : bO.getD rc.1 0 ∈ bO := getD_mem_of_lt bO rc.1 0 (by omega)
        have hnj : bN.getD rc.2 0 ∈ bN := by
          rcases hbo : bO with _ | ⟨x, rest⟩
          · rw [hbo] at hlen
            have hM0 : M = [] := List.length_eq_zero.mp (by simpa using hlen)
            rw [hA, hM0] at hrc
            rw [show maxAssignment [] = [] by rw [maxAssignment, if_pos (Or.inl rfl)]] at hrc
            exact absurd hrc (List.not_mem_nil rc)
          · have := simMatrix_headD_length oT nT oC nC x rest bN
            rw [← hbo, ← hM] at this
            exact getD_mem_of_lt bN rc.2 0 (by omega)
        exact ⟨[⟨some (kO.getD (bO.getD rc.1 0) 0 + 1), some (kN.getD (bN.getD rc.2 0) 0 + 1)⟩],
          rfl, fun m hm => ⟨bO.getD rc.1 0, bN.getD rc.2 0, hoi, hnj, List.mem_singleton.mp hm⟩⟩)
    (st, [], [])
  obtain ⟨l1, hl1, hp1⟩ := h1
  have h2 := foldl_maps_add (fun m => ∃ oi, oi ∈ bO ∧ m = ⟨some (kO.getD oi 0 + 1), none⟩)
    (fun s : EmitState => s) bO (repLeftOldStep kO acc.2.1)
    (by
      intro s oi hoi
      rw [repLeftOldStep]
      by_cases hmem : oi ∈ acc.2.1
      · rw [if_pos hmem]
        exact ⟨[], by simp, fun m hm => absurd hm (List.not_mem_nil m)⟩
      · rw [if_neg hmem]
        exact ⟨[⟨some (kO.getD oi 0 + 1), none⟩], rfl,
          fun m hm => ⟨oi, hoi, List.mem_singleton.mp hm⟩⟩)
    acc.1
  obtain ⟨l2, hl2, hp2⟩ := h2
  have h3 := foldl_maps_add (fun m => ∃ nj, nj ∈ bN ∧ m = ⟨none, some (kN.getD nj 0 + 1)⟩)
    (fun s : EmitState => s) bN (repLeftNewStep kN acc.2.2)
    (by
      intro s nj hnj
      rw [repLeftNewStep]
      by_cases hmem : nj ∈ acc.2.2
      · rw [if_pos hmem]
        exact ⟨[], by simp, fun m hm => absurd hm (List.not_mem_nil m)⟩
      · rw [if_neg hmem]
        exact ⟨[⟨none, some (kN.getD nj 0 + 1)⟩], rfl,
          fun m hm => ⟨nj, hnj, List.mem_singleton.mp hm⟩⟩)
    (bO.foldl (repLeftOldStep kO acc.2.1) acc.1)
  obtain ⟨l3, hl3, hp3⟩ := h3
  refine ⟨l1 ++ l2 ++ l3, ?_, ?_⟩
  · rw [hdef, hl3, hl2, hl1]
    simp [List.append_assoc]
  · intro m hm
    rcases List.mem_append.mp hm with hm | hm
    · rcases List.mem_append.mp hm with hm | hm
      · exact Or.inl (hp1 m hm)
      · exact Or.inr (Or.inl (hp2 m hm))
    · exact Or.inr (Or.inr (hp3 m hm))

theorem opsCover_pos_le {l : List Opcode} :
    ∀ {pI pJ eI eJ : Nat}, OpsCover pI pJ l eI eJ → pI ≤ eI ∧ pJ ≤ eJ := by
  induction l with
  | nil => exact fun h => ⟨le_of_eq h.1, le_of_eq h.2⟩
  | cons op rest ih =>
    intro pI pJ eI eJ h
    have hsh := h.1
    have hrest := ih h.2
    rcases htag : op.tag with _ | _ | _ | _ <;> rw [OpcodeShape, htag] at hsh
    · exact ⟨le_trans (le_of_lt hsh.2.2.1) hrest.1, le_trans (le_of_lt hsh.2.2.2.1) hrest.2⟩
    · exact ⟨le_trans (le_of_lt hsh.2.2.1) hrest.1, le_trans (le_of_lt hsh.2.2.2) hrest.2⟩
    · exact ⟨le_trans (le_of_lt hsh.2.2.1) hrest.1, le_trans (le_of_eq hsh.2.2.2.symm) hrest.2⟩
    · exact ⟨le_trans (le_of_eq hsh.2.2.1.symm) hrest.1, le_trans (le_of_lt hsh.2.2.2) hrest.2⟩

theorem opsCover_mem {l : List Opcode} :
    ∀ {pI pJ eI eJ : Nat}, OpsCover pI pJ l eI eJ →
      ∀ op ∈ l, OpcodeShape op.i1 op.j1 op ∧ op.i2 ≤ eI ∧ op.j2 ≤ eJ := by
  induction l with
  | nil => exact fun _ op hop => absurd hop (List.not_mem_nil op)
  | cons op0 rest ih =>
    intro pI pJ eI eJ h op hop
    rcases List.mem_cons.mp hop with hop | hop
    · subst hop
      have hpos := opsCover_pos_le h.2
      obtain ⟨h1, h2, h3⟩ := h.1
      subst h1
      subst h2
      exact ⟨⟨rfl, rfl, h3⟩, hpos.1, hpos.2⟩
    · exact ih h.2 op hop

theorem processOpcode_wellFormed (old_lines new_lines : List String) (st : EmitState)
    (op : Opcode) (hsh : OpcodeShape op.i1 op.j1 op)
    (hiend : op.i2 ≤ (keepIdx old_lines).length) (hjend : op.j2 ≤ (keepIdx new_lines).length)
    (hst : ∀ m ∈ st.maps, wellFormedMapping old_lines new_lines m) :
    ∀ m ∈ (processOpcode (keepIdx old_lines) (keepIdx new_lines) (tokKept old_lines)
        (tokKept new_lines) (ctxKept old_lines) (ctxKept new_lines) st op).maps,
      wellFormedMapping old_lines new_lines m := by
  have hOmem : ∀ oi, op.i1 ≤ oi → oi < op.i2 →
      1 ≤ (keepIdx old_lines).getD oi 0 + 1 ∧
        (keepIdx old_lines).getD oi 0 + 1 - 1 ∈ keepIdx old_lines := by
    intro oi _ hlt
    exact ⟨by omega, by
      simpa using getD_mem_of_lt (keepIdx old_lines) oi 0 (by omega)⟩
  have hNmem : ∀ nj, op.j1 ≤ nj → nj < op.j2 →
      1 ≤ (keepIdx new_lines).getD nj 0 + 1 ∧
        (keepIdx new_lines).getD nj 0 + 1 - 1 ∈ keepIdx new_lines := by
    intro nj _ hlt
    exact ⟨by omega, by
      simpa using getD_mem_of_lt (keepIdx new_lines) nj 0 (by omega)⟩
  intro m hm
  rcases htag : op.tag with _ | _ | _ | _ <;> rw [OpcodeShape, htag] at hsh
  · rw [processOpcode, htag] at hm
    obtain ⟨l, hl, hp⟩ := emitEqual_shape (keepIdx old_lines) (keepIdx new_lines) st op
    rw [hl] at hm
    rcases List.mem_append.mp hm with hm | hm
    · exact hst m hm
    · obtain ⟨k, hk, hmk⟩ := hp m hm
      subst hmk
      refine ⟨Or.inl (by simp), ?_, ?_⟩
      · intro v hv
        have hv' : v = (keepIdx old_lines).getD (op.i1 + k) 0 + 1 := by simpa using hv.symm
        subst hv'
        exact hOmem (op.i1 + k) (by omega) (by omega)
      · intro v hv
        have hv' : v = (keepIdx new_lines).getD (op.j1 + k) 0 + 1 := by simpa using hv.symm
        subst hv'
        exact hNmem (op.j1 + k) (by omega) (by omega)
  · rw [processOpcode, htag] at hm
    obtain ⟨l, hl, hp⟩ := emitReplace_shape (keepIdx old_lines) (keepIdx new_lines)
      (tokKept old_lines) (tokKept new_lines) (ctxKept old_lines) (ctxKept new_lines) st op
    rw [hl] at hm
    rcases List.mem_append.mp hm with hm | hm
    · exact hst m hm
    · rcases hp m hm with ⟨oi, nj, hoi, hnj, hmk⟩ | ⟨oi, hoi, hmk⟩ | ⟨nj, hnj, hmk⟩ <;>
        subst hmk
      · rw [List.mem_range'_1] at hoi hnj
        refine ⟨Or.inl (by simp), ?_, ?_⟩
        · intro v hv
          have hv' : v = (keepIdx old_lines).getD oi 0 + 1 := by simpa using hv.symm
          subst hv'
          exact hOmem oi hoi.1 (by omega)
        · intro v hv
          have hv' : v = (keepIdx new_lines).getD nj 0 + 1 := by simpa using hv.symm
          subst hv'
          exact hNmem nj hnj.1 (by omega)
      · rw [List.mem_range'_1] at hoi
        refine ⟨Or.inl (by simp), ?_, ?_⟩
        · intro v hv
          have hv' : v = (keepIdx old_lines).getD oi 0 + 1 := by simpa using hv.symm
          subst hv'
          exact hOmem oi hoi.1 (by omega)
        · intro v hv
          simp at hv
      · rw [List.mem_range'_1] at hnj
        refine ⟨Or.inr (by simp), ?_, ?_⟩
        · intro v hv
          simp at hv
        · intro v hv
          have hv' : v = (keepIdx new_lines).getD nj 0 + 1 := by simpa using hv.symm
          subst hv'
          exact hNmem nj hnj.1 (by omega)
  · rw [processOpcode, htag] at hm
    obtain ⟨l, hl, hp⟩ := emitDelete_shape (keepIdx old_lines) st op
    rw [hl] at hm
    rcases List.mem_append.mp hm with hm | hm
    · exact hst m hm
    · obtain ⟨oi, hoi, hmk⟩ := hp m hm
      subst hmk
      rw [List.mem_range'_1] at hoi
      refine ⟨Or.inl (by simp), ?_, ?_⟩
      · intro v hv
        have hv' : v = (keepIdx old_lines).getD oi 0 + 1 := by simpa using hv.symm
        subst hv'
        exact hOmem oi hoi.1 (by omega)
      · intro v hv
        simp at hv
  · rw [processOpcode, htag] at hm
    obtain ⟨l, hl, hp⟩ := emitInsert_shape (keepIdx new_lines) st op
    rw [hl] at hm
    rcases List.mem_append.mp hm with hm | hm
    · exact hst m hm
    · obtain ⟨nj, hnj, hmk⟩ := hp m hm
      subst hmk
      rw [List.mem_range'_1] at hnj
      refine ⟨Or.inr (by simp), ?_, ?_⟩
      · intro v hv
        simp at hv
      · intro v hv
        have hv' : v = (keepIdx new_lines).getD nj 0 + 1 := by simpa using hv.symm
        subst hv'
        exact hNmem nj hnj.1 (by omega)

theorem rawMappings_wellFormed (old_lines new_lines : List String) :
    ∀ m ∈ rawMappings old_lines new_lines, wellFormedMapping old_lines new_lines m := by
  have hcover := seqOpcodes_cover (normKept old_lines) (normKept new_lines)
  have hlen1 : (normKept old_lines).length = (keepIdx old_lines).length := by simp [normKept]
  have hlen2 : (normKept new_lines).length = (keepIdx new_lines).length := by simp [normKept]
  rw [hlen1, hlen2] at hcover
  rw [rawMappings]
  suffices h : ∀ (ops : List Opcode) (pI pJ : Nat) (st : EmitState),
      OpsCover pI pJ ops (keepIdx old_lines).length (keepIdx new_lines).length →
      (∀ m ∈ st.maps, wellFormedMapping old_lines new_lines m) →
      ∀ m ∈ (ops.foldl (processOpcode (keepIdx old_lines) (keepIdx new_lines)
          (tokKept old_lines) (tokKept new_lines) (ctxKept old_lines) (ctxKept new_lines))
          st).maps, wellFormedMapping old_lines new_lines m by
    exact h _ 0 0 ⟨[], [], []⟩ hcover (fun m hm => absurd hm (List.not_mem_nil m))
  intro ops
  induction ops with
  | nil => exact fun pI pJ st _ hst => hst
  | cons op rest ih =>
    intro pI pJ st hcov hst
    rw [List.foldl_cons]
    refine ih op.i2 op.j2 _ hcov.2 ?_
    have hmem := opsCover_mem hcov op (List.mem_cons_self op rest)
    exact processOpcode_wellFormed old_lines new_lines st op hmem.1 hmem.2.1 hmem.2.2 hst

theorem mapLines_wellFormed (pyHash : Chars → Int) (old_lines new_lines : List String) :
    ∀ m ∈ mapLines pyHash old_lines new_lines, wellFormedMapping old_lines new_lines m := by
  intro m hm
  rw [mapLines_eq_sorted_raw] at hm
  exact rawMappings_wellFormed old_lines new_lines m ((List.mergeSort_perm _ _).subset hm)

/-- C10: every LineMapping entry returned by map_lines has at least one of old_line and
new_line present (never both absent), and every present value is a positive integer
that is a valid 1-based index into the corresponding input sequence. -/
theorem c10_entries_wellformed (pyHash : Chars → Int) (old_lines new_lines : List String)
    (m : LineMapping) (hm : m ∈ mapLines pyHash old_lines new_lines) :
    (m.old_line ≠ none ∨ m.new_line ≠ none) ∧
      (∀ v, m.old_line = some v → 1 ≤ v ∧ v ≤ old_lines.length) ∧
      (∀ v, m.new_line = some v → 1 ≤ v ∧ v ≤ new_lines.length) := by
  obtain ⟨h1, h2, h3⟩ := mapLines_wellFormed pyHash old_lines new_lines m hm
  refine ⟨h1, ?_, ?_⟩
  · intro v hv
    obtain ⟨hv1, hv2⟩ := h2 v hv
    rw [keepIdx, List.mem_filter, List.mem_range] at hv2
    exact ⟨hv1, by omega⟩
  · intro v hv
    obtain ⟨hv1, hv2⟩ := h3 v hv
    rw [keepIdx, List.mem_filter, List.mem_range] at hv2
    exact ⟨hv1, by omega⟩

/-- Witness for c10_entries_wellformed at a concrete member of a concrete output. -/
theorem c10_entries_wellformed_witness :
    (⟨some 1, some 1⟩ : LineMapping) ∈ mapLines (fun _ => 0) ["a"] ["a"] ∧
      (((⟨some 1, some 1⟩ : LineMapping).old_line ≠ none ∨
          (⟨some 1, some 1⟩ : LineMapping).new_line ≠ none) ∧
        (∀ v, (⟨some 1, some 1⟩ : LineMapping).old_line = some v →
          1 ≤ v ∧ v ≤ (["a"] : List String).length) ∧
        (∀ v, (⟨some 1, some 1⟩ : LineMapping).new_line = some v →
          1 ≤ v ∧ v ≤ (["a"] : List String).length)) :=
  have hmem : (⟨some 1, some 1⟩ : LineMapping) ∈ mapLines (fun _ => 0) ["a"] ["a"] := by
    rw [mapLines_a_a]
    exact List.mem_singleton.mpr rfl
  ⟨hmem, c10_entries_wellformed (fun _ => 0) ["a"] ["a"] ⟨some 1, some 1⟩ hmem⟩

/-- C9: a line of old_lines or new_lines that is empty or whitespace-only appears in no
output entry of map_lines: its 1-based index occurs neither as an old_line nor as a
new_line of any entry. -/
theorem c9_blank_lines_unmapped (pyHash : Chars → Int) (old_lines new_lines : List String)
    (i : Nat) (_h1 : 1 ≤ i) :
    (keepLine (old_lines.getD (i - 1) "") = false →
      ∀ m ∈ mapLines pyHash old_lines new_lines, m.old_line ≠ some i) ∧
    (keepLine (new_lines.getD (i - 1) "") = false →
      ∀ m ∈ mapLines pyHash old_lines new_lines, m.new_line ≠ some i) := by
  constructor
  · intro hblank m hm hv
    obtain ⟨_, h2, _⟩ := mapLines_wellFormed pyHash old_lines new_lines m hm
    obtain ⟨_, hmem⟩ := h2 i hv
    rw [keepIdx, List.mem_filter, hblank] at hmem
    exact absurd hmem.2 (by simp)
  · intro hblank m hm hv
    obtain ⟨_, _, h3⟩ := mapLines_wellFormed pyHash old_lines new_lines m hm
    obtain ⟨_, hmem⟩ := h3 i hv
    rw [keepIdx, List.mem_filter, hblank] at hmem
    exact absurd hmem.2 (by simp)

/-- Witness for c9_blank_lines_unmapped on a concrete blank line. -/
theorem c9_blank_lines_unmapped_witness :
    1 ≤ 1 ∧
      ((keepLine (([""] : List String).getD (1 - 1) "") = false →
        ∀ m ∈ mapLines (fun _ => 0) [""] [""], m.old_line ≠ some 1) ∧
      (keepLine (([""] : List String).getD (1 - 1) "") = false →
        ∀ m ∈ mapLines (fun _ => 0) [""] [""], m.new_line ≠ some 1)) :=
  ⟨by decide, c9_blank_lines_unmapped (fun _ => 0) [""] [""] 1 (by decide)⟩

/-- Witness for c3_pruned_greedy_mode on a concrete oversized span. -/
theorem c3_pruned_greedy_mode_witness :
    (0 < max ([(1, 0)] : List (Nat × Nat)).length ([(2, 0)] : List (Nat × Nat)).length) ∧
      (solveSpan 0 15 [(1, 0)] [(2, 0)] (fun _ _ => 0) [] =
          prunedGreedy 15 [(1, 0)] [(2, 0)] (fun _ _ => 0) ∧
        List.Pairwise (fun a b => a.1 ≠ b.1 ∧ a.2 ≠ b.2)
          (solveSpan 0 15 [(1, 0)] [(2, 0)] (fun _ _ => 0) []) ∧
        List.Pairwise (fun a b => (fun _ _ => (0 : ℝ)) b.1 b.2 ≤ (fun _ _ => (0 : ℝ)) a.1 a.2)
          (solveSpan 0 15 [(1, 0)] [(2, 0)] (fun _ _ => 0) []) ∧
        ∀ p ∈ solveSpan 0 15 [(1, 0)] [(2, 0)] (fun _ _ => 0) [],
          ∃ o ∈ ([(1, 0)] : List (Nat × Nat)), o.1 = p.1 ∧ p.2 ∈ shortlistK 15 o.2 [(2, 0)]) :=
  ⟨by decide, c3_pruned_greedy_mode 0 15 [(1, 0)] [(2, 0)] (fun _ _ => 0) [] (by decide)⟩


/-! Hungarian algorithm: the returned assignment never repeats a row or a column. -/

theorem hungUpdateStep_minv (delta : ℝ) (used : Nat → Bool) (p : Nat → Nat)
    (st : (Nat → ℝ) × (Nat → ℝ) × (Nat → Option ℝ)) (j x : Nat) :
    (hungUpdateStep delta used p st j).2.2 x = none ↔ st.2.2 x = none := by
  unfold hungUpdateStep
  by_cases h : used j
  · rw [if_pos h]
  · rw [if_neg h]
    by_cases hx : x = j
    · simp [hx]
    · simp [hx]

theorem hungUpdate_fold_minv (delta : ℝ) (used : Nat → Bool) (p : Nat → Nat) :
    ∀ (js : List Nat) (st : (Nat → ℝ) × (Nat → ℝ) × (Nat → Option ℝ)) (x : Nat),
      (js.foldl (hungUpdateStep delta used p) st).2.2 x = none ↔ st.2.2 x = none := by
  intro js
  induction js with
  | nil => intro st x; rfl
  | cons j rest ih =>
    intro st x
    rw [List.foldl_cons, ih, hungUpdateStep_minv]

theorem hungUpdate_minv (n : Nat) (delta : ℝ) (used : Nat → Bool) (p : Nat → Nat)
    (st : (Nat → ℝ) × (Nat → ℝ) × (Nat → Option ℝ)) (x : Nat) :
    (hungUpdate n delta used p st).2.2 x = none ↔ st.2.2 x = none :=
  hungUpdate_fold_minv delta used p _ st x

theorem hungScanStep_post (cost : Nat → Nat → ℝ) (u v : Nat → ℝ) (used : Nat → Bool)
    (i0 j0 n : Nat) (st : (Nat → Option ℝ) × (Nat → Nat) × Option ℝ × Nat) (j : Nat)
    (hj1 : 1 ≤ j) (hjn : j ≤ n)
    (hP : st.2.2.1 ≠ none →
      1 ≤ st.2.2.2 ∧ st.2.2.2 ≤ n ∧ used st.2.2.2 = false ∧ st.1 st.2.2.2 ≠ none) :
    ((hungScanStep cost u v used i0 j0 st j).2.2.1 ≠ none →
      1 ≤ (hungScanStep cost u v used i0 j0 st j).2.2.2 ∧
      (hungScanStep cost u v used i0 j0 st j).2.2.2 ≤ n ∧
      used (hungScanStep cost u v used i0 j0 st j).2.2.2 = false ∧
      (hungScanStep cost u v used i0 j0 st j).1
        (hungScanStep cost u v used i0 j0 st j).2.2.2 ≠ none) ∧
    (∀ x, st.1 x ≠ none → (hungScanStep cost u v used i0 j0 st j).1 x ≠ none) ∧
    (∀ x, (hungScanStep cost u v used i0 j0 st j).2.1 x = st.2.1 x ∨
      ((hungScanStep cost u v used i0 j0 st j).2.1 x = j0 ∧ used x = false)) ∧
    (∀ x, (hungScanStep cost u v used i0 j0 st j).1 x ≠ none →
      st.1 x ≠ none ∨
      ((hungScanStep cost u v used i0 j0 st j).2.1 x = j0 ∧ used x = false)) ∧
    ((hungScanStep cost u v used i0 j0 st j).2.2.1 = none →
      st.2.2.1 = none ∧ used j = true) := by
  by_cases hu : used j
  · simp only [hungScanStep, if_pos hu]
    exact ⟨hP, fun x h => h, fun x => Or.inl trivial, fun x h => Or.inl h, fun h => ⟨h, hu⟩⟩
  · by_cases hlt : oLt (some (cost (i0 - 1) (j - 1) - u i0 - v j)) (st.1 j)
    · simp only [hungScanStep, if_neg hu, if_pos hlt, if_true]
      by_cases hd : oLt (some (cost (i0 - 1) (j - 1) - u i0 - v j)) st.2.2.1
      · simp only [if_pos hd]
        refine ⟨?_, ?_, ?_, ?_, ?_⟩
        · intro _
          refine ⟨hj1, hjn, by simpa using hu, ?_⟩
          simp
        · intro x hx
          by_cases hxj : x = j
          · simp [hxj]
          · simpa [hxj] using hx
        · intro x
          by_cases hxj : x = j
          · refine Or.inr ⟨by simp [hxj], ?_⟩
            rw [hxj]
            simpa using hu
          · exact Or.inl (by simp [hxj])
        · intro x hx
          by_cases hxj : x = j
          · refine Or.inr ⟨by simp [hxj], ?_⟩
            rw [hxj]
            simpa using hu
          · exact Or.inl (by simpa [hxj] using hx)
        · intro hc
          simp at hc
      · simp only [if_neg hd]
        refine ⟨?_, ?_, ?_, ?_, ?_⟩
        · intro hne
          obtain ⟨h1, h2, h3, h4⟩ := hP hne
          refine ⟨h1, h2, h3, ?_⟩
          by_cases hxj : st.2.2.2 = j
          · simp [hxj]
          · simpa [hxj] using h4
        · intro x hx
          by_cases hxj : x = j
          · simp [hxj]
          · simpa [hxj] using hx
        · intro x
          by_cases hxj : x = j
          · refine Or.inr ⟨by simp [hxj], ?_⟩
            rw [hxj]
            simpa using hu
          · exact Or.inl (by simp [hxj])
        · intro x hx
          by_cases hxj : x = j
          · refine Or.inr ⟨by simp [hxj], ?_⟩
            rw [hxj]
            simpa using hu
          · exact Or.inl (by simpa [hxj] using hx)
        · intro hc
          rw [hc] at hd
          exact absurd trivial hd
    · have hsome : st.1 j ≠ none := by
        intro hnone
        rw [hnone] at hlt
        exact hlt trivial
      simp only [hungScanStep, if_neg hu, if_neg hlt]
      by_cases hd : oLt (st.1 j) st.2.2.1
      · simp only [if_pos hd]
        refine ⟨?_, fun x h => h, fun x => Or.inl trivial, fun x h => Or.inl h, ?_⟩
        · intro _
          exact ⟨hj1, hjn, by simpa using hu, hsome⟩
        · intro hc
          exact absurd hc hsome
      · simp only [if_neg hd]
        refine ⟨hP, fun x h => h, fun x => Or.inl trivial, fun x h => Or.inl h, ?_⟩
        intro hc
        rw [hc] at hd
        rcases hx : st.1 j with _ | a
        · exact absurd hx hsome
        · rw [hx] at hd
          exact absurd trivial hd

theorem hungScan_fold_post (cost : Nat → Nat → ℝ) (u v : Nat → ℝ) (used : Nat → Bool)
    (i0 j0 n : Nat) :
    ∀ (js : List Nat), (∀ j ∈ js, 1 ≤ j ∧ j ≤ n) →
    ∀ st : (Nat → Option ℝ) × (Nat → Nat) × Option ℝ × Nat,
      (st.2.2.1 ≠ none →
        1 ≤ st.2.2.2 ∧ st.2.2.2 ≤ n ∧ used st.2.2.2 = false ∧ st.1 st.2.2.2 ≠ none) →
      ((js.foldl (hungScanStep cost u v used i0 j0) st).2.2.1 ≠ none →
        1 ≤ (js.foldl (hungScanStep cost u v used i0 j0) st).2.2.2 ∧
        (js.foldl (hungScanStep cost u v used i0 j0) st).2.2.2 ≤ n ∧
        used (js.foldl (hungScanStep cost u v used i0 j0) st).2.2.2 = false ∧
        (js.foldl (hungScanStep cost u v used i0 j0) st).1
          (js.foldl (hungScanStep cost u v used i0 j0) st).2.2.2 ≠ none) ∧
      (∀ x, st.1 x ≠ none → (js.foldl (hungScanStep cost u v used i0 j0) st).1 x ≠ none) ∧
      (∀ x, (js.foldl (hungScanStep cost u v used i0 j0) st).2.1 x = st.2.1 x ∨
        ((js.foldl (hungScanStep cost u v used i0 j0) st).2.1 x = j0 ∧ used x = false)) ∧
      (∀ x, (js.foldl (hungScanStep cost u v used i0 j0) st).1 x ≠ none →
        st.1 x ≠ none ∨
        ((js.foldl (hungScanStep cost u v used i0 j0) st).2.1 x = j0 ∧ used x = false)) ∧
      ((js.foldl (hungScanStep cost u v used i0 j0) st).2.2.1 = none →
        st.2.2.1 = none ∧ ∀ j ∈ js, used j = true) := by
  intro js
  induction js with
  | nil =>
    intro _ st hP
    exact ⟨hP, fun x h => h, fun x => Or.inl rfl, fun x h => Or.inl h,
      fun h => ⟨h, fun j hj => absurd hj (List.not_mem_nil j)⟩⟩
  | cons j rest ih =>
    intro hjs st hP
    have hj := hjs j (List.mem_cons_self j rest)
    obtain ⟨sP, s1, s2, s3, s4⟩ :=
      hungScanStep_post cost u v used i0 j0 n st j hj.1 hj.2 hP
    obtain ⟨fP, f1, f2, f3, f4⟩ :=
      ih (fun x hx => hjs x (List.mem_cons_of_mem j hx)) (hungScanStep cost u v used i0 j0 st j) sP
    rw [List.foldl_cons]
    refine ⟨fP, ?_, ?_, ?_, ?_⟩
    · intro x hx
      exact f1 x (s1 x hx)
    · intro x
      rcases f2 x with h | h
      · rw [h]
        exact s2 x
      · exact Or.inr h
    · intro x hx
      rcases f3 x hx with h | h
      · rcases s3 x h with h' | h'
        · exact Or.inl h'
        · refine Or.inr ⟨?_, h'.2⟩
          rcases f2 x with h2 | h2
          · rw [h2]
            exact h'.1
          · exact h2.1
      · exact Or.inr h
    · intro hc
      obtain ⟨hc1, hc2⟩ := f4 hc
      obtain ⟨hc3, hc4⟩ := s4 hc1
      refine ⟨hc3, ?_⟩
      intro x hx
      rcases List.mem_cons.mp hx with h | h
      · rw [h]
        exact hc4
      · exact hc2 x h

theorem nodup_last_zero_dropLast (c : List Nat) (h : c.getLast? = some 0) (hc : c.Nodup) :
    ∀ x ∈ c.dropLast, x ≠ 0 := by
  intro x hx h0
  subst h0
  rcases List.eq_nil_or_concat c with rfl | ⟨l, a, rfl⟩
  · simp at h
  · rw [List.concat_eq_append] at h hc hx
    rw [List.getLast?_concat] at h
    have ha : a = 0 := by simpa using h
    subst ha
    rw [List.dropLast_concat] at hx
    exact (List.nodup_append.mp hc).2.2 hx (List.mem_singleton.mpr rfl)

/-- Counting bound: a duplicate-free list of columns, each either 0 or matched to one
of the rows 1..i-1 (row pointers bounded by i and injective), has at most i members. -/
theorem ord_length_le (p : Nat → Nat) (i n : Nat) (ord : List Nat)
    (hi : 1 ≤ i) (hnd : ord.Nodup) (hle : ∀ x ∈ ord, x ≤ n)
    (hmem : ∀ x ∈ ord, x = 0 ∨ p x ≠ 0)
    (hbound : hungBounded n i p) (hinj : hungInj n p) :
    ord.length ≤ i := by
  set g : Nat → Nat := fun x => if x = 0 then 0 else p x with hg
  have hmapnd : (ord.map g).Nodup := by
    refine List.pairwise_map.mpr ?_
    refine List.Pairwise.imp_of_mem ?_ hnd
    intro a b ha hb hab
    by_cases ha0 : a = 0
    · subst ha0
      by_cases hb0 : b = 0
      · exact absurd hb0.symm hab
      · have hpb : p b ≠ 0 := (hmem b hb).resolve_left hb0
        simp only [hg, if_pos rfl, if_neg hb0]
        exact fun he => hpb he.symm
    · by_cases hb0 : b = 0
      · have hpa : p a ≠ 0 := (hmem a ha).resolve_left ha0
        simp only [hg, if_neg ha0, if_pos hb0]
        exact hpa
      · have hpa : p a ≠ 0 := (hmem a ha).resolve_left ha0
        simp only [hg, if_neg ha0, if_neg hb0]
        exact hinj a b (Nat.one_le_iff_ne_zero.mpr ha0) (hle a ha)
          (Nat.one_le_iff_ne_zero.mpr hb0) (hle b hb) hab hpa
  have hsub : (ord.map g).toFinset ⊆ Finset.range i := by
    intro y hy
    rw [List.mem_toFinset, List.mem_map] at hy
    obtain ⟨x, hx, hgx⟩ := hy
    rw [Finset.mem_range]
    by_cases hx0 : x = 0
    · rw [← hgx, hg]
      simp only [if_pos hx0]
      omega
    · rw [← hgx, hg]
      simp only [if_neg hx0]
      exact hbound x (Nat.one_le_iff_ne_zero.mpr hx0) (hle x hx)
  have h1 : (ord.map g).toFinset.card = (ord.map g).length :=
    List.toFinset_card_of_nodup hmapnd
  have h2 : (ord.map g).toFinset.card ≤ i := by
    calc (ord.map g).toFinset.card ≤ (Finset.range i).card := Finset.card_le_card hsub
    _ = i := Finset.card_range i
  rw [h1, List.length_map] at h2
  exact h2

/-- From the order-of-use invariant, every used column walks back to column 0 along
way pointers, visiting distinct columns with increasing order positions. -/
theorem chain_exists (n : Nat) (way : Nat → Nat) (ord : List Nat) (h : ordInv n way ord) :
    ∀ k (hk : k < ord.length), ∃ c : List Nat,
      c.head? = some (ord.get ⟨k, hk⟩) ∧ List.Chain' (fun x y => way x = y) c ∧
      c.getLast? = some 0 ∧ c.Nodup ∧
      (∀ x ∈ c, ∃ m, ∃ hm : m < ord.length, m ≤ k ∧ ord.get ⟨m, hm⟩ = x) := by
  obtain ⟨hnd, hle, hhead, hway⟩ := h
  intro k
  induction k using Nat.strong_induction_on with
  | _ k ih =>
    intro hk
    by_cases hk0 : k = 0
    · subst hk0
      refine ⟨[ord.get ⟨0, hk⟩], rfl, List.chain'_singleton _, ?_, List.nodup_singleton _, ?_⟩
      · rw [hhead hk]
        rfl
      · intro x hx
        rw [List.mem_singleton] at hx
        exact ⟨0, hk, Nat.zero_le _, hx.symm⟩
    · have hkpos : 0 < k := Nat.pos_of_ne_zero hk0
      have hwk := hway k hk hkpos
      rw [List.mem_take_iff_getElem] at hwk
      obtain ⟨m, hm, hmx⟩ := hwk
      have hmk : m < k := (lt_min_iff.mp hm).1
      have hml : m < ord.length := (lt_min_iff.mp hm).2
      obtain ⟨c', hh', hch', hl', hnd', hmem'⟩ := ih m hmk hml
      refine ⟨ord.get ⟨k, hk⟩ :: c', rfl, ?_, ?_, ?_, ?_⟩
      · refine List.Chain'.cons' hch' ?_
        intro y hy
        rw [hh'] at hy
        have hy' : y = ord.get ⟨m, hml⟩ := by simpa using hy.symm
        rw [hy']
        exact hmx.symm
      · have hne : c' ≠ [] := by
          intro hnil
          rw [hnil] at hh'
          exact absurd hh' (by simp)
        cases c' with
        | nil => exact absurd rfl hne
        | cons a t => exact hl'
      · rw [List.nodup_cons]
        refine ⟨?_, hnd'⟩
        intro hmemk
        obtain ⟨m', hm', hm'le, hm'x⟩ := hmem' _ hmemk
        have : m' = k := by
          have := (List.Nodup.get_inj_iff hnd).mp hm'x
          exact congrArg Fin.val this
        omega
      · intro x hx
        rcases List.mem_cons.mp hx with hx | hx
        · exact ⟨k, hk, le_refl k, hx.symm⟩
        · obtain ⟨m', hm', hm'le, hm'x⟩ := hmem' x hx
          exact ⟨m', hm', by omega, hm'x⟩

/-- The augmentation walk along a valid chain keeps row pointers below i + 1 and
injective where nonzero: each column in the chain inherits its successor's row, and
column 0 hands the new row i to the last real column. -/
theorem hungAug_inj (way : Nat → Nat) (n i : Nat) :
    ∀ (d' : List Nat) (j0 : Nat) (p : Nat → Nat) (fuel : Nat),
      List.Chain' (fun x y => way x = y) (j0 :: d') →
      (j0 :: d').Nodup →
      (j0 :: d').getLast? = some 0 →
      (∀ x ∈ (j0 :: d').dropLast, 1 ≤ x ∧ x ≤ n) →
      d' ≠ [] →
      d'.length ≤ fuel →
      p 0 = i →
      (∀ x, 1 ≤ x → x ≤ n → p x < i) →
      (∀ x1 x2, 1 ≤ x1 → x1 ≤ n → 1 ≤ x2 → x2 ≤ n → x1 ≠ x2 → x1 ≠ j0 → x2 ≠ j0 →
        p x1 ≠ 0 → p x1 ≠ p x2) →
      hungBounded n (i + 1) (hungAug fuel p way j0) ∧
      hungInj n (hungAug fuel p way j0) := by
  intro d'
  induction d' with
  | nil => intro j0 p fuel _ _ _ _ hne _ _ _ _; exact absurd rfl hne
  | cons j1 d'' ih =>
    intro j0 p fuel hch hnd hlast hdl _hne hfuel hp0 hpb hpinj
    have hj0 : 1 ≤ j0 ∧ j0 ≤ n := hdl j0 (by simp)
    cases fuel with
    | zero => exact absurd hfuel (by simp)
    | succ f =>
      have hwj0 : way j0 = j1 := (List.chain'_cons.mp hch).1
      by_cases hj10 : j1 = 0
      · have hres : hungAug (f + 1) p way j0 = fun x => if x = j0 then p j1 else p x := by
          rw [hungAug]
          simp only [hwj0, if_pos hj10]
        rw [hres]
        constructor
        · intro x hx1 hxn
          show (if x = j0 then p j1 else p x) < i + 1
          by_cases hxj : x = j0
          · rw [if_pos hxj, hj10, hp0]
            omega
          · rw [if_neg hxj]
            have := hpb x hx1 hxn
            omega
        · intro x1 x2 h11 h1n h21 h2n hne12 hnz
          have hnz' : (if x1 = j0 then p j1 else p x1) ≠ 0 := hnz
          show (if x1 = j0 then p j1 else p x1) ≠ (if x2 = j0 then p j1 else p x2)
          by_cases h1j : x1 = j0
          · rw [if_pos h1j]
            by_cases h2j : x2 = j0
            · exact absurd (h1j.trans h2j.symm) hne12
            · rw [if_neg h2j, hj10, hp0]
              have := hpb x2 h21 h2n
              omega
          · rw [if_neg h1j]
            by_cases h2j : x2 = j0
            · rw [if_pos h2j, hj10, hp0]
              rw [if_neg h1j] at hnz'
              have := hpb x1 h11 h1n
              omega
            · rw [if_neg h2j]
              rw [if_neg h1j] at hnz'
              exact hpinj x1 x2 h11 h1n h21 h2n hne12 h1j h2j hnz'
      · have hres : hungAug (f + 1) p way j0 =
            hungAug f (fun x => if x = j0 then p j1 else p x) way j1 := by
          rw [hungAug]
          simp only [hwj0, if_neg hj10]
        rw [hres]
        have hj1 : 1 ≤ j1 ∧ j1 ≤ n := by
          refine hdl j1 ?_
          rcases List.eq_nil_or_concat d'' with rfl | ⟨l, a, rfl⟩
          · rw [List.getLast?_cons_cons] at hlast
            have : j1 = 0 := by simpa using hlast
            exact absurd this hj10
          · rw [List.concat_eq_append, ← List.cons_append, ← List.cons_append,
              List.dropLast_concat]
            simp
        have hj01 : j0 ≠ j1 := by
          intro he
          rw [List.nodup_cons] at hnd
          exact hnd.1 (he ▸ List.mem_cons_self j1 d'')
        have hfuel' : d''.length ≤ f := by
          simp only [List.length_cons] at hfuel
          omega
        refine ih j1 (fun x => if x = j0 then p j1 else p x) f
          (List.chain'_cons.mp hch).2 (List.nodup_cons.mp hnd).2 ?_ ?_ ?_ hfuel' ?_ ?_ ?_
        · rw [List.getLast?_cons_cons] at hlast
          exact hlast
        · intro x hx
          refine hdl x ?_
          rw [List.dropLast_cons_of_ne_nil (by simp)]
          exact List.mem_cons_of_mem j0 hx
        · intro hnil
          rw [hnil, List.getLast?_cons_cons] at hlast
          have : j1 = 0 := by simpa using hlast
          exact absurd this hj10
        · show (if (0 : Nat) = j0 then p j1 else p 0) = i
          rw [if_neg (by omega : (0 : Nat) ≠ j0), hp0]
        · intro x hx1 hxn
          show (if x = j0 then p j1 else p x) < i
          by_cases hxj : x = j0
          · rw [if_pos hxj]
            exact hpb j1 hj1.1 hj1.2
          · rw [if_neg hxj]
            exact hpb x hx1 hxn
        · intro x1 x2 h11 h1n h21 h2n hne12 h1j1 h2j1 hnz
          have hnz' : (if x1 = j0 then p j1 else p x1) ≠ 0 := hnz
          show (if x1 = j0 then p j1 else p x1) ≠ (if x2 = j0 then p j1 else p x2)
          by_cases h1j : x1 = j0
          · rw [if_pos h1j]
            rw [if_pos h1j] at hnz'
            by_cases h2j : x2 = j0
            · exact absurd (h1j.trans h2j.symm) hne12
            · rw [if_neg h2j]
              exact hpinj j1 x2 hj1.1 hj1.2 h21 h2n (fun he => h2j1 he.symm)
                (fun he => hj01 he.symm) h2j hnz'
          · rw [if_neg h1j]
            rw [if_neg h1j] at hnz'
            by_cases h2j : x2 = j0
            · rw [if_pos h2j]
              exact hpinj x1 j1 h11 h1n hj1.1 hj1.2 h1j1 h1j
                (fun he => hj01 he.symm) hnz'
            · rw [if_neg h2j]
              exact hpinj x1 x2 h11 h1n h21 h2n hne12 h1j h2j hnz'

theorem hungScan_post (cost : Nat → Nat → ℝ) (u v : Nat → ℝ) (used : Nat → Bool)
    (i0 j0 n : Nat) (st : (Nat → Option ℝ) × (Nat → Nat) × Option ℝ × Nat)
    (hP : st.2.2.1 ≠ none →
      1 ≤ st.2.2.2 ∧ st.2.2.2 ≤ n ∧ used st.2.2.2 = false ∧ st.1 st.2.2.2 ≠ none) :
    ((hungScan cost n u v used i0 j0 st).2.2.1 ≠ none →
      1 ≤ (hungScan cost n u v used i0 j0 st).2.2.2 ∧
      (hungScan cost n u v used i0 j0 st).2.2.2 ≤ n ∧
      used (hungScan cost n u v used i0 j0 st).2.2.2 = false ∧
      (hungScan cost n u v used i0 j0 st).1
        (hungScan cost n u v used i0 j0 st).2.2.2 ≠ none) ∧
    (∀ x, st.1 x ≠ none → (hungScan cost n u v used i0 j0 st).1 x ≠ none) ∧
    (∀ x, (hungScan cost n u v used i0 j0 st).2.1 x = st.2.1 x ∨
      ((hungScan cost n u v used i0 j0 st).2.1 x = j0 ∧ used x = false)) ∧
    (∀ x, (hungScan cost n u v used i0 j0 st).1 x ≠ none →
      st.1 x ≠ none ∨
      ((hungScan cost n u v used i0 j0 st).2.1 x = j0 ∧ used x = false)) ∧
    ((hungScan cost n u v used i0 j0 st).2.2.1 = none →
      st.2.2.1 = none ∧ ∀ j, 1 ≤ j → j ≤ n → used j = true) := by
  have hbs : ∀ j ∈ List.range' 1 n, 1 ≤ j ∧ j ≤ n := by
    intro j hj
    rw [List.mem_range'_1] at hj
    omega
  have h := hungScan_fold_post cost u v used i0 j0 n (List.range' 1 n) hbs st hP
  rw [hungScan]
  refine ⟨h.1, h.2.1, h.2.2.1, h.2.2.2.1, ?_⟩
  intro hc
  obtain ⟨hc1, hc2⟩ := h.2.2.2.2 hc
  refine ⟨hc1, ?_⟩
  intro j hj1 hjn
  exact hc2 j (List.mem_range'_1.mpr ⟨hj1, by omega⟩)

theorem nodup_bounded_length (n : Nat) (l : List Nat) (hnd : l.Nodup)
    (hle : ∀ x ∈ l, x ≤ n) : l.length ≤ n + 1 := by
  have hsub : l.toFinset ⊆ Finset.range (n + 1) := by
    intro y hy
    rw [List.mem_toFinset] at hy
    rw [Finset.mem_range]
    exact Nat.lt_succ_of_le (hle y hy)
  calc l.length = l.toFinset.card := (List.toFinset_card_of_nodup hnd).symm
  _ ≤ (Finset.range (n + 1)).card := Finset.card_le_card hsub
  _ = n + 1 := Finset.card_range (n + 1)

theorem nodup_bounded_missing (n : Nat) (l : List Nat) (hnd : l.Nodup)
    (hlen : l.length ≤ n) : ∃ x, x ≤ n ∧ x ∉ l := by
  by_contra hall
  push_neg at hall
  have hsub : Finset.range (n + 1) ⊆ l.toFinset := by
    intro y hy
    rw [Finset.mem_range] at hy
    rw [List.mem_toFinset]
    exact hall y (by omega)
  have := Finset.card_le_card hsub
  rw [Finset.card_range, List.toFinset_card_of_nodup hnd] at this
  omega

/-- One augmenting-path search ends, within fuel, at an unmatched column j0 between
1 and n, and the final way pointers carry a valid walk from j0 back to column 0. -/
theorem hungPath_post (cost : Nat → Nat → ℝ) (n : Nat) (p : Nat → Nat) (i : Nat)
    (hi1 : 1 ≤ i) (hin : i ≤ n) (hp0 : p 0 = i) (hpb : hungBounded n i p)
    (hpinj : hungInj n p) :
    ∀ (fuel : Nat) (u v : Nat → ℝ) (way : Nat → Nat) (minv : Nat → Option ℝ)
      (used : Nat → Bool) (j0 : Nat) (ord : List Nat),
      used j0 = false → j0 ≤ n →
      (∀ x, used x = true ↔ x ∈ ord) →
      ordInv n way ord →
      (∀ x, 1 ≤ x → x ≤ n → minv x ≠ none → used x = false → way x ∈ ord) →
      (∀ x ∈ ord, x = 0 ∨ p x ≠ 0) →
      (ord = [] → j0 = 0) →
      (ord ≠ [] → minv j0 ≠ none) →
      p j0 ≠ 0 →
      i + 1 ≤ ord.length + fuel →
      ∃ c : List Nat,
        List.Chain' (fun x y => (hungPath cost n fuel u v p way minv used j0).2.2.1 x = y)
          ((hungPath cost n fuel u v p way minv used j0).2.2.2 :: c) ∧
        ((hungPath cost n fuel u v p way minv used j0).2.2.2 :: c).Nodup ∧
        ((hungPath cost n fuel u v p way minv used j0).2.2.2 :: c).getLast? = some 0 ∧
        (∀ x ∈ ((hungPath cost n fuel u v p way minv used j0).2.2.2 :: c).dropLast,
          1 ≤ x ∧ x ≤ n) ∧
        c ≠ [] ∧ c.length ≤ n + 1 ∧
        p (hungPath cost n fuel u v p way minv used j0).2.2.2 = 0 ∧
        1 ≤ (hungPath cost n fuel u v p way minv used j0).2.2.2 ∧
        (hungPath cost n fuel u v p way minv used j0).2.2.2 ≤ n := by
  intro fuel
  induction fuel with
  | zero =>
    intro u v way minv used j0 ord _ _ _ hordinv _ hmem _ _ _ hbudget
    have := ord_length_le p i n ord hi1 hordinv.1 hordinv.2.1 hmem hpb hpinj
    omega
  | succ f ih =>
    intro u v way minv used j0 ord huj0 hj0n hiff hordinv hE4 hmem hordnil hordne hpj0 hbudget
    obtain ⟨hnd, hordle, hhead, htake⟩ := hordinv
    have hj0ord : j0 ∉ ord := by
      intro hmem'
      rw [← hiff] at hmem'
      rw [huj0] at hmem'
      exact Bool.false_ne_true hmem'
    have hnd' : (ord ++ [j0]).Nodup := by
      rw [List.nodup_append]
      exact ⟨hnd, List.nodup_singleton j0,
        fun a ha hb => hj0ord ((List.mem_singleton.mp hb) ▸ ha)⟩
    have h0ord : ord ≠ [] → (0 : Nat) ∈ ord := by
      intro hne
      have hlen : 0 < ord.length := List.length_pos.mpr hne
      have := hhead hlen
      rw [← this]
      exact List.get_mem ord 0 hlen
    have h0ord' : (0 : Nat) ∈ ord ++ [j0] := by
      by_cases hne : ord = []
      · have := hordnil hne
        subst hne
        rw [List.nil_append, this]
        exact List.mem_singleton.mpr rfl
      · exact List.mem_append_left _ (h0ord hne)
    have hj0z : ord ≠ [] → 1 ≤ j0 := by
      intro hne
      rcases Nat.eq_zero_or_pos j0 with h0 | h1
      · exact absurd (h0 ▸ h0ord hne) hj0ord
      · exact h1
    have hordle' : ∀ x ∈ ord ++ [j0], x ≤ n := by
      intro x hx
      rcases List.mem_append.mp hx with h | h
      · exact hordle x h
      · rw [List.mem_singleton.mp h]
        exact hj0n
    have hmem' : ∀ x ∈ ord ++ [j0], x = 0 ∨ p x ≠ 0 := by
      intro x hx
      rcases List.mem_append.mp hx with h | h
      · exact hmem x h
      · rw [List.mem_singleton.mp h]
        exact Or.inr hpj0
    simp only [hungPath]
    set scanR := hungScan cost n u v (fun x => if x = j0 then true else used x) (p j0) j0
      (minv, way, none, 0) with hscanR
    obtain ⟨hSP, hS1, hS2, hS3, hS4⟩ :=
      hungScan_post cost u v (fun x => if x = j0 then true else used x) (p j0) j0 n
        (minv, way, none, 0) (fun h => absurd rfl h)
    rw [← hscanR] at hSP hS1 hS2 hS3 hS4
    have hiff' : ∀ x, (if x = j0 then true else used x) = true ↔ x ∈ ord ++ [j0] := by
      intro x
      by_cases hx : x = j0
      · simp [hx]
      · rw [if_neg hx, hiff, List.mem_append, List.mem_singleton]
        exact ⟨fun h => Or.inl h, fun h => h.resolve_right hx⟩
    have husedval : ∀ x, (if x = j0 then true else used x) = false ↔
        (x ≠ j0 ∧ used x = false) := by
      intro x
      by_cases hx : x = j0
      · simp [hx]
      · simp [hx]
    have hwayf : ∀ x, x ∈ ord ++ [j0] → scanR.2.1 x = way x := by
      intro x hx
      rcases hS2 x with h | h
      · exact h
      · exfalso
        obtain ⟨hxj0, hxused⟩ := (husedval x).mp h.2
        rcases List.mem_append.mp hx with hh | hh
        · have hux : used x = true := (hiff x).mpr hh
          rw [hux] at hxused
          exact Bool.true_eq_false.mp hxused
        · exact hxj0 (List.mem_singleton.mp hh)
    have hordinv' : ordInv n scanR.2.1 (ord ++ [j0]) := by
      refine ⟨hnd', hordle', ?_, ?_⟩
      · intro hk
        by_cases hne : ord = []
        · have hz := hordnil hne
          subst hne
          exact hz
        · have hlen : 0 < ord.length := List.length_pos.mpr hne
          have : (ord ++ [j0]).get ⟨0, hk⟩ = ord.get ⟨0, hlen⟩ :=
            List.getElem_append_left hlen
          rw [this]
          exact hhead hlen
      · intro k hk hkpos
        by_cases hklt : k < ord.length
        · have hget : (ord ++ [j0]).get ⟨k, hk⟩ = ord.get ⟨k, hklt⟩ :=
            List.getElem_append_left hklt
          rw [hget]
          have hxord : ord.get ⟨k, hklt⟩ ∈ ord := List.get_mem ord k hklt
          rw [hwayf _ (List.mem_append_left _ hxord)]
          have htk := htake k hklt hkpos
          rw [List.take_append_of_le_length (by omega : k ≤ ord.length)]
          exact htk
        · have hkeq : k = ord.length := by
            rw [List.length_append, List.length_singleton] at hk
            omega
          have hget : (ord ++ [j0]).get ⟨k, hk⟩ = j0 := by
            subst hkeq
            exact List.getElem_concat_length ord j0 ord.length rfl (by simp)
          rw [hget]
          have hne : ord ≠ [] := by
            intro hnil
            rw [hnil] at hkeq
            simp at hkeq
            omega
          rw [hwayf j0 (List.mem_append_right _ (List.mem_singleton.mpr rfl))]
          have hwj0 := hE4 j0 (hj0z hne) hj0n (hordne hne) huj0
          rw [hkeq, List.take_left]
          exact hwj0
    have hE4' : ∀ x, 1 ≤ x → x ≤ n → scanR.1 x ≠ none →
        (if x = j0 then true else used x) = false → scanR.2.1 x ∈ ord ++ [j0] := by
      intro x hx1 hxn hminvx hux
      obtain ⟨hxj0, hxused⟩ := (husedval x).mp hux
      rcases hS3 x hminvx with hold | hnew
      · have hdold : minv x ≠ none := by
          simpa using hold
        have hwx := hE4 x hx1 hxn hdold hxused
        rcases hS2 x with h | h
        · rw [h]
          exact List.mem_append_left _ hwx
        · rw [h.1]
          exact List.mem_append_right _ (List.mem_singleton.mpr rfl)
      · rw [hnew.1]
        exact List.mem_append_right _ (List.mem_singleton.mpr rfl)
    rcases hdelta : scanR.2.2.1 with _ | d
    · exfalso
      obtain ⟨_, hallused⟩ := hS4 hdelta
      have hlen' : (ord ++ [j0]).length ≤ i :=
        ord_length_le p i n (ord ++ [j0]) hi1 hnd' hordle' hmem' hpb hpinj
      obtain ⟨x, hxn, hxnot⟩ := nodup_bounded_missing n (ord ++ [j0]) hnd'
        (by omega)
      have hx0 : x ≠ 0 := by
        intro h0
        rw [h0] at hxnot
        exact hxnot h0ord'
      have := hallused x (by omega) hxn
      rw [hiff'] at this
      exact hxnot this
    · simp only [hdelta]
      have hdne : scanR.2.2.1 ≠ none := by
        rw [hdelta]
        exact Option.some_ne_none d
      obtain ⟨hj1b1, hj1bn, hj1unused, hj1minv⟩ := hSP hdne
      have hj1notin : scanR.2.2.2 ∉ ord ++ [j0] := by
        intro hmem''
        rw [← hiff'] at hmem''
        rw [hj1unused] at hmem''
        exact Bool.false_ne_true hmem''
      by_cases hbreak : p scanR.2.2.2 = 0
      · simp only [if_pos hbreak]
        have hwj1 : scanR.2.1 scanR.2.2.2 ∈ ord ++ [j0] :=
          hE4' scanR.2.2.2 hj1b1 hj1bn hj1minv hj1unused
        obtain ⟨k, hkeq⟩ := List.mem_iff_get.mp hwj1
        obtain ⟨c', hh', hch', hl', hnd'', hmem''⟩ :=
          chain_exists n scanR.2.1 (ord ++ [j0]) hordinv' k k.isLt
        have hc'ne : c' ≠ [] := by
          intro hnil
          rw [hnil] at hh'
          exact absurd hh' (by simp)
        have hc'sub : ∀ x ∈ c', x ∈ ord ++ [j0] := by
          intro x hx
          obtain ⟨m, hm, _, hmx⟩ := hmem'' x hx
          rw [← hmx]
          exact List.get_mem _ m hm
        refine ⟨c', ?_, ?_, ?_, ?_, hc'ne, ?_, hbreak, hj1b1, hj1bn⟩
        · refine List.Chain'.cons' hch' ?_
          intro y hy
          rw [hh'] at hy
          have hy' : y = (ord ++ [j0]).get k := by simpa using hy.symm
          rw [hy', ← hkeq]
        · rw [List.nodup_cons]
          refine ⟨?_, hnd''⟩
          intro hmem3
          exact hj1notin (hc'sub _ hmem3)
        · cases c' with
          | nil => exact absurd rfl hc'ne
          | cons a t => exact hl'
        · intro x hx
          rw [List.dropLast_cons_of_ne_nil hc'ne] at hx
          rcases List.mem_cons.mp hx with h | h
          · rw [h]
            exact ⟨hj1b1, hj1bn⟩
          · have hxc : x ∈ c' := (List.dropLast_sublist c').mem h
            refine ⟨?_, hordle' x (hc'sub x hxc)⟩
            have := nodup_last_zero_dropLast c' hl' hnd'' x h
            omega
        · exact nodup_bounded_length n c' hnd'' (fun x hx => hordle' x (hc'sub x hx))
      · simp only [if_neg hbreak]
        refine ih _ _ _ _ _ _ (ord ++ [j0]) hj1unused hj1bn hiff' hordinv' ?_ hmem'
          (fun h => absurd h (by simp)) ?_ hbreak ?_
        · intro x hx1 hxn hminvx hux
          rw [Ne, hungUpdate_minv] at hminvx
          exact hE4' x hx1 hxn (by simpa using hminvx) hux
        · intro _
          rw [Ne, hungUpdate_minv]
          simpa using hj1minv
        · rw [List.length_append, List.length_singleton]
          omega

/-- One full Hungarian phase for row i: the augmenting-path search followed by the
augmentation walk extends boundedness and injectivity of the row pointers to i + 1. -/
theorem hungPhase_post (cost : Nat → Nat → ℝ) (n i : Nat) (hi1 : 1 ≤ i) (hin : i ≤ n)
    (u v : Nat → ℝ) (pp way : Nat → Nat)
    (hpb : hungBounded n i pp) (hpinj : hungInj n pp) :
    hungBounded n (i + 1)
      (hungAug (n + 2) (fun x => if x = 0 then i else pp x)
        (hungPath cost n (n + 1) u v (fun x => if x = 0 then i else pp x) way
          (fun _ => none) (fun _ => false) 0).2.2.1
        (hungPath cost n (n + 1) u v (fun x => if x = 0 then i else pp x) way
          (fun _ => none) (fun _ => false) 0).2.2.2) ∧
    hungInj n
      (hungAug (n + 2) (fun x => if x = 0 then i else pp x)
        (hungPath cost n (n + 1) u v (fun x => if x = 0 then i else pp x) way
          (fun _ => none) (fun _ => false) 0).2.2.1
        (hungPath cost n (n + 1) u v (fun x => if x = 0 then i else pp x) way
          (fun _ => none) (fun _ => false) 0).2.2.2) := by
  have hp00 : (fun x => if x = 0 then i else pp x) 0 = i := by simp
  have hp0b : hungBounded n i (fun x => if x = 0 then i else pp x) := by
    intro x hx1 hxn
    show (if x = 0 then i else pp x) < i
    rw [if_neg (by omega : x ≠ 0)]
    exact hpb x hx1 hxn
  have hp0inj : hungInj n (fun x => if x = 0 then i else pp x) := by
    intro x1 x2 h11 h1n h21 h2n hne hnz
    have hnz' : (if x1 = 0 then i else pp x1) ≠ 0 := hnz
    show (if x1 = 0 then i else pp x1) ≠ (if x2 = 0 then i else pp x2)
    rw [if_neg (by omega : x1 ≠ 0)] at hnz' ⊢
    rw [if_neg (by omega : x2 ≠ 0)]
    exact hpinj x1 x2 h11 h1n h21 h2n hne hnz'
  obtain ⟨c, hch, hnd, hlast, hdl, hcne, hclen, hpjf, hjf1, hjfn⟩ :=
    hungPath_post cost n (fun x => if x = 0 then i else pp x) i hi1 hin hp00 hp0b hp0inj
      (n + 1) u v way (fun _ => none) (fun _ => false) 0 []
      rfl (Nat.zero_le n) (fun x => by simp)
      ⟨List.nodup_nil, fun x hx => absurd hx (List.not_mem_nil x),
        fun hk => absurd hk (by simp), fun k hk => absurd hk (by simp)⟩
      (fun x _ _ hmx _ => absurd rfl hmx)
      (fun x hx => absurd hx (List.not_mem_nil x))
      (fun _ => rfl) (fun h => absurd rfl h)
      (by rw [hp00]; omega) (by simp; omega)
  exact hungAug_inj
    (hungPath cost n (n + 1) u v (fun x => if x = 0 then i else pp x) way
      (fun _ => none) (fun _ => false) 0).2.2.1 n i c
    (hungPath cost n (n + 1) u v (fun x => if x = 0 then i else pp x) way
      (fun _ => none) (fun _ => false) 0).2.2.2
    (fun x => if x = 0 then i else pp x) (n + 2)
    hch hnd hlast hdl hcne (by omega) hp00 hp0b
    (fun x1 x2 h11 h1n h21 h2n hne _ _ hnz => hp0inj x1 x2 h11 h1n h21 h2n hne hnz)

/-- Folding phases over rows s..s+len-1 preserves the bounded-injective invariant of
the row pointers (component .2.2.1 of the phase state). -/
theorem foldPhases (n : Nat)
    (f : ((Nat → ℝ) × (Nat → ℝ) × (Nat → Nat) × (Nat → Nat)) → Nat →
      ((Nat → ℝ) × (Nat → ℝ) × (Nat → Nat) × (Nat → Nat)))
    (hf : ∀ st i, 1 ≤ i → i ≤ n → hungBounded n i st.2.2.1 → hungInj n st.2.2.1 →
      hungBounded n (i + 1) (f st i).2.2.1 ∧ hungInj n (f st i).2.2.1) :
    ∀ (len s : Nat) (st : (Nat → ℝ) × (Nat → ℝ) × (Nat → Nat) × (Nat → Nat)),
      1 ≤ s → s + len ≤ n + 1 →
      hungBounded n s st.2.2.1 → hungInj n st.2.2.1 →
      hungBounded n (s + len) ((List.range' s len).foldl f st).2.2.1 ∧
      hungInj n ((List.range' s len).foldl f st).2.2.1 := by
  intro len
  induction len with
  | zero =>
    intro s st _ _ hb hj
    exact ⟨hb, hj⟩
  | succ l ih =>
    intro s st hs1 hsn hb hj
    rw [List.range'_succ, List.foldl_cons]
    have hstep := hf st s hs1 (by omega) hb hj
    have hres := ih (s + 1) (f st s) (by omega) (by omega) hstep.1 hstep.2
    rw [show s + (l + 1) = s + 1 + l by omega]
    exact hres

theorem extract_pairs_eq (p : Nat → Nat) (nR nC : Nat) :
    ∀ (js : List Nat) (acc : List (Nat × Nat)),
      js.foldl
        (fun acc j =>
          if p j ≠ 0 ∧ p j - 1 < nR ∧ j - 1 < nC then acc ++ [(p j - 1, j - 1)] else acc)
        acc
      = acc ++ (js.filter
          (fun j => decide (p j ≠ 0 ∧ p j - 1 < nR ∧ j - 1 < nC))).map
          (fun j => (p j - 1, j - 1)) := by
  intro js
  induction js with
  | nil => intro acc; simp
  | cons j rest ih =>
    intro acc
    rw [List.foldl_cons]
    by_cases hc : p j ≠ 0 ∧ p j - 1 < nR ∧ j - 1 < nC
    · rw [if_pos hc, ih]
      simp only [List.filter_cons]
      rw [if_pos (decide_eq_true hc), List.map_cons, List.append_assoc]
      rfl
    · rw [if_neg hc, ih]
      simp only [List.filter_cons]
      rw [if_neg (fun hd => hc (of_decide_eq_true hd))]

/-- The extracted assignment pairs distinct rows with distinct columns, provided the
row pointers are injective where nonzero. -/
theorem extract_pairwise (p : Nat → Nat) (n nR nC : Nat) (hpinj : hungInj n p) :
    List.Pairwise (fun a b => a.1 ≠ b.1 ∧ a.2 ≠ b.2)
      ((List.range' 1 n).foldl
        (fun acc j =>
          if p j ≠ 0 ∧ p j - 1 < nR ∧ j - 1 < nC then acc ++ [(p j - 1, j - 1)] else acc)
        []) := by
  rw [extract_pairs_eq p nR nC (List.range' 1 n) [], List.nil_append]
  refine List.pairwise_map.mpr ?_
  have hplt : (List.range' 1 n).Pairwise (fun a b => a < b) := List.pairwise_lt_range' 1 n
  refine List.Pairwise.imp_of_mem ?_
    (hplt.filter (fun j => decide (p j ≠ 0 ∧ p j - 1 < nR ∧ j - 1 < nC)))
  intro a b ha hb hab
  rw [List.mem_filter] at ha hb
  obtain ⟨hma', hca0⟩ := ha
  obtain ⟨hmb', hcb0⟩ := hb
  have hca : p a ≠ 0 ∧ p a - 1 < nR ∧ a - 1 < nC := by simpa using hca0
  have hcb : p b ≠ 0 ∧ p b - 1 < nR ∧ b - 1 < nC := by simpa using hcb0
  have hma := List.mem_range'_1.mp hma'
  have hmb := List.mem_range'_1.mp hmb'
  refine ⟨?_, ?_⟩
  · show p a - 1 ≠ p b - 1
    have hne : a ≠ b := by omega
    have := hpinj a b hma.1 (by omega) hmb.1 (by omega) hne hca.1
    omega
  · show a - 1 ≠ b - 1
    omega

/-- The extracted assignment pairs distinct rows with distinct columns: the row
pointers are injective after all phases, and the columns are scanned in order. -/
theorem maxAssignment_pairwise (M : List (List ℝ)) :
    List.Pairwise (fun a b => a.1 ≠ b.1 ∧ a.2 ≠ b.2) (maxAssignment M) := by
  by_cases h : M = [] ∨ M.headD [] = []
  · rw [maxAssignment, if_pos h]
    exact List.Pairwise.nil
  · simp only [maxAssignment, if_neg h]
    refine extract_pairwise _ (max M.length (M.headD []).length) M.length
      (M.headD []).length ?_
    refine (foldPhases (max M.length (M.headD []).length) _ ?_ _ 1 _ le_rfl (by omega)
      (fun x _ _ => Nat.zero_lt_one) (fun x1 _ _ _ _ _ _ hnz => absurd rfl hnz)).2
    intro st i hi1 hin hb hj
    exact hungPhase_post _ (max M.length (M.headD []).length) i hi1 hin
      st.1 st.2.1 st.2.2.1 st.2.2.2 hb hj

/-! Exact counting of emitted entries per kept line index. -/

theorem pairwise_getD_inj (l : List Nat) (hp : l.Pairwise (fun a b => a < b)) :
    ∀ a b, a < l.length → b < l.length → l.getD a 0 = l.getD b 0 → a = b := by
  intro a b ha hb he
  rw [List.getD_eq_getElem l 0 ha, List.getD_eq_getElem l 0 hb] at he
  rcases Nat.lt_trichotomy a b with h | h | h
  · have := List.pairwise_iff_get.mp hp ⟨a, ha⟩ ⟨b, hb⟩ h
    simp only [List.get_eq_getElem] at this
    omega
  · exact h
  · have := List.pairwise_iff_get.mp hp ⟨b, hb⟩ ⟨a, ha⟩ h
    simp only [List.get_eq_getElem] at this
    omega

theorem keepIdx_pairwise (lines : List String) :
    (keepIdx lines).Pairwise (fun a b => a < b) := by
  rw [keepIdx]
  refine List.Pairwise.filter _ ?_
  rw [List.range_eq_range']
  exact List.pairwise_lt_range' 0 lines.length

theorem kMatch_iff (kO : List Nat) (hp : kO.Pairwise (fun a b => a < b)) (a x : Nat)
    (ha : a < kO.length) (hx : x < kO.length) :
    kO.getD a 0 + 1 = kO.getD x 0 + 1 ↔ a = x := by
  constructor
  · intro h
    exact pairwise_getD_inj kO hp a x ha hx (by omega)
  · intro h
    rw [h]

theorem foldl_countP {α β : Type} (P : LineMapping → Bool) (proj : β → EmitState)
    (q : α → Bool) :
    ∀ (xs : List α) (f : β → α → β),
      (∀ s a, a ∈ xs →
        ((proj (f s a)).maps).countP P = ((proj s).maps).countP P + (if q a then 1 else 0)) →
      ∀ s, ((proj (xs.foldl f s)).maps).countP P =
        ((proj s).maps).countP P + xs.countP q := by
  intro xs
  induction xs with
  | nil =>
    intro f _ s
    simp
  | cons a rest ih =>
    intro f hf s
    rw [List.foldl_cons, List.countP_cons,
      ih f (fun s' a' ha' => hf s' a' (List.mem_cons_of_mem a ha')) (f s a),
      hf s a (List.mem_cons_self a rest)]
    by_cases hq : q a = true
    · simp only [if_pos hq]
      omega
    · simp only [if_neg hq]
      omega

theorem foldl_mem_proj {α β : Type} (proj : β → List Nat) (pred : Nat → Prop) :
    ∀ (xs : List α) (f : β → α → β),
      (∀ s a, a ∈ xs → ∀ y ∈ proj (f s a), y ∈ proj s ∨ pred y) →
      ∀ s, ∀ y ∈ proj (xs.foldl f s), y ∈ proj s ∨ pred y := by
  intro xs
  induction xs with
  | nil => exact fun f _ s y hy => Or.inl hy
  | cons a rest ih =>
    intro f hf s y hy
    rw [List.foldl_cons] at hy
    rcases ih f (fun s' a' ha' => hf s' a' (List.mem_cons_of_mem a ha')) (f s a) y hy with
      h | h
    · exact hf s a (List.mem_cons_self a rest) y h
    · exact Or.inr h

theorem countP_eq_any {α : Type} (q : α → Bool) :
    ∀ (l : List α), List.Pairwise (fun a b => ¬(q a = true ∧ q b = true)) l →
      l.countP q = if l.any q = true then 1 else 0 := by
  intro l
  induction l with
  | nil => intro _; simp
  | cons a rest ih =>
    intro hp
    rw [List.countP_cons, List.any_cons]
    by_cases hq : q a = true
    · have hzero : rest.countP q = 0 := by
        rw [List.countP_eq_zero]
        intro b hb hqb
        exact (List.pairwise_cons.mp hp).1 b hb ⟨hq, hqb⟩
      rw [hzero, hq]
      simp
    · have hqf : q a = false := by simpa using hq
      rw [hqf, ih (List.pairwise_cons.mp hp).2]
      simp

theorem any_iff_mem {α : Type} [DecidableEq α] (l : List α) (q : α → Bool) (x : α)
    (hq : ∀ a ∈ l, q a = true → a = x) :
    l.any q = true ↔ (x ∈ l ∧ q x = true) := by
  rw [List.any_eq_true]
  constructor
  · intro ⟨a, ha, hqa⟩
    have := hq a ha hqa
    subst this
    exact ⟨ha, hqa⟩
  · intro ⟨hx, hqx⟩
    exact ⟨x, hx, hqx⟩

theorem countP_indicator {α : Type} [DecidableEq α] (l : List α) (q : α → Bool) (x : α)
    (hnd : l.Nodup) (hq : ∀ a ∈ l, q a = true → a = x) :
    l.countP q = if x ∈ l ∧ q x = true then 1 else 0 := by
  rw [countP_eq_any q l ?_]
  · by_cases h : l.any q = true
    · rw [if_pos h, if_pos ((any_iff_mem l q x hq).mp h)]
    · rw [if_neg h, if_neg (fun hc => h ((any_iff_mem l q x hq).mpr hc))]
  · refine List.Pairwise.imp_of_mem ?_ hnd
    intro a b ha hb hab ⟨hqa, hqb⟩
    exact hab ((hq a ha hqa).trans (hq b hb hqb).symm)

theorem countP_append_single (P : LineMapping → Bool) (l : List LineMapping)
    (e : LineMapping) (b : Bool) (he : P e = b) :
    (l ++ [e]).countP P = l.countP P + (if b = true then 1 else 0) := by
  rw [List.countP_append]
  simp [List.countP_cons, he]

theorem oldMatch (kO : List Nat) (hp : kO.Pairwise (fun a b => a < b)) (a x : Nat)
    (ha : a < kO.length) (hx : x < kO.length) :
    decide ((some (kO.getD a 0 + 1) : Option Nat) = some (kO.getD x 0 + 1))
      = decide (a = x) := by
  rw [decide_eq_decide, Option.some.injEq]
  exact kMatch_iff kO hp a x ha hx

theorem range'_nodup (s n : Nat) : (List.range' s n).Nodup := List.nodup_range' s n 1 (by omega)

theorem countP_range'_window (s L x : Nat) (q : Nat → Bool)
    (hq : ∀ a ∈ List.range' s L, q a = decide (a = x)) :
    (List.range' s L).countP q = if s ≤ x ∧ x < s + L then 1 else 0 := by
  rw [countP_indicator (List.range' s L) q x (range'_nodup s L) ?_]
  · by_cases hc : s ≤ x ∧ x < s + L
    · rw [if_pos hc, if_pos ?_]
      have hxm : x ∈ List.range' s L := List.mem_range'_1.mpr ⟨hc.1, by omega⟩
      exact ⟨hxm, by rw [hq x hxm]; exact decide_eq_true rfl⟩
    · rw [if_neg hc, if_neg ?_]
      intro ⟨h1, _⟩
      have := List.mem_range'_1.mp h1
      exact hc ⟨this.1, by omega⟩
  · intro a ha hqa
    rw [hq a ha] at hqa
    exact of_decide_eq_true hqa

theorem emitEqual_countOld (kO kN : List Nat) (st : EmitState) (op : Opcode) (x : Nat)
    (hp : kO.Pairwise (fun a b => a < b)) (hx : x < kO.length) (hi2 : op.i2 ≤ kO.length) :
    ((emitEqual kO kN st op).maps).countP
        (fun m => decide (m.old_line = some (kO.getD x 0 + 1)))
      = (st.maps).countP (fun m => decide (m.old_line = some (kO.getD x 0 + 1)))
        + (if op.i1 ≤ x ∧ x < op.i2 then 1 else 0) := by
  rw [emitEqual]
  rw [foldl_countP _ (fun s => s) (fun k => decide (op.i1 + k = x))
    (List.range (op.i2 - op.i1)) _ ?_ st]
  · congr 1
    by_cases hc : op.i1 ≤ x ∧ x < op.i2
    · rw [if_pos hc]
      rw [countP_indicator (List.range (op.i2 - op.i1)) _ (x - op.i1)
        (List.nodup_range _) ?_]
      · rw [if_pos ⟨List.mem_range.mpr (by omega), decide_eq_true (by omega)⟩]
      · intro a _ hqa
        have := of_decide_eq_true hqa
        omega
    · rw [if_neg hc, List.countP_eq_zero]
      intro k hk
      have := List.mem_range.mp hk
      simp only [decide_eq_true_eq]
      omega
  · intro s k hk
    have hkm := List.mem_range.mp hk
    refine countP_append_single _ _ _ (decide (op.i1 + k = x)) ?_
    exact oldMatch kO hp (op.i1 + k) x (by omega) hx

theorem emitEqual_countNew (kO kN : List Nat) (st : EmitState) (op : Opcode) (x : Nat)
    (hp : kN.Pairwise (fun a b => a < b)) (hx : x < kN.length) (hj2 : op.j2 ≤ kN.length)
    (heq : op.i2 - op.i1 = op.j2 - op.j1) :
    ((emitEqual kO kN st op).maps).countP
        (fun m => decide (m.new_line = some (kN.getD x 0 + 1)))
      = (st.maps).countP (fun m => decide (m.new_line = some (kN.getD x 0 + 1)))
        + (if op.j1 ≤ x ∧ x < op.j2 then 1 else 0) := by
  rw [emitEqual]
  rw [foldl_countP _ (fun s => s) (fun k => decide (op.j1 + k = x))
    (List.range (op.i2 - op.i1)) _ ?_ st]
  · congr 1
    by_cases hc : op.j1 ≤ x ∧ x < op.j2
    · rw [if_pos hc]
      rw [countP_indicator (List.range (op.i2 - op.i1)) _ (x - op.j1)
        (List.nodup_range _) ?_]
      · rw [if_pos ⟨List.mem_range.mpr (by omega), decide_eq_true (by omega)⟩]
      · intro a _ hqa
        have := of_decide_eq_true hqa
        omega
    · rw [if_neg hc, List.countP_eq_zero]
      intro k hk
      have := List.mem_range.mp hk
      simp only [decide_eq_true_eq]
      omega
  · intro s k hk
    have hkm := List.mem_range.mp hk
    refine countP_append_single _ _ _ (decide (op.j1 + k = x)) ?_
    exact oldMatch kN hp (op.j1 + k) x (by omega) hx

theorem emitDelete_fold (kO : List Nat) :
    ∀ (L start : Nat) (s : EmitState),
      (∀ y ∈ s.mappedOld, y < start) →
      (List.range' start L).foldl
        (fun s oi =>
          if oi ∈ s.mappedOld then s
          else ⟨s.maps ++ [⟨some (kO.getD oi 0 + 1), none⟩], s.mappedOld ++ [oi], s.mappedNew⟩)
        s
      = ⟨s.maps ++ (List.range' start L).map (fun oi => ⟨some (kO.getD oi 0 + 1), none⟩),
         s.mappedOld ++ List.range' start L, s.mappedNew⟩ := by
  intro L
  induction L with
  | zero => intro start s _; simp
  | succ l ih =>
    intro start s hpre
    rw [List.range'_succ start l 1, List.foldl_cons]
    have hnotin : start ∉ s.mappedOld := by
      intro h
      have := hpre start h
      omega
    rw [if_neg hnotin]
    rw [ih (start + 1) _ ?_]
    · simp [List.append_assoc]
    · intro y hy
      rcases List.mem_append.mp hy with h | h
      · have := hpre y h
        omega
      · rw [List.mem_singleton.mp h]
        omega

theorem emitDelete_countOld (kO : List Nat) (st : EmitState) (op : Opcode) (x : Nat)
    (hp : kO.Pairwise (fun a b => a < b)) (hx : x < kO.length) (hi2 : op.i2 ≤ kO.length)
    (hle : op.i1 ≤ op.i2)
    (hpre : ∀ y ∈ st.mappedOld, y < op.i1) :
    ((emitDelete kO st op).maps).countP
        (fun m => decide (m.old_line = some (kO.getD x 0 + 1)))
      = (st.maps).countP (fun m => decide (m.old_line = some (kO.getD x 0 + 1)))
        + (if op.i1 ≤ x ∧ x < op.i2 then 1 else 0) := by
  rw [emitDelete, emitDelete_fold kO (op.i2 - op.i1) op.i1 st hpre]
  rw [List.countP_append, List.countP_map]
  congr 1
  rw [countP_range'_window op.i1 (op.i2 - op.i1) x _ ?_]
  · exact if_congr (by omega) rfl rfl
  · intro a ha
    have ham := List.mem_range'_1.mp ha
    show decide ((some (kO.getD a 0 + 1) : Option Nat) = some (kO.getD x 0 + 1))
      = decide (a = x)
    exact oldMatch kO hp a x (by omega) hx

theorem emitDelete_countNew (kO : List Nat) (st : EmitState) (op : Opcode) (x : Nat) :
    ((emitDelete kO st op).maps).countP (fun m => decide (m.new_line = some x))
      = (st.maps).countP (fun m => decide (m.new_line = some x)) := by
  rw [emitDelete]
  rw [foldl_countP _ (fun s => s) (fun _ => false) (List.range' op.i1 (op.i2 - op.i1)) _ ?_ st]
  · simp
  · intro s oi _
    by_cases hc : oi ∈ s.mappedOld
    · rw [if_pos hc]
      simp
    · rw [if_neg hc]
      refine countP_append_single _ _ _ false ?_
      rfl

theorem emitInsert_fold (kN : List Nat) :
    ∀ (L start : Nat) (s : EmitState),
      (∀ y ∈ s.mappedNew, y < start) →
      (List.range' start L).foldl
        (fun s nj =>
          if nj ∈ s.mappedNew then s
          else ⟨s.maps ++ [⟨none, some (kN.getD nj 0 + 1)⟩], s.mappedOld, s.mappedNew ++ [nj]⟩)
        s
      = ⟨s.maps ++ (List.range' start L).map (fun nj => ⟨none, some (kN.getD nj 0 + 1)⟩),
         s.mappedOld, s.mappedNew ++ List.range' start L⟩ := by
  intro L
  induction L with
  | zero => intro start s _; simp
  | succ l ih =>
    intro start s hpre
    rw [List.range'_succ start l 1, List.foldl_cons]
    have hnotin : start ∉ s.mappedNew := by
      intro h
      have := hpre start h
      omega
    rw [if_neg hnotin]
    rw [ih (start + 1) _ ?_]
    · simp [List.append_assoc]
    · intro y hy
      rcases List.mem_append.mp hy with h | h
      · have := hpre y h
        omega
      · rw [List.mem_singleton.mp h]
        omega

theorem emitInsert_countNew (kN : List Nat) (st : EmitState) (op : Opcode) (x : Nat)
    (hp : kN.Pairwise (fun a b => a < b)) (hx : x < kN.length) (hj2 : op.j2 ≤ kN.length)
    (hle : op.j1 ≤ op.j2)
    (hpre : ∀ y ∈ st.mappedNew, y < op.j1) :
    ((emitInsert kN st op).maps).countP
        (fun m => decide (m.new_line = some (kN.getD x 0 + 1)))
      = (st.maps).countP (fun m => decide (m.new_line = some (kN.getD x 0 + 1)))
        + (if op.j1 ≤ x ∧ x < op.j2 then 1 else 0) := by
  rw [emitInsert, emitInsert_fold kN (op.j2 - op.j1) op.j1 st hpre]
  rw [List.countP_append, List.countP_map]
  congr 1
  rw [countP_range'_window op.j1 (op.j2 - op.j1) x _ ?_]
  · exact if_congr (by omega) rfl rfl
  · intro a ha
    have ham := List.mem_range'_1.mp ha
    show decide ((some (kN.getD a 0 + 1) : Option Nat) = some (kN.getD x 0 + 1))
      = decide (a = x)
    exact oldMatch kN hp a x (by omega) hx

theorem emitInsert_countOld (kN : List Nat) (st : EmitState) (op : Opcode) (x : Nat) :
    ((emitInsert kN st op).maps).countP (fun m => decide (m.old_line = some x))
      = (st.maps).countP (fun m => decide (m.old_line = some x)) := by
  rw [emitInsert]
  rw [foldl_countP _ (fun s => s) (fun _ => false) (List.range' op.j1 (op.j2 - op.j1)) _ ?_ st]
  · simp
  · intro s nj _
    by_cases hc : nj ∈ s.mappedNew
    · rw [if_pos hc]
      simp
    · rw [if_neg hc]
      refine countP_append_single _ _ _ false ?_
      rfl

theorem range'_getD (s n k : Nat) (hk : k < n) : (List.range' s n).getD k 0 = s + k := by
  rw [List.getD_eq_getElem _ _ (by rw [List.length_range']; exact hk)]
  simp [List.getElem_range']

theorem repAccept_state (kO kN bO bN : List Nat) (M : List (List ℝ)) :
    ∀ (pairs : List (Nat × Nat)) (acc : EmitState × List Nat × List Nat),
      (pairs.foldl (repAcceptStep kO kN bO bN M) acc).2.1
          = acc.2.1 ++ (pairs.filter
              (fun rc => !decide ((M.getD rc.1 []).getD rc.2 0 < 0.1))).map
              (fun rc => bO.getD rc.1 0) ∧
      (pairs.foldl (repAcceptStep kO kN bO bN M) acc).2.2
          = acc.2.2 ++ (pairs.filter
              (fun rc => !decide ((M.getD rc.1 []).getD rc.2 0 < 0.1))).map
              (fun rc => bN.getD rc.2 0) ∧
      (pairs.foldl (repAcceptStep kO kN bO bN M) acc).1.mappedOld
          = acc.1.mappedOld ++ (pairs.filter
              (fun rc => !decide ((M.getD rc.1 []).getD rc.2 0 < 0.1))).map
              (fun rc => bO.getD rc.1 0) ∧
      (pairs.foldl (repAcceptStep kO kN bO bN M) acc).1.mappedNew
          = acc.1.mappedNew ++ (pairs.filter
              (fun rc => !decide ((M.getD rc.1 []).getD rc.2 0 < 0.1))).map
              (fun rc => bN.getD rc.2 0) := by
  intro pairs
  induction pairs with
  | nil =>
    intro acc
    simp
  | cons rc rest ih =>
    intro acc
    simp only [List.foldl_cons, List.filter_cons]
    by_cases hs : (M.getD rc.1 []).getD rc.2 0 < 0.1
    · have hstep : repAcceptStep kO kN bO bN M acc rc = acc := by
        simp only [repAcceptStep]
        rw [if_pos hs]
      rw [hstep]
      rw [if_neg (by rw [decide_eq_true hs]; exact Bool.false_ne_true)]
      exact ih acc
    · have hstep : repAcceptStep kO kN bO bN M acc rc =
          (⟨acc.1.maps ++ [⟨some (kO.getD (bO.getD rc.1 0) 0 + 1),
              some (kN.getD (bN.getD rc.2 0) 0 + 1)⟩],
            acc.1.mappedOld ++ [bO.getD rc.1 0], acc.1.mappedNew ++ [bN.getD rc.2 0]⟩,
           acc.2.1 ++ [bO.getD rc.1 0], acc.2.2 ++ [bN.getD rc.2 0]) := by
        simp only [repAcceptStep]
        rw [if_neg hs]
      rw [hstep]
      rw [if_pos (by rw [decide_eq_false hs]; rfl)]
      obtain ⟨ih1, ih2, ih3, ih4⟩ := ih (⟨acc.1.maps ++ [⟨some (kO.getD (bO.getD rc.1 0) 0 + 1),
          some (kN.getD (bN.getD rc.2 0) 0 + 1)⟩],
          acc.1.mappedOld ++ [bO.getD rc.1 0], acc.1.mappedNew ++ [bN.getD rc.2 0]⟩,
          acc.2.1 ++ [bO.getD rc.1 0], acc.2.2 ++ [bN.getD rc.2 0])
      refine ⟨?_, ?_, ?_, ?_⟩
      · rw [ih1]
        simp [List.append_assoc]
      · rw [ih2]
        simp [List.append_assoc]
      · rw [ih3]
        simp [List.append_assoc]
      · rw [ih4]
        simp [List.append_assoc]

theorem emitReplace_eq (kO kN : List Nat) (oldTok newTok oldCtx newCtx : List (List Chars))
    (st : EmitState) (op : Opcode) :
    emitReplace kO kN oldTok newTok oldCtx newCtx st op =
      (List.range' op.j1 (op.j2 - op.j1)).foldl
        (repLeftNewStep kN
          ((maxAssignment (simMatrix oldTok newTok oldCtx newCtx
              (List.range' op.i1 (op.i2 - op.i1)) (List.range' op.j1 (op.j2 - op.j1)))).foldl
            (repAcceptStep kO kN (List.range' op.i1 (op.i2 - op.i1))
              (List.range' op.j1 (op.j2 - op.j1))
              (simMatrix oldTok newTok oldCtx newCtx (List.range' op.i1 (op.i2 - op.i1))
                (List.range' op.j1 (op.j2 - op.j1))))
            (st, [], [])).2.2)
        ((List.range' op.i1 (op.i2 - op.i1)).foldl
          (repLeftOldStep kO
            ((maxAssignment (simMatrix oldTok newTok oldCtx newCtx
                (List.range' op.i1 (op.i2 - op.i1)) (List.range' op.j1 (op.j2 - op.j1)))).foldl
              (repAcceptStep kO kN (List.range' op.i1 (op.i2 - op.i1))
                (List.range' op.j1 (op.j2 - op.j1))
                (simMatrix oldTok newTok oldCtx newCtx (List.range' op.i1 (op.i2 - op.i1))
                  (List.range' op.j1 (op.j2 - op.j1))))
              (st, [], [])).2.1)
          ((maxAssignment (simMatrix oldTok newTok oldCtx newCtx
              (List.range' op.i1 (op.i2 - op.i1)) (List.range' op.j1 (op.j2 - op.j1)))).foldl
            (repAcceptStep kO kN (List.range' op.i1 (op.i2 - op.i1))
              (List.range' op.j1 (op.j2 - op.j1))
              (simMatrix oldTok newTok oldCtx newCtx (List.range' op.i1 (op.i2 - op.i1))
                (List.range' op.j1 (op.j2 - op.j1))))
            (st, [], [])).1) := rfl

theorem emitReplace_countOld (kO kN : List Nat)
    (oldTok newTok oldCtx newCtx : List (List Chars)) (st : EmitState) (op : Opcode)
    (x : Nat) (hp : kO.Pairwise (fun a b => a < b)) (hx : x < kO.length)
    (hi2 : op.i2 ≤ kO.length) (hi12 : op.i1 < op.i2) :
    ((emitReplace kO kN oldTok newTok oldCtx newCtx st op).maps).countP
        (fun m => decide (m.old_line = some (kO.getD x 0 + 1)))
      = (st.maps).countP (fun m => decide (m.old_line = some (kO.getD x 0 + 1)))
        + (if op.i1 ≤ x ∧ x < op.i2 then 1 else 0) := by
  rw [emitReplace_eq]
  set M := simMatrix oldTok newTok oldCtx newCtx (List.range' op.i1 (op.i2 - op.i1))
    (List.range' op.j1 (op.j2 - op.j1)) with hM
  set A := maxAssignment M with hA
  set ACC := A.foldl (repAcceptStep kO kN (List.range' op.i1 (op.i2 - op.i1))
    (List.range' op.j1 (op.j2 - op.j1)) M) (st, [], []) with hACC
  have hML : M.length = op.i2 - op.i1 := by
    rw [hM, simMatrix_length, List.length_range']
  have hcons : List.range' op.i1 (op.i2 - op.i1) =
      op.i1 :: List.range' (op.i1 + 1) (op.i2 - op.i1 - 1) := by
    conv_lhs => rw [show op.i2 - op.i1 = (op.i2 - op.i1 - 1) + 1 by omega]
    rw [List.range'_succ]
  have hMH : (M.headD []).length = op.j2 - op.j1 := by
    rw [hM, hcons, simMatrix_headD_length, List.length_range']
  have hbounds : ∀ rc ∈ A, rc.1 < op.i2 - op.i1 ∧ rc.2 < op.j2 - op.j1 := by
    intro rc h
    have := maxAssignment_mem M rc h
    rw [hML, hMH] at this
    exact this
  have hval : ∀ rc ∈ A, (List.range' op.i1 (op.i2 - op.i1)).getD rc.1 0 = op.i1 + rc.1 :=
    fun rc h => range'_getD _ _ _ (hbounds rc h).1
  obtain ⟨hA21, hA22, hAmo, hAmn⟩ := repAccept_state kO kN
    (List.range' op.i1 (op.i2 - op.i1)) (List.range' op.j1 (op.j2 - op.j1)) M A (st, [], [])
  rw [← hACC] at hA21 hA22 hAmo hAmn
  simp only [List.nil_append] at hA21 hA22 hAmo hAmn
  have husedsub : ∀ y ∈ ACC.2.1, op.i1 ≤ y ∧ y < op.i2 := by
    intro y hy
    rw [hA21] at hy
    obtain ⟨rc, hrcm, hrcv⟩ := List.mem_map.mp hy
    have hrcA := List.mem_of_mem_filter hrcm
    have hv := hval rc hrcA
    have hb := (hbounds rc hrcA).1
    rw [hv] at hrcv
    omega
  have hLN := foldl_countP (fun m => decide (m.old_line = some (kO.getD x 0 + 1)))
    (fun s => s) (fun _ => false) (List.range' op.j1 (op.j2 - op.j1))
    (repLeftNewStep kN ACC.2.2) ?_
    ((List.range' op.i1 (op.i2 - op.i1)).foldl (repLeftOldStep kO ACC.2.1) ACC.1)
  rotate_left
  · intro s nj _
    simp only [repLeftNewStep]
    by_cases hc : nj ∈ ACC.2.2
    · rw [if_pos hc]
      simp
    · rw [if_neg hc]
      exact countP_append_single _ _ _ false rfl
  rw [hLN, show (List.range' op.j1 (op.j2 - op.j1)).countP (fun _ => false) = 0 by simp,
    Nat.add_zero]
  have hLO := foldl_countP (fun m => decide (m.old_line = some (kO.getD x 0 + 1)))
    (fun s => s) (fun oi => (!decide (oi ∈ ACC.2.1)) && decide (oi = x))
    (List.range' op.i1 (op.i2 - op.i1)) (repLeftOldStep kO ACC.2.1) ?_ ACC.1
  rotate_left
  · intro s oi hoi
    simp only [repLeftOldStep]
    by_cases hc : oi ∈ ACC.2.1
    · rw [if_pos hc]
      simp [decide_eq_true hc]
    · rw [if_neg hc]
      refine countP_append_single _ _ _ ((!decide (oi ∈ ACC.2.1)) && decide (oi = x)) ?_
      have hb : op.i1 ≤ oi ∧ oi < op.i2 := by
        have := List.mem_range'_1.mp hoi
        omega
      show decide ((some (kO.getD oi 0 + 1) : Option Nat) = some (kO.getD x 0 + 1)) = _
      rw [oldMatch kO hp oi x (by omega) hx, decide_eq_false hc]
      rfl
  rw [hLO]
  have hACCc := foldl_countP (fun m => decide (m.old_line = some (kO.getD x 0 + 1)))
    Prod.fst (fun rc => (!decide ((M.getD rc.1 []).getD rc.2 0 < 0.1)) &&
      decide (op.i1 + rc.1 = x))
    A (repAcceptStep kO kN (List.range' op.i1 (op.i2 - op.i1))
      (List.range' op.j1 (op.j2 - op.j1)) M) ?_ (st, [], [])
  rotate_left
  · intro acc rc hrc
    simp only [repAcceptStep]
    by_cases hs : (M.getD rc.1 []).getD rc.2 0 < 0.1
    · rw [if_pos hs]
      have hq : ((!decide ((M.getD rc.1 []).getD rc.2 0 < 0.1)) &&
          decide (op.i1 + rc.1 = x)) = false := by
        rw [decide_eq_true hs]
        rfl
      simp only [hq]
      simp
    · rw [if_neg hs]
      refine countP_append_single _ _ _ _ ?_
      rw [hval rc hrc]
      show decide ((some (kO.getD (op.i1 + rc.1) 0 + 1) : Option Nat)
        = some (kO.getD x 0 + 1)) = _
      rw [oldMatch kO hp (op.i1 + rc.1) x (by have := (hbounds rc hrc).1; omega) hx,
        decide_eq_false hs]
      rfl
  rw [← hACC] at hACCc
  have hACCc2 : List.countP (fun m => decide (m.old_line = some (kO.getD x 0 + 1))) ACC.1.maps
      = List.countP (fun m => decide (m.old_line = some (kO.getD x 0 + 1))) st.maps
        + A.countP (fun rc => (!decide ((M.getD rc.1 []).getD rc.2 0 < 0.1)) &&
            decide (op.i1 + rc.1 = x)) := hACCc
  rw [hACCc2]
  have hCA : A.countP (fun rc => (!decide ((M.getD rc.1 []).getD rc.2 0 < 0.1)) &&
      decide (op.i1 + rc.1 = x)) = if x ∈ ACC.2.1 then 1 else 0 := by
    rw [countP_eq_any _ A ?_]
    · refine if_congr ?_ rfl rfl
      constructor
      · intro h
        obtain ⟨rc, hrc, hq⟩ := List.any_eq_true.mp h
        rw [Bool.and_eq_true] at hq
        obtain ⟨hacc, hvx⟩ := hq
        rw [hA21]
        refine List.mem_map.mpr ⟨rc, List.mem_filter.mpr ⟨hrc, hacc⟩, ?_⟩
        rw [hval rc hrc]
        exact of_decide_eq_true hvx
      · intro h
        rw [hA21] at h
        obtain ⟨rc, hrcf, hveq⟩ := List.mem_map.mp h
        obtain ⟨hrcA, hacc⟩ := List.mem_filter.mp hrcf
        refine List.any_eq_true.mpr ⟨rc, hrcA, ?_⟩
        rw [Bool.and_eq_true]
        refine ⟨hacc, ?_⟩
        rw [hval rc hrcA] at hveq
        exact decide_eq_true hveq
    · refine List.Pairwise.imp_of_mem ?_ (maxAssignment_pairwise M)
      intro a b ha hb hab ⟨hqa, hqb⟩
      rw [Bool.and_eq_true] at hqa hqb
      obtain ⟨_, hva⟩ := hqa
      obtain ⟨_, hvb⟩ := hqb
      have h1 := of_decide_eq_true hva
      have h2 := of_decide_eq_true hvb
      exact hab.1 (by omega)
  have hCLO : (List.range' op.i1 (op.i2 - op.i1)).countP
      (fun oi => (!decide (oi ∈ ACC.2.1)) && decide (oi = x))
      = if x ∈ List.range' op.i1 (op.i2 - op.i1) ∧
          ((!decide (x ∈ ACC.2.1)) && decide (x = x)) = true then 1 else 0 := by
    refine countP_indicator _ _ x (range'_nodup _ _) ?_
    intro a _ hqa
    rw [Bool.and_eq_true] at hqa
    exact of_decide_eq_true hqa.2
  rw [hCA, hCLO]
  by_cases hxw : op.i1 ≤ x ∧ x < op.i2
  · rw [if_pos hxw]
    by_cases hu : x ∈ ACC.2.1
    · have hq0 : ¬(x ∈ List.range' op.i1 (op.i2 - op.i1) ∧
          ((!decide (x ∈ ACC.2.1)) && decide (x = x)) = true) := by
        intro ⟨_, hq⟩
        rw [Bool.and_eq_true] at hq
        rw [decide_eq_true hu] at hq
        exact Bool.false_ne_true hq.1
      rw [if_pos hu, if_neg hq0]
    · have hq1 : x ∈ List.range' op.i1 (op.i2 - op.i1) ∧
          ((!decide (x ∈ ACC.2.1)) && decide (x = x)) = true := by
        refine ⟨List.mem_range'_1.mpr ⟨hxw.1, by omega⟩, ?_⟩
        rw [Bool.and_eq_true]
        exact ⟨by rw [decide_eq_false hu]; rfl, decide_eq_true rfl⟩
      rw [if_neg hu, if_pos hq1]
  · have hnu : x ∉ ACC.2.1 := fun hu => hxw (husedsub x hu)
    have hq2 : ¬(x ∈ List.range' op.i1 (op.i2 - op.i1) ∧
        ((!decide (x ∈ ACC.2.1)) && decide (x = x)) = true) := by
      intro ⟨hmem, _⟩
      have := List.mem_range'_1.mp hmem
      exact hxw ⟨this.1, by omega⟩
    rw [if_neg hxw, if_neg hnu, if_neg hq2]

theorem emitReplace_countNew (kO kN : List Nat)
    (oldTok newTok oldCtx newCtx : List (List Chars)) (st : EmitState) (op : Opcode)
    (x : Nat) (hp : kN.Pairwise (fun a b => a < b)) (hx : x < kN.length)
    (hj2 : op.j2 ≤ kN.length) (hi12 : op.i1 < op.i2) (hj12 : op.j1 < op.j2) :
    ((emitReplace kO kN oldTok newTok oldCtx newCtx st op).maps).countP
        (fun m => decide (m.new_line = some (kN.getD x 0 + 1)))
      = (st.maps).countP (fun m => decide (m.new_line = some (kN.getD x 0 + 1)))
        + (if op.j1 ≤ x ∧ x < op.j2 then 1 else 0) := by
  rw [emitReplace_eq]
  set M := simMatrix oldTok newTok oldCtx newCtx (List.range' op.i1 (op.i2 - op.i1))
    (List.range' op.j1 (op.j2 - op.j1)) with hM
  set A := maxAssignment M with hA
  set ACC := A.foldl (repAcceptStep kO kN (List.range' op.i1 (op.i2 - op.i1))
    (List.range' op.j1 (op.j2 - op.j1)) M) (st, [], []) with hACC
  have hML : M.length = op.i2 - op.i1 := by
    rw [hM, simMatrix_length, List.length_range']
  have hcons : List.range' op.i1 (op.i2 - op.i1) =
      op.i1 :: List.range' (op.i1 + 1) (op.i2 - op.i1 - 1) := by
    conv_lhs => rw [show op.i2 - op.i1 = (op.i2 - op.i1 - 1) + 1 by omega]
    rw [List.range'_succ]
  have hMH : (M.headD []).length = op.j2 - op.j1 := by
    rw [hM, hcons, simMatrix_headD_length, List.length_range']
  have hbounds : ∀ rc ∈ A, rc.1 < op.i2 - op.i1 ∧ rc.2 < op.j2 - op.j1 := by
    intro rc h
    have := maxAssignment_mem M rc h
    rw [hML, hMH] at this
    exact this
  have hval : ∀ rc ∈ A, (List.range' op.j1 (op.j2 - op.j1)).getD rc.2 0 = op.j1 + rc.2 :=
    fun rc h => range'_getD _ _ _ (hbounds rc h).2
  obtain ⟨hA21, hA22, hAmo, hAmn⟩ := repAccept_state kO kN
    (List.range' op.i1 (op.i2 - op.i1)) (List.range' op.j1 (op.j2 - op.j1)) M A (st, [], [])
  rw [← hACC] at hA21 hA22 hAmo hAmn
  simp only [List.nil_append] at hA21 hA22 hAmo hAmn
  have husedsub : ∀ y ∈ ACC.2.2, op.j1 ≤ y ∧ y < op.j2 := by
    intro y hy
    rw [hA22] at hy
    obtain ⟨rc, hrcm, hrcv⟩ := List.mem_map.mp hy
    have hrcA := List.mem_of_mem_filter hrcm
    have hv := hval rc hrcA
    have hb := (hbounds rc hrcA).2
    rw [hv] at hrcv
    omega
  have hLN := foldl_countP (fun m => decide (m.new_line = some (kN.getD x 0 + 1)))
    (fun s => s) (fun nj => (!decide (nj ∈ ACC.2.2)) && decide (nj = x))
    (List.range' op.j1 (op.j2 - op.j1)) (repLeftNewStep kN ACC.2.2) ?_
    ((List.range' op.i1 (op.i2 - op.i1)).foldl (repLeftOldStep kO ACC.2.1) ACC.1)
  rotate_left
  · intro s nj hnj
    simp only [repLeftNewStep]
    by_cases hc : nj ∈ ACC.2.2
    · rw [if_pos hc]
      simp [decide_eq_true hc]
    · rw [if_neg hc]
      refine countP_append_single _ _ _ ((!decide (nj ∈ ACC.2.2)) && decide (nj = x)) ?_
      have hb : op.j1 ≤ nj ∧ nj < op.j2 := by
        have := List.mem_range'_1.mp hnj
        omega
      show decide ((some (kN.getD nj 0 + 1) : Option Nat) = some (kN.getD x 0 + 1)) = _
      rw [oldMatch kN hp nj x (by omega) hx, decide_eq_false hc]
      rfl
  rw [hLN]
  have hLO := foldl_countP (fun m => decide (m.new_line = some (kN.getD x 0 + 1)))
    (fun s => s) (fun _ => false)
    (List.range' op.i1 (op.i2 - op.i1)) (repLeftOldStep kO ACC.2.1) ?_ ACC.1
  rotate_left
  · intro s oi _
    simp only [repLeftOldStep]
    by_cases hc : oi ∈ ACC.2.1
    · rw [if_pos hc]
      simp
    · rw [if_neg hc]
      exact countP_append_single _ _ _ false rfl
  rw [hLO, show (List.range' op.i1 (op.i2 - op.i1)).countP (fun _ => false) = 0 by simp,
    Nat.add_zero]
  have hACCc := foldl_countP (fun m => decide (m.new_line = some (kN.getD x 0 + 1)))
    Prod.fst (fun rc => (!decide ((M.getD rc.1 []).getD rc.2 0 < 0.1)) &&
      decide (op.j1 + rc.2 = x))
    A (repAcceptStep kO kN (List.range' op.i1 (op.i2 - op.i1))
      (List.range' op.j1 (op.j2 - op.j1)) M) ?_ (st, [], [])
  rotate_left
  · intro acc rc hrc
    simp only [repAcceptStep]
    by_cases hs : (M.getD rc.1 []).getD rc.2 0 < 0.1
    · rw [if_pos hs]
      have hq : ((!decide ((M.getD rc.1 []).getD rc.2 0 < 0.1)) &&
          decide (op.j1 + rc.2 = x)) = false := by
        rw [decide_eq_true hs]
        rfl
      simp only [hq]
      simp
    · rw [if_neg hs]
      refine countP_append_single _ _ _ _ ?_
      rw [hval rc hrc]
      show decide ((some (kN.getD (op.j1 + rc.2) 0 + 1) : Option Nat)
        = some (kN.getD x 0 + 1)) = _
      rw [oldMatch kN hp (op.j1 + rc.2) x (by have := (hbounds rc hrc).2; omega) hx,
        decide_eq_false hs]
      rfl
  rw [← hACC] at hACCc
  have hACCc2 : List.countP (fun m => decide (m.new_line = some (kN.getD x 0 + 1))) ACC.1.maps
      = List.countP (fun m => decide (m.new_line = some (kN.getD x 0 + 1))) st.maps
        + A.countP (fun rc => (!decide ((M.getD rc.1 []).getD rc.2 0 < 0.1)) &&
            decide (op.j1 + rc.2 = x)) := hACCc
  rw [hACCc2]
  have hCA : A.countP (fun rc => (!decide ((M.getD rc.1 []).getD rc.2 0 < 0.1)) &&
      decide (op.j1 + rc.2 = x)) = if x ∈ ACC.2.2 then 1 else 0 := by
    rw [countP_eq_any _ A ?_]
    · refine if_congr ?_ rfl rfl
      constructor
      · intro h
        obtain ⟨rc, hrc, hq⟩ := List.any_eq_true.mp h
        rw [Bool.and_eq_true] at hq
        obtain ⟨hacc, hvx⟩ := hq
        rw [hA22]
        refine List.mem_map.mpr ⟨rc, List.mem_filter.mpr ⟨hrc, hacc⟩, ?_⟩
        rw [hval rc hrc]
        exact of_decide_eq_true hvx
      · intro h
        rw [hA22] at h
        obtain ⟨rc, hrcf, hveq⟩ := List.mem_map.mp h
        obtain ⟨hrcA, hacc⟩ := List.mem_filter.mp hrcf
        refine List.any_eq_true.mpr ⟨rc, hrcA, ?_⟩
        rw [Bool.and_eq_true]
        refine ⟨hacc, ?_⟩
        rw [hval rc hrcA] at hveq
        exact decide_eq_true hveq
    · refine List.Pairwise.imp_of_mem ?_ (maxAssignment_pairwise M)
      intro a b ha hb hab ⟨hqa, hqb⟩
      rw [Bool.and_eq_true] at hqa hqb
      obtain ⟨_, hva⟩ := hqa
      obtain ⟨_, hvb⟩ := hqb
      have h1 := of_decide_eq_true hva
      have h2 := of_decide_eq_true hvb
      exact hab.2 (by omega)
  have hCLN : (List.range' op.j1 (op.j2 - op.j1)).countP
      (fun nj => (!decide (nj ∈ ACC.2.2)) && decide (nj = x))
      = if x ∈ List.range' op.j1 (op.j2 - op.j1) ∧
          ((!decide (x ∈ ACC.2.2)) && decide (x = x)) = true then 1 else 0 := by
    refine countP_indicator _ _ x (range'_nodup _ _) ?_
    intro a _ hqa
    rw [Bool.and_eq_true] at hqa
    exact of_decide_eq_true hqa.2
  rw [hCA, hCLN]
  by_cases hxw : op.j1 ≤ x ∧ x < op.j2
  · rw [if_pos hxw]
    by_cases hu : x ∈ ACC.2.2
    · have hq0 : ¬(x ∈ List.range' op.j1 (op.j2 - op.j1) ∧
          ((!decide (x ∈ ACC.2.2)) && decide (x = x)) = true) := by
        intro ⟨_, hq⟩
        rw [Bool.and_eq_true] at hq
        rw [decide_eq_true hu] at hq
        exact Bool.false_ne_true hq.1
      rw [if_pos hu, if_neg hq0]
    · have hq1 : x ∈ List.range' op.j1 (op.j2 - op.j1) ∧
          ((!decide (x ∈ ACC.2.2)) && decide (x = x)) = true := by
        refine ⟨List.mem_range'_1.mpr ⟨hxw.1, by omega⟩, ?_⟩
        rw [Bool.and_eq_true]
        exact ⟨by rw [decide_eq_false hu]; rfl, decide_eq_true rfl⟩
      rw [if_neg hu, if_pos hq1]
  · have hnu : x ∉ ACC.2.2 := fun hu => hxw (husedsub x hu)
    have hq2 : ¬(x ∈ List.range' op.j1 (op.j2 - op.j1) ∧
        ((!decide (x ∈ ACC.2.2)) && decide (x = x)) = true) := by
      intro ⟨hmem, _⟩
      have := List.mem_range'_1.mp hmem
      exact hxw ⟨this.1, by omega⟩
    rw [if_neg hxw, if_neg hnu, if_neg hq2]

theorem opcodeShape_le (pI pJ : Nat) (op : Opcode) (hsh : OpcodeShape pI pJ op) :
    op.i1 ≤ op.i2 ∧ op.j1 ≤ op.j2 := by
  obtain ⟨h1, h2, h3⟩ := hsh
  subst h1
  subst h2
  rcases htag : op.tag with _ | _ | _ | _ <;> rw [htag] at h3 <;> omega

theorem processOpcode_mappedOld (kO kN : List Nat)
    (oldTok newTok oldCtx newCtx : List (List Chars)) (st : EmitState) (op : Opcode)
    (hsh : OpcodeShape op.i1 op.j1 op) :
    ∀ y ∈ (processOpcode kO kN oldTok newTok oldCtx newCtx st op).mappedOld,
      y ∈ st.mappedOld ∨ (op.i1 ≤ y ∧ y < op.i2) := by
  rcases htag : op.tag with _ | _ | _ | _ <;> rw [processOpcode, htag]
  · rw [emitEqual]
    refine foldl_mem_proj EmitState.mappedOld _ _ _ ?_ st
    intro s k hk
    intro y hy
    rcases List.mem_append.mp hy with h | h
    · exact Or.inl h
    · have := List.mem_range.mp hk
      rw [List.mem_singleton.mp h]
      exact Or.inr ⟨by omega, by omega⟩
  · rw [OpcodeShape, htag] at hsh
    rw [emitReplace_eq]
    set M := simMatrix oldTok newTok oldCtx newCtx (List.range' op.i1 (op.i2 - op.i1))
      (List.range' op.j1 (op.j2 - op.j1)) with hM
    set A := maxAssignment M with hA
    set ACC := A.foldl (repAcceptStep kO kN (List.range' op.i1 (op.i2 - op.i1))
      (List.range' op.j1 (op.j2 - op.j1)) M) (st, [], []) with hACC
    have hML : M.length = op.i2 - op.i1 := by
      rw [hM, simMatrix_length, List.length_range']
    have hrow : ∀ rc ∈ A, rc.1 < op.i2 - op.i1 := by
      intro rc h
      have := (maxAssignment_mem M rc h).1
      rw [hML] at this
      exact this
    have hval : ∀ rc ∈ A, (List.range' op.i1 (op.i2 - op.i1)).getD rc.1 0 = op.i1 + rc.1 :=
      fun rc h => range'_getD _ _ _ (hrow rc h)
    obtain ⟨hA21, hA22, hAmo, hAmn⟩ := repAccept_state kO kN
      (List.range' op.i1 (op.i2 - op.i1)) (List.range' op.j1 (op.j2 - op.j1)) M A
      (st, [], [])
    rw [← hACC] at hA21 hA22 hAmo hAmn
    simp only [List.nil_append] at hA21 hA22 hAmo hAmn
    intro y hy
    have hstep2 : ∀ y ∈ ((List.range' op.i1 (op.i2 - op.i1)).foldl
        (repLeftOldStep kO ACC.2.1) ACC.1).mappedOld,
        y ∈ ACC.1.mappedOld ∨ (op.i1 ≤ y ∧ y < op.i2) := by
      refine foldl_mem_proj EmitState.mappedOld _ _ _ ?_ ACC.1
      intro s oi hoi y hy
      simp only [repLeftOldStep] at hy
      by_cases hc : oi ∈ ACC.2.1
      · rw [if_pos hc] at hy
        exact Or.inl hy
      · rw [if_neg hc] at hy
        rcases List.mem_append.mp hy with h | h
        · exact Or.inl h
        · have := List.mem_range'_1.mp hoi
          rw [List.mem_singleton.mp h]
          exact Or.inr ⟨by omega, by omega⟩
    have hstep3 : ∀ y ∈ ((List.range' op.j1 (op.j2 - op.j1)).foldl
        (repLeftNewStep kN ACC.2.2)
        ((List.range' op.i1 (op.i2 - op.i1)).foldl (repLeftOldStep kO ACC.2.1)
          ACC.1)).mappedOld,
        y ∈ ((List.range' op.i1 (op.i2 - op.i1)).foldl (repLeftOldStep kO ACC.2.1)
          ACC.1).mappedOld ∨ (op.i1 ≤ y ∧ y < op.i2) := by
      refine foldl_mem_proj EmitState.mappedOld _ _ _ ?_ _
      intro s nj _ y hy
      simp only [repLeftNewStep] at hy
      by_cases hc : nj ∈ ACC.2.2
      · rw [if_pos hc] at hy
        exact Or.inl hy
      · rw [if_neg hc] at hy
        exact Or.inl hy
    rcases hstep3 y hy with h | h
    · rcases hstep2 y h with h' | h'
      · rw [hAmo] at h'
        rcases List.mem_append.mp h' with h'' | h''
        · exact Or.inl h''
        · obtain ⟨rc, hrcm, hrcv⟩ := List.mem_map.mp h''
          have hrcA := List.mem_of_mem_filter hrcm
          have hv := hval rc hrcA
          have hb := hrow rc hrcA
          rw [hv] at hrcv
          exact Or.inr ⟨by omega, by omega⟩
      · exact Or.inr h'
    · exact Or.inr h
  · rw [emitDelete]
    refine foldl_mem_proj EmitState.mappedOld _ _ _ ?_ st
    intro s oi hoi y hy
    by_cases hc : oi ∈ s.mappedOld
    · rw [if_pos hc] at hy
      exact Or.inl hy
    · rw [if_neg hc] at hy
      rcases List.mem_append.mp hy with h | h
      · exact Or.inl h
      · have := List.mem_range'_1.mp hoi
        rw [List.mem_singleton.mp h]
        exact Or.inr ⟨by omega, by omega⟩
  · rw [emitInsert]
    refine foldl_mem_proj EmitState.mappedOld _ _ _ ?_ st
    intro s nj _ y hy
    by_cases hc : nj ∈ s.mappedNew
    · rw [if_pos hc] at hy
      exact Or.inl hy
    · rw [if_neg hc] at hy
      exact Or.inl hy

theorem processOpcode_mappedNew (kO kN : List Nat)
    (oldTok newTok oldCtx newCtx : List (List Chars)) (st : EmitState) (op : Opcode)
    (hsh : OpcodeShape op.i1 op.j1 op) :
    ∀ y ∈ (processOpcode kO kN oldTok newTok oldCtx newCtx st op).mappedNew,
      y ∈ st.mappedNew ∨ (op.j1 ≤ y ∧ y < op.j2) := by
  rcases htag : op.tag with _ | _ | _ | _ <;> rw [processOpcode, htag]
  · rw [OpcodeShape, htag] at hsh
    rw [emitEqual]
    refine foldl_mem_proj EmitState.mappedNew _ _ _ ?_ st
    intro s k hk
    intro y hy
    rcases List.mem_append.mp hy with h | h
    · exact Or.inl h
    · have := List.mem_range.mp hk
      rw [List.mem_singleton.mp h]
      obtain ⟨_, _, heq⟩ := hsh.2.2
      exact Or.inr ⟨by omega, by omega⟩
  · rw [OpcodeShape, htag] at hsh
    rw [emitReplace_eq]
    set M := simMatrix oldTok newTok oldCtx newCtx (List.range' op.i1 (op.i2 - op.i1))
      (List.range' op.j1 (op.j2 - op.j1)) with hM
    set A := maxAssignment M with hA
    set ACC := A.foldl (repAcceptStep kO kN (List.range' op.i1 (op.i2 - op.i1))
      (List.range' op.j1 (op.j2 - op.j1)) M) (st, [], []) with hACC
    have hML : M.length = op.i2 - op.i1 := by
      rw [hM, simMatrix_length, List.length_range']
    have hcons : List.range' op.i1 (op.i2 - op.i1) =
        op.i1 :: List.range' (op.i1 + 1) (op.i2 - op.i1 - 1) := by
      conv_lhs => rw [show op.i2 - op.i1 = (op.i2 - op.i1 - 1) + 1 by omega]
      rw [List.range'_succ]
    have hMH : (M.headD []).length = op.j2 - op.j1 := by
      rw [hM, hcons, simMatrix_headD_length, List.length_range']
    have hcol : ∀ rc ∈ A, rc.2 < op.j2 - op.j1 := by
      intro rc h
      have := (maxAssignment_mem M rc h).2
      rw [hMH] at this
      exact this
    have hval : ∀ rc ∈ A, (List.range' op.j1 (op.j2 - op.j1)).getD rc.2 0 = op.j1 + rc.2 :=
      fun rc h => range'_getD _ _ _ (hcol rc h)
    obtain ⟨hA21, hA22, hAmo, hAmn⟩ := repAccept_state kO kN
      (List.range' op.i1 (op.i2 - op.i1)) (List.range' op.j1 (op.j2 - op.j1)) M A
      (st, [], [])
    rw [← hACC] at hA21 hA22 hAmo hAmn
    simp only [List.nil_append] at hA21 hA22 hAmo hAmn
    intro y hy
    have hstep2 : ∀ y ∈ ((List.range' op.i1 (op.i2 - op.i1)).foldl
        (repLeftOldStep kO ACC.2.1) ACC.1).mappedNew,
        y ∈ ACC.1.mappedNew := by
      refine fun y hy => (foldl_mem_proj EmitState.mappedNew (fun _ => False) _ _ ?_ ACC.1
        y hy).resolve_right (fun h => h)
      intro s oi _ y hy
      simp only [repLeftOldStep] at hy
      by_cases hc : oi ∈ ACC.2.1
      · rw [if_pos hc] at hy
        exact Or.inl hy
      · rw [if_neg hc] at hy
        exact Or.inl hy
    have hstep3 : ∀ y ∈ ((List.range' op.j1 (op.j2 - op.j1)).foldl
        (repLeftNewStep kN ACC.2.2)
        ((List.range' op.i1 (op.i2 - op.i1)).foldl (repLeftOldStep kO ACC.2.1)
          ACC.1)).mappedNew,
        y ∈ ((List.range' op.i1 (op.i2 - op.i1)).foldl (repLeftOldStep kO ACC.2.1)
          ACC.1).mappedNew ∨ (op.j1 ≤ y ∧ y < op.j2) := by
      refine foldl_mem_proj EmitState.mappedNew _ _ _ ?_ _
      intro s nj hnj y hy
      simp only [repLeftNewStep] at hy
      by_cases hc : nj ∈ ACC.2.2
      · rw [if_pos hc] at hy
        exact Or.inl hy
      · rw [if_neg hc] at hy
        rcases List.mem_append.mp hy with h | h
        · exact Or.inl h
        · have := List.mem_range'_1.mp hnj
          rw [List.mem_singleton.mp h]
          exact Or.inr ⟨by omega, by omega⟩
    rcases hstep3 y hy with h | h
    · have h' := hstep2 y h
      rw [hAmn] at h'
      rcases List.mem_append.mp h' with h'' | h''
      · exact Or.inl h''
      · obtain ⟨rc, hrcm, hrcv⟩ := List.mem_map.mp h''
        have hrcA := List.mem_of_mem_filter hrcm
        have hv := hval rc hrcA
        have hb := hcol rc hrcA
        rw [hv] at hrcv
        exact Or.inr ⟨by omega, by omega⟩
    · exact Or.inr h
  · rw [emitDelete]
    refine foldl_mem_proj EmitState.mappedNew _ _ _ ?_ st
    intro s oi _ y hy
    by_cases hc : oi ∈ s.mappedOld
    · rw [if_pos hc] at hy
      exact Or.inl hy
    · rw [if_neg hc] at hy
      exact Or.inl hy
  · rw [emitInsert]
    refine foldl_mem_proj EmitState.mappedNew _ _ _ ?_ st
    intro s nj hnj y hy
    by_cases hc : nj ∈ s.mappedNew
    · rw [if_pos hc] at hy
      exact Or.inl hy
    · rw [if_neg hc] at hy
      rcases List.mem_append.mp hy with h | h
      · exact Or.inl h
      · have := List.mem_range'_1.mp hnj
        rw [List.mem_singleton.mp h]
        exact Or.inr ⟨by omega, by omega⟩

theorem processOpcode_countOld (kO kN : List Nat)
    (oldTok newTok oldCtx newCtx : List (List Chars)) (st : EmitState) (op : Opcode)
    (x : Nat) (hp : kO.Pairwise (fun a b => a < b)) (hx : x < kO.length)
    (hsh : OpcodeShape op.i1 op.j1 op) (hi2 : op.i2 ≤ kO.length)
    (hpre : ∀ y ∈ st.mappedOld, y < op.i1) :
    ((processOpcode kO kN oldTok newTok oldCtx newCtx st op).maps).countP
        (fun m => decide (m.old_line = some (kO.getD x 0 + 1)))
      = (st.maps).countP (fun m => decide (m.old_line = some (kO.getD x 0 + 1)))
        + (if op.i1 ≤ x ∧ x < op.i2 then 1 else 0) := by
  rcases htag : op.tag with _ | _ | _ | _ <;> rw [processOpcode, htag] <;>
    rw [OpcodeShape, htag] at hsh
  · exact emitEqual_countOld kO kN st op x hp hx hi2
  · exact emitReplace_countOld kO kN oldTok newTok oldCtx newCtx st op x hp hx hi2
      hsh.2.2.1
  · have hii : op.i1 < op.i2 := hsh.2.2.1
    exact emitDelete_countOld kO st op x hp hx hi2 (by omega) hpre
  · have hii : op.i2 = op.i1 := hsh.2.2.1
    rw [emitInsert_countOld kN st op (kO.getD x 0 + 1), if_neg (by omega)]
    rfl

theorem processOpcode_countNew (kO kN : List Nat)
    (oldTok newTok oldCtx newCtx : List (List Chars)) (st : EmitState) (op : Opcode)
    (x : Nat) (hp : kN.Pairwise (fun a b => a < b)) (hx : x < kN.length)
    (hsh : OpcodeShape op.i1 op.j1 op) (hj2 : op.j2 ≤ kN.length)
    (hpre : ∀ y ∈ st.mappedNew, y < op.j1) :
    ((processOpcode kO kN oldTok newTok oldCtx newCtx st op).maps).countP
        (fun m => decide (m.new_line = some (kN.getD x 0 + 1)))
      = (st.maps).countP (fun m => decide (m.new_line = some (kN.getD x 0 + 1)))
        + (if op.j1 ≤ x ∧ x < op.j2 then 1 else 0) := by
  rcases htag : op.tag with _ | _ | _ | _ <;> rw [processOpcode, htag] <;>
    rw [OpcodeShape, htag] at hsh
  · exact emitEqual_countNew kO kN st op x hp hx hj2 hsh.2.2.2.2
  · exact emitReplace_countNew kO kN oldTok newTok oldCtx newCtx st op x hp hx hj2
      hsh.2.2.1 hsh.2.2.2
  · have hjj : op.j2 = op.j1 := hsh.2.2.2
    rw [emitDelete_countNew kO st op (kN.getD x 0 + 1), if_neg (by omega)]
    rfl
  · have hjj : op.j1 < op.j2 := hsh.2.2.2
    exact emitInsert_countNew kN st op x hp hx hj2 (by omega) hpre

theorem opsFold_countOld (kO kN : List Nat) (oldTok newTok oldCtx newCtx : List (List Chars))
    (hpO : kO.Pairwise (fun a b => a < b)) (x : Nat) (hx : x < kO.length) :
    ∀ (ops : List Opcode) (pI pJ la lb : Nat) (st : EmitState),
      OpsCover pI pJ ops la lb → la ≤ kO.length →
      (∀ y ∈ st.mappedOld, y < pI) →
      ((ops.foldl (processOpcode kO kN oldTok newTok oldCtx newCtx) st).maps).countP
          (fun m => decide (m.old_line = some (kO.getD x 0 + 1)))
        = (st.maps).countP (fun m => decide (m.old_line = some (kO.getD x 0 + 1)))
          + (if pI ≤ x ∧ x < la then 1 else 0) := by
  intro ops
  induction ops with
  | nil =>
    intro pI pJ la lb st hcov hla _
    obtain ⟨h1, _⟩ := hcov
    subst h1
    rw [if_neg (by omega)]
    rfl
  | cons op rest ih =>
    intro pI pJ la lb st hcov hla hmo
    have hsh0 := hcov.1
    have hrest := hcov.2
    have hi1 : op.i1 = pI := hsh0.1
    have hj1 : op.j1 = pJ := hsh0.2.1
    have hsh : OpcodeShape op.i1 op.j1 op := by
      rw [hi1, hj1]
      exact hsh0
    have hle := opcodeShape_le op.i1 op.j1 op hsh
    have hpos := opsCover_pos_le hrest
    have hmo' : ∀ y ∈ st.mappedOld, y < op.i1 := by
      rw [hi1]
      exact hmo
    have hstepO := processOpcode_countOld kO kN oldTok newTok oldCtx newCtx st op x
      hpO hx hsh (by omega) hmo'
    have hmo2 : ∀ y ∈ (processOpcode kO kN oldTok newTok oldCtx newCtx st op).mappedOld,
        y < op.i2 := by
      intro y hy
      rcases processOpcode_mappedOld kO kN oldTok newTok oldCtx newCtx st op hsh y hy with
        h | h
      · have := hmo' y h
        omega
      · omega
    have ihO := ih op.i2 op.j2 la lb
      (processOpcode kO kN oldTok newTok oldCtx newCtx st op) hrest hla hmo2
    rw [List.foldl_cons, ihO, hstepO]
    split_ifs <;> omega

theorem opsFold_countNew (kO kN : List Nat) (oldTok newTok oldCtx newCtx : List (List Chars))
    (hpN : kN.Pairwise (fun a b => a < b)) (z : Nat) (hz : z < kN.length) :
    ∀ (ops : List Opcode) (pI pJ la lb : Nat) (st : EmitState),
      OpsCover pI pJ ops la lb → lb ≤ kN.length →
      (∀ y ∈ st.mappedNew, y < pJ) →
      ((ops.foldl (processOpcode kO kN oldTok newTok oldCtx newCtx) st).maps).countP
          (fun m => decide (m.new_line = some (kN.getD z 0 + 1)))
        = (st.maps).countP (fun m => decide (m.new_line = some (kN.getD z 0 + 1)))
          + (if pJ ≤ z ∧ z < lb then 1 else 0) := by
  intro ops
  induction ops with
  | nil =>
    intro pI pJ la lb st hcov hlb _
    obtain ⟨_, h2⟩ := hcov
    subst h2
    rw [if_neg (by omega)]
    rfl
  | cons op rest ih =>
    intro pI pJ la lb st hcov hlb hmn
    have hsh0 := hcov.1
    have hrest := hcov.2
    have hi1 : op.i1 = pI := hsh0.1
    have hj1 : op.j1 = pJ := hsh0.2.1
    have hsh : OpcodeShape op.i1 op.j1 op := by
      rw [hi1, hj1]
      exact hsh0
    have hle := opcodeShape_le op.i1 op.j1 op hsh
    have hpos := opsCover_pos_le hrest
    have hmn' : ∀ y ∈ st.mappedNew, y < op.j1 := by
      rw [hj1]
      exact hmn
    have hstepN := processOpcode_countNew kO kN oldTok newTok oldCtx newCtx st op z
      hpN hz hsh (by omega) hmn'
    have hmn2 : ∀ y ∈ (processOpcode kO kN oldTok newTok oldCtx newCtx st op).mappedNew,
        y < op.j2 := by
      intro y hy
      rcases processOpcode_mappedNew kO kN oldTok newTok oldCtx newCtx st op hsh y hy with
        h | h
      · have := hmn' y h
        omega
      · omega
    have ihN := ih op.i2 op.j2 la lb
      (processOpcode kO kN oldTok newTok oldCtx newCtx st op) hrest hlb hmn2
    rw [List.foldl_cons, ihN, hstepN]
    split_ifs <;> omega

theorem normKept_length (lines : List String) :
    (normKept lines).length = (keepIdx lines).length := by
  rw [normKept, List.length_map]

theorem rawMappings_countOld (old_lines new_lines : List String) (x : Nat)
    (hx : x < (keepIdx old_lines).length) :
    (rawMappings old_lines new_lines).countP
        (fun m => decide (m.old_line = some ((keepIdx old_lines).getD x 0 + 1))) = 1 := by
  rw [rawMappings]
  have hO := opsFold_countOld (keepIdx old_lines) (keepIdx new_lines)
    (tokKept old_lines) (tokKept new_lines) (ctxKept old_lines) (ctxKept new_lines)
    (keepIdx_pairwise old_lines) x hx
    (seqOpcodes (normKept old_lines) (normKept new_lines)) 0 0
    (normKept old_lines).length (normKept new_lines).length ⟨[], [], []⟩
    (seqOpcodes_cover (normKept old_lines) (normKept new_lines))
    (le_of_eq (normKept_length old_lines))
    (fun y hy => absurd hy (List.not_mem_nil y))
  rw [hO]
  have hxl : x < (normKept old_lines).length := by
    rw [normKept_length]
    exact hx
  rw [if_pos ⟨Nat.zero_le x, hxl⟩]
  rfl

theorem rawMappings_countNew (old_lines new_lines : List String) (z : Nat)
    (hz : z < (keepIdx new_lines).length) :
    (rawMappings old_lines new_lines).countP
        (fun m => decide (m.new_line = some ((keepIdx new_lines).getD z 0 + 1))) = 1 := by
  rw [rawMappings]
  have hN := opsFold_countNew (keepIdx old_lines) (keepIdx new_lines)
    (tokKept old_lines) (tokKept new_lines) (ctxKept old_lines) (ctxKept new_lines)
    (keepIdx_pairwise new_lines) z hz
    (seqOpcodes (normKept old_lines) (normKept new_lines)) 0 0
    (normKept old_lines).length (normKept new_lines).length ⟨[], [], []⟩
    (seqOpcodes_cover (normKept old_lines) (normKept new_lines))
    (le_of_eq (normKept_length new_lines))
    (fun y hy => absurd hy (List.not_mem_nil y))
  rw [hN]
  have hzl : z < (normKept new_lines).length := by
    rw [normKept_length]
    exact hz
  rw [if_pos ⟨Nat.zero_le z, hzl⟩]
  rfl

theorem mapLines_countOld (pyHash : Chars → Int) (old_lines new_lines : List String)
    (x : Nat) (hx : x < (keepIdx old_lines).length) :
    (mapLines pyHash old_lines new_lines).countP
        (fun m => decide (m.old_line = some ((keepIdx old_lines).getD x 0 + 1))) = 1 := by
  rw [mapLines]
  rw [(List.mergeSort_perm (rawMappings old_lines new_lines) keyLe).countP_eq]
  exact rawMappings_countOld old_lines new_lines x hx

theorem mapLines_countNew (pyHash : Chars → Int) (old_lines new_lines : List String)
    (z : Nat) (hz : z < (keepIdx new_lines).length) :
    (mapLines pyHash old_lines new_lines).countP
        (fun m => decide (m.new_line = some ((keepIdx new_lines).getD z 0 + 1))) = 1 := by
  rw [mapLines]
  rw [(List.mergeSort_perm (rawMappings old_lines new_lines) keyLe).countP_eq]
  exact rawMappings_countNew old_lines new_lines z hz

/-- C1 (amended): for every input pair, the list returned by map_lines contains, for
each 1-based old line index i whose line has a non-whitespace character, exactly one
entry with old_line = i, and for each such new line index j, exactly one entry with
new_line = j.  (Blank lines are dropped at lines 86-87 and appear in no entry, which
is the subject of the C9 theorem; the original universal claim fails on them, see the
counterexample.) -/
theorem c1_totality (pyHash : Chars → Int) (old_lines new_lines : List String) :
    (∀ i, 1 ≤ i → i ≤ old_lines.length →
      keepLine (old_lines.getD (i - 1) "") = true →
      (mapLines pyHash old_lines new_lines).countP
        (fun m => decide (m.old_line = some i)) = 1) ∧
    (∀ j, 1 ≤ j → j ≤ new_lines.length →
      keepLine (new_lines.getD (j - 1) "") = true →
      (mapLines pyHash old_lines new_lines).countP
        (fun m => decide (m.new_line = some j)) = 1) := by
  constructor
  · intro i hi1 hiN hkeep
    have hmem : i - 1 ∈ keepIdx old_lines := by
      rw [keepIdx, List.mem_filter]
      exact ⟨List.mem_range.mpr (by omega), hkeep⟩
    obtain ⟨⟨x, hxlt⟩, hget⟩ := List.mem_iff_get.mp hmem
    have hgd : (keepIdx old_lines).getD x 0 = i - 1 := by
      rw [List.getD_eq_getElem _ _ hxlt]
      exact hget
    have hc := mapLines_countOld pyHash old_lines new_lines x hxlt
    rw [hgd] at hc
    rw [show i = i - 1 + 1 by omega]
    exact hc
  · intro j hj1 hjN hkeep
    have hmem : j - 1 ∈ keepIdx new_lines := by
      rw [keepIdx, List.mem_filter]
      exact ⟨List.mem_range.mpr (by omega), hkeep⟩
    obtain ⟨⟨z, hzlt⟩, hget⟩ := List.mem_iff_get.mp hmem
    have hgd : (keepIdx new_lines).getD z 0 = j - 1 := by
      rw [List.getD_eq_getElem _ _ hzlt]
      exact hget
    have hc := mapLines_countNew pyHash old_lines new_lines z hzlt
    rw [hgd] at hc
    rw [show j = j - 1 + 1 by omega]
    exact hc

theorem c1_totality_witness :
    (mapLines (fun _ => 0) ["a"] ["a"]).countP
        (fun m => decide (m.old_line = some 1)) = 1 ∧
    (mapLines (fun _ => 0) ["a"] ["a"]).countP
        (fun m => decide (m.new_line = some 1)) = 1 :=
  ⟨(c1_totality (fun _ => 0) ["a"] ["a"]).1 1 (by decide) (by decide) (by decide),
   (c1_totality (fun _ => 0) ["a"] ["a"]).2 1 (by decide) (by decide) (by decide)⟩

/-! The identity diff: on equal inputs find_longest_match returns the whole region. -/

theorem takeWhile_all (p : Nat → Bool) :
    ∀ (l : List Nat), (∀ x ∈ l, p x = true) → l.takeWhile p = l := by
  intro l
  induction l with
  | nil => intro _; rfl
  | cons a rest ih =>
    intro h
    rw [List.takeWhile_cons, if_pos (h a (List.mem_cons_self a rest))]
    rw [ih (fun x hx => h x (List.mem_cons_of_mem a hx))]

theorem flmCandidates_self (l : List Chars) (x : Chars) :
    flmCandidates l x 0 l.length = (List.range l.length).filter (fun j => l.getD j [] == x) := by
  rw [flmCandidates]
  rw [List.filter_eq_self.mpr (fun a _ => decide_eq_true (Nat.zero_le a))]
  refine takeWhile_all _ _ ?_
  intro j hj
  rw [b2j] at hj
  have := List.mem_range.mp (List.mem_of_mem_filter hj)
  exact decide_eq_true this

theorem flmRow_pre (d : Nat → Nat) (i : Nat) (hd1 : ∀ x, d x ≤ x + 1) :
    ∀ (cs : List Nat), (∀ j ∈ cs, j < i) →
    ∀ (nd : Nat → Nat), (∀ x, nd x ≤ x + 1) → (∀ x, nd x ≤ i + 1) →
      (cs.foldl (flmStep d i) (nd, 0, 0, i)).2 = (0, 0, i) ∧
      (∀ x, (cs.foldl (flmStep d i) (nd, 0, 0, i)).1 x ≤ x + 1) ∧
      (∀ x, (cs.foldl (flmStep d i) (nd, 0, 0, i)).1 x ≤ i + 1) := by
  intro cs
  induction cs with
  | nil => exact fun _ nd h1 h2 => ⟨rfl, h1, h2⟩
  | cons j rest ih =>
    intro hj nd h1 h2
    have hji : j < i := hj j (List.mem_cons_self j rest)
    have hk : (if j = 0 then 0 else d (j - 1)) + 1 ≤ j + 1 := by
      by_cases h0 : j = 0
      · rw [if_pos h0]
        omega
      · rw [if_neg h0]
        have := hd1 (j - 1)
        omega
    rw [List.foldl_cons]
    have hstep : flmStep d i (nd, 0, 0, i) j =
        ((fun x => if x = j then (if j = 0 then 0 else d (j - 1)) + 1 else nd x), 0, 0, i) := by
      simp only [flmStep]
      rw [if_neg (by omega : ¬(i < (if j = 0 then 0 else d (j - 1)) + 1))]
    rw [hstep]
    refine ih (fun x hx => hj x (List.mem_cons_of_mem j hx)) _ ?_ ?_
    · intro x
      show (if x = j then (if j = 0 then 0 else d (j - 1)) + 1 else nd x) ≤ x + 1
      by_cases hx : x = j
      · rw [if_pos hx]
        omega
      · rw [if_neg hx]
        exact h1 x
    · intro x
      show (if x = j then (if j = 0 then 0 else d (j - 1)) + 1 else nd x) ≤ i + 1
      by_cases hx : x = j
      · rw [if_pos hx]
        omega
      · rw [if_neg hx]
        exact h2 x

theorem flmRow_post (d : Nat → Nat) (i : Nat) (hd1 : ∀ x, d x ≤ x + 1)
    (hd2 : ∀ x, d x ≤ i) :
    ∀ (cs : List Nat), (∀ j ∈ cs, i < j) →
    ∀ (nd : Nat → Nat), (∀ x, nd x ≤ x + 1) → (∀ x, nd x ≤ i + 1) →
      (cs.foldl (flmStep d i) (nd, 0, 0, i + 1)).2 = (0, 0, i + 1) ∧
      (∀ x, (cs.foldl (flmStep d i) (nd, 0, 0, i + 1)).1 x ≤ x + 1) ∧
      (∀ x, (cs.foldl (flmStep d i) (nd, 0, 0, i + 1)).1 x ≤ i + 1) ∧
      (∀ x, x ≤ i → (cs.foldl (flmStep d i) (nd, 0, 0, i + 1)).1 x = nd x) := by
  intro cs
  induction cs with
  | nil => exact fun _ nd h1 h2 => ⟨rfl, h1, h2, fun _ _ => rfl⟩
  | cons j rest ih =>
    intro hj nd h1 h2
    have hji : i < j := hj j (List.mem_cons_self j rest)
    have hk : (if j = 0 then 0 else d (j - 1)) + 1 ≤ i + 1 := by
      by_cases h0 : j = 0
      · rw [if_pos h0]
        omega
      · rw [if_neg h0]
        have := hd2 (j - 1)
        omega
    have hk1 : (if j = 0 then 0 else d (j - 1)) + 1 ≤ j + 1 := by
      by_cases h0 : j = 0
      · rw [if_pos h0]
        omega
      · rw [if_neg h0]
        have := hd1 (j - 1)
        omega
    rw [List.foldl_cons]
    have hstep : flmStep d i (nd, 0, 0, i + 1) j =
        ((fun x => if x = j then (if j = 0 then 0 else d (j - 1)) + 1 else nd x),
          0, 0, i + 1) := by
      simp only [flmStep]
      rw [if_neg (by omega : ¬(i + 1 < (if j = 0 then 0 else d (j - 1)) + 1))]
    rw [hstep]
    obtain ⟨hb, hh1, hh2, hh3⟩ := ih (fun x hx => hj x (List.mem_cons_of_mem j hx))
      (fun x => if x = j then (if j = 0 then 0 else d (j - 1)) + 1 else nd x)
      (fun x => by
        show (if x = j then (if j = 0 then 0 else d (j - 1)) + 1 else nd x) ≤ x + 1
        by_cases hx : x = j
        · rw [if_pos hx]
          omega
        · rw [if_neg hx]
          exact h1 x)
      (fun x => by
        show (if x = j then (if j = 0 then 0 else d (j - 1)) + 1 else nd x) ≤ i + 1
        by_cases hx : x = j
        · rw [if_pos hx]
          omega
        · rw [if_neg hx]
          exact h2 x)
    refine ⟨hb, hh1, hh2, ?_⟩
    intro x hx
    rw [hh3 x hx]
    show (if x = j then (if j = 0 then 0 else d (j - 1)) + 1 else nd x) = nd x
    rw [if_neg (by omega : ¬x = j)]

theorem flmRow_full (d : Nat → Nat) (i : Nat) (hd1 : ∀ x, d x ≤ x + 1)
    (hd2 : ∀ x, d x ≤ i) (hd3 : i = 0 ∨ d (i - 1) = i)
    (pre post : List Nat) (hpre : ∀ j ∈ pre, j < i) (hpost : ∀ j ∈ post, i < j) :
    ((pre ++ i :: post).foldl (flmStep d i) ((fun _ => 0), 0, 0, i)).2 = (0, 0, i + 1) ∧
    (∀ x, ((pre ++ i :: post).foldl (flmStep d i) ((fun _ => 0), 0, 0, i)).1 x ≤ x + 1) ∧
    (∀ x, ((pre ++ i :: post).foldl (flmStep d i) ((fun _ => 0), 0, 0, i)).1 x ≤ i + 1) ∧
    ((pre ++ i :: post).foldl (flmStep d i) ((fun _ => 0), 0, 0, i)).1 i = i + 1 := by
  rw [List.foldl_append]
  obtain ⟨hb, h1, h2⟩ := flmRow_pre d i hd1 pre hpre (fun _ => 0)
    (fun x => Nat.zero_le (x + 1)) (fun x => Nat.zero_le (i + 1))
  have hmid : pre.foldl (flmStep d i) ((fun _ => 0), 0, 0, i) =
      ((pre.foldl (flmStep d i) ((fun _ => 0), 0, 0, i)).1, 0, 0, i) :=
    congrArg (fun t => ((pre.foldl (flmStep d i) ((fun _ => 0), 0, 0, i)).1, t)) hb
  rw [List.foldl_cons, hmid]
  have hkval : (if i = 0 then 0 else d (i - 1)) + 1 = i + 1 := by
    rcases hd3 with h0 | hval
    · rw [if_pos h0, h0]
    · by_cases h0 : i = 0
      · rw [if_pos h0, h0]
      · rw [if_neg h0, hval]
  have hstep : flmStep d i ((pre.foldl (flmStep d i) ((fun _ => 0), 0, 0, i)).1, 0, 0, i) i =
      ((fun x => if x = i then (if i = 0 then 0 else d (i - 1)) + 1
          else (pre.foldl (flmStep d i) ((fun _ => 0), 0, 0, i)).1 x),
        0, 0, i + 1) := by
    simp only [flmStep]
    rw [if_pos (by omega : i < (if i = 0 then 0 else d (i - 1)) + 1)]
    rw [hkval]
    have h0 : i + 1 - (i + 1) = 0 := by omega
    rw [h0]
  rw [hstep]
  obtain ⟨hb', h1', h2', h3'⟩ := flmRow_post d i hd1 hd2 post hpost _
    (fun x => by
      show (if x = i then (if i = 0 then 0 else d (i - 1)) + 1
        else (pre.foldl (flmStep d i) ((fun _ => 0), 0, 0, i)).1 x) ≤ x + 1
      by_cases hx : x = i
      · rw [if_pos hx, hkval]
        omega
      · rw [if_neg hx]
        exact h1 x)
    (fun x => by
      show (if x = i then (if i = 0 then 0 else d (i - 1)) + 1
        else (pre.foldl (flmStep d i) ((fun _ => 0), 0, 0, i)).1 x) ≤ i + 1
      by_cases hx : x = i
      · rw [if_pos hx, hkval]
      · rw [if_neg hx]
        have := h2 x
        omega)
  refine ⟨hb', h1', h2', ?_⟩
  rw [h3' i (le_refl i)]
  show (if i = i then (if i = 0 then 0 else d (i - 1)) + 1
    else (pre.foldl (flmStep d i) ((fun _ => 0), 0, 0, i)).1 i) = i + 1
  rw [if_pos rfl, hkval]

theorem flmLoop_identity (l : List Chars) :
    ∀ (len s : Nat) (d : Nat → Nat), s + len = l.length →
      (∀ x, d x ≤ x + 1) → (∀ x, d x ≤ s) → (s = 0 ∨ d (s - 1) = s) →
      ((List.range' s len).foldl
        (fun (st : (Nat → Nat) × Nat × Nat × Nat) i =>
          (flmCandidates l (l.getD i []) 0 l.length).foldl
            (flmStep st.1 i) ((fun _ => 0), st.2))
        (d, 0, 0, s)).2 = (0, 0, l.length) := by
  intro len
  induction len with
  | zero =>
    intro s d hs _ _ _
    have hs' : s = l.length := by omega
    subst hs'
    rfl
  | succ len ih =>
    intro s d hs hd1 hd2 hd3
    have hsn : s < l.length := by omega
    rw [List.range'_succ s len 1, List.foldl_cons]
    have hsplit : flmCandidates l (l.getD s []) 0 l.length
        = (List.range' 0 s).filter (fun j => l.getD j [] == l.getD s [])
          ++ s :: (List.range' (s + 1) (l.length - s - 1)).filter
            (fun j => l.getD j [] == l.getD s []) := by
      rw [flmCandidates_self, List.range_eq_range' l.length]
      have happ : List.range' 0 l.length = List.range' 0 s ++ List.range' s (l.length - s) := by
        have := List.range'_append 0 s (l.length - s) 1
        rw [show 0 + 1 * s = s by omega, show l.length - s + s = l.length by omega] at this
        exact this.symm
      rw [happ, List.filter_append]
      congr 1
      have hsucc : List.range' s (l.length - s) = s :: List.range' (s + 1) (l.length - s - 1) := by
        conv_lhs => rw [show l.length - s = (l.length - s - 1) + 1 by omega]
        rw [List.range'_succ]
      rw [hsucc, List.filter_cons, if_pos (beq_self_eq_true (l.getD s []))]
    obtain ⟨hb, h1, h2, h3⟩ := flmRow_full d s hd1 hd2 hd3
      ((List.range' 0 s).filter (fun j => l.getD j [] == l.getD s []))
      ((List.range' (s + 1) (l.length - s - 1)).filter (fun j => l.getD j [] == l.getD s []))
      (fun j hj => by
        have := List.mem_range'_1.mp (List.mem_of_mem_filter hj)
        omega)
      (fun j hj => by
        have := List.mem_range'_1.mp (List.mem_of_mem_filter hj)
        omega)
    show ((List.range' (s + 1) len).foldl
        (fun (st : (Nat → Nat) × Nat × Nat × Nat) i =>
          (flmCandidates l (l.getD i []) 0 l.length).foldl
            (flmStep st.1 i) ((fun _ => 0), st.2))
        ((flmCandidates l (l.getD s []) 0 l.length).foldl (flmStep d s)
          ((fun _ => 0), 0, 0, s))).2 = (0, 0, l.length)
    have hb' : ((flmCandidates l (l.getD s []) 0 l.length).foldl (flmStep d s)
        ((fun _ => 0), 0, 0, s)).2 = (0, 0, s + 1) := by
      rw [hsplit]
      exact hb
    have hbody : (flmCandidates l (l.getD s []) 0 l.length).foldl (flmStep d s)
        ((fun _ => 0), 0, 0, s)
        = (((flmCandidates l (l.getD s []) 0 l.length).foldl (flmStep d s)
            ((fun _ => 0), 0, 0, s)).1, 0, 0, s + 1) :=
      congrArg (fun t => (((flmCandidates l (l.getD s []) 0 l.length).foldl (flmStep d s)
        ((fun _ => 0), 0, 0, s)).1, t)) hb'
    rw [hbody]
    refine ih (s + 1) _ (by omega) ?_ ?_ (Or.inr ?_)
    · rw [hsplit]
      exact h1
    · rw [hsplit]
      exact h2
    · show ((flmCandidates l (l.getD s []) 0 l.length).foldl (flmStep d s)
        ((fun _ => 0), 0, 0, s)).1 (s + 1 - 1) = s + 1
      rw [hsplit, show s + 1 - 1 = s by omega]
      exact h3

theorem extendHigh_id (l : List Chars) (n : Nat) :
    ∀ fuel, extendHigh l l n n 0 0 fuel n = n := by
  intro fuel
  cases fuel with
  | zero => rfl
  | succ f =>
    rw [extendHigh]
    rw [if_neg (by omega : ¬(0 + n < n ∧ 0 + n < n ∧ l.getD (0 + n) [] = l.getD (0 + n) []))]

theorem flm_identity (l : List Chars) :
    findLongestMatch l l 0 l.length 0 l.length = (0, 0, l.length) := by
  have hloop : (flmLoop l l 0 l.length 0 l.length).2 = (0, 0, l.length) := by
    rw [flmLoop]
    have h := flmLoop_identity l l.length 0 (fun _ => 0) (by omega)
      (fun x => Nat.zero_le (x + 1)) (fun x => Nat.le_refl 0) (Or.inl rfl)
    rw [show l.length - 0 = l.length from rfl]
    exact h
  have hfull : flmLoop l l 0 l.length 0 l.length
      = ((flmLoop l l 0 l.length 0 l.length).1, 0, 0, l.length) :=
    congrArg (fun t => ((flmLoop l l 0 l.length 0 l.length).1, t)) hloop
  simp only [findLongestMatch]
  rw [hfull]
  show ((0 : Nat), (0 : Nat), extendHigh l l l.length l.length 0 0 l.length l.length)
      = ((0 : Nat), (0 : Nat), l.length)
  rw [extendHigh_id l l.length l.length]

theorem matchingBlocksRec_identity (l : List Chars) (hne : l.length ≠ 0) (fuel : Nat) :
    matchingBlocksRec l l (fuel + 1) 0 l.length 0 l.length = [(0, 0, l.length)] := by
  rw [matchingBlocksRec]
  simp only [flm_identity l]
  rw [if_neg hne, if_neg (by omega : ¬(0 < 0 ∧ 0 < 0)),
    if_neg (by omega : ¬(0 + l.length < l.length ∧ 0 + l.length < l.length))]
  rfl

theorem seqOpcodes_identity (l : List Chars) (hne : l.length ≠ 0) :
    seqOpcodes l l = [⟨Tag.equal, 0, l.length, 0, l.length⟩] := by
  have hsort : ([(0, 0, l.length)] : List (Nat × Nat × Nat)).mergeSort tripleLe
      = [(0, 0, l.length)] :=
    mergeSort_tripleLe_eq (List.Perm.refl _) (List.pairwise_singleton _ _)
  have hmerge : mergeAdjacent [(0, 0, l.length)] = [(0, 0, l.length)] := by
    simp [mergeAdjacent, mergeStep, hne]
  simp only [seqOpcodes, matchingBlocks]
  rw [matchingBlocksRec_identity l hne, hsort, hmerge]
  simp [opcodesOf, opStep, hne]

theorem keepIdx_all (lines : List String) (hkeep : ∀ s ∈ lines, keepLine s = true) :
    keepIdx lines = List.range lines.length := by
  rw [keepIdx]
  refine List.filter_eq_self.mpr ?_
  intro a ha
  exact hkeep _ (getD_mem_of_lt lines a "" (List.mem_range.mp ha))

theorem emitEqual_maps (kO kN : List Nat) (st : EmitState) (op : Opcode) :
    (emitEqual kO kN st op).maps = st.maps ++ (List.range (op.i2 - op.i1)).map
      (fun k => ⟨some (kO.getD (op.i1 + k) 0 + 1), some (kN.getD (op.j1 + k) 0 + 1)⟩) := by
  rw [emitEqual]
  generalize List.range (op.i2 - op.i1) = xs
  induction xs generalizing st with
  | nil => simp
  | cons k rest ih =>
    rw [List.foldl_cons, List.map_cons, ih]
    simp [List.append_assoc]

theorem rawMappings_identity (lines : List String)
    (hkeep : ∀ s ∈ lines, keepLine s = true) :
    rawMappings lines lines
      = (List.range lines.length).map (fun k => ⟨some (k + 1), some (k + 1)⟩) := by
  by_cases hn : lines.length = 0
  · have h0 : lines = [] := List.length_eq_zero.mp hn
    subst h0
    have hops : seqOpcodes (normKept []) (normKept []) = [] :=
      seqOpcodes_eval _ _ [] [] (by decide) List.Pairwise.nil (by decide)
    simp only [rawMappings, hops, List.foldl_nil]
    rfl
  · have hlen : (normKept lines).length = lines.length := by
      rw [normKept, List.length_map, keepIdx_all lines hkeep, List.length_range]
    have hne : (normKept lines).length ≠ 0 := by
      rw [hlen]
      exact hn
    rw [rawMappings, seqOpcodes_identity _ hne, List.foldl_cons, List.foldl_nil,
      processOpcode_equal, emitEqual_maps]
    simp only [hlen, keepIdx_all lines hkeep, List.nil_append, Nat.sub_zero, Nat.zero_add]
    refine List.map_congr_left ?_
    intro k hk
    have hk' : k < lines.length := List.mem_range.mp hk
    rw [List.getD_eq_getElem _ _ (by simpa using hk')]
    simp

/-- C2 (amended): when every line of the common input is kept (has a non-whitespace
character), map_lines on identical old and new files returns exactly
[(1, 1), (2, 2), ..., (N, N)] in ascending order. -/
theorem c2_identity (pyHash : Chars → Int) (lines : List String)
    (hkeep : ∀ s ∈ lines, keepLine s = true) :
    mapLines pyHash lines lines
      = (List.range lines.length).map (fun k => ⟨some (k + 1), some (k + 1)⟩) := by
  rw [mapLines_eq_sorted_raw, rawMappings_identity lines hkeep]
  refine sorted_raw_eq ?_
  refine List.pairwise_map.mpr ?_
  have hplt : (List.range lines.length).Pairwise (fun a b => a < b) := by
    rw [List.range_eq_range']
    exact List.pairwise_lt_range' 0 lines.length
  refine hplt.imp ?_
  intro a b hab
  simp only [keyLe]
  apply decide_eq_true
  refine Or.inr ⟨rfl, Or.inl ?_⟩
  show ((a + 1 : Nat) : WithTop Nat) < ((b + 1 : Nat) : WithTop Nat)
  exact_mod_cast Nat.succ_lt_succ hab

theorem c2_identity_witness :
    mapLines (fun _ => (0 : Int)) ["a"] ["a"]
      = (List.range (["a"] : List String).length).map
        (fun k => ⟨some (k + 1), some (k + 1)⟩) :=
  c2_identity (fun _ => (0 : Int)) ["a"] (by decide)

theorem hungScan_n1 (cost : Nat → Nat → ℝ) (u v : Nat → ℝ) (used : Nat → Bool)
    (hu : used 1 = false) :
    hungScan cost 1 u v used 1 0 ((fun _ => none), (fun _ => 0), none, 0)
      = ((fun x => if x = 1 then some (cost 0 0 - u 1 - v 1) else none),
         (fun x => if x = 1 then 0 else 0),
         some (cost 0 0 - u 1 - v 1), 1) := by
  rw [hungScan, show List.range' 1 1 = [1] from rfl, List.foldl_cons, List.foldl_nil]
  simp [hungScanStep, oLt, hu]

theorem hungPath_n1 (cost : Nat → Nat → ℝ) (p : Nat → Nat) (hp0 : p 0 = 1) (hp1 : p 1 = 0) :
    (hungPath cost 1 (1 + 1) (fun _ => 0) (fun _ => 0) p (fun _ => 0) (fun _ => none)
      (fun _ => false) 0).2.2 = ((fun x => if x = 1 then 0 else 0), 1) := by
  rw [hungPath]
  simp only [hp0]
  rw [hungScan_n1 cost _ _ _ rfl]
  simp [hp1]

theorem hungPath_n1x (cost : Nat → Nat → ℝ) :
    (hungPath cost 1 (1 + 1) (fun _ => 0) (fun _ => 0)
      (fun x => if x = 0 then 1 else 0) (fun _ => 0) (fun _ => none)
      (fun _ => false) 0).2.2 = ((fun x => if x = 1 then 0 else 0), 1) :=
  hungPath_n1 cost _ rfl rfl

theorem hungAug_n1 (f : Nat) (p : Nat → Nat) :
    hungAug (f + 1) p (fun x => if x = 1 then 0 else 0) 1
      = fun x => if x = 1 then p 0 else p x := by
  rw [hungAug]
  simp

/-- The Hungarian solver on a 1 x 1 matrix always matches the single pair, whatever
the score. -/
theorem maxAssignment_single (x : ℝ) : maxAssignment [[x]] = [(0, 0)] := by
  rw [maxAssignment]
  rw [if_neg (by simp : ¬(([[x]] : List (List ℝ)) = [] ∨ ([[x]] : List (List ℝ)).headD [] = []))]
  simp only [List.length_cons, List.length_nil, List.headD_cons, Nat.max_self]
  rw [show List.range' 1 1 = [1] from rfl]
  simp only [List.foldl_cons, List.foldl_nil, Nat.zero_add, hungPath_n1x]
  rw [show (1 : Nat) + 2 = 2 + 1 from rfl, hungAug_n1]
  norm_num

theorem seqOpcodes_abg :
    seqOpcodes (normKept ["alpha", "beta", "gamma"]) (normKept ["alpha", "xyz", "gamma"])
      = [⟨Tag.equal, 0, 1, 0, 1⟩, ⟨Tag.replace, 1, 2, 1, 2⟩, ⟨Tag.equal, 2, 3, 2, 3⟩] :=
  seqOpcodes_eval _ _ [(0, 0, 1), (2, 2, 1)] _ (by decide) (by decide) (by decide)

theorem content_abg :
    tf_cosine ((tokKept ["alpha", "beta", "gamma"]).getD 1 [])
      ((tokKept ["alpha", "xyz", "gamma"]).getD 1 []) = 0 := by
  rw [tf_cosine, if_neg (by decide), if_pos (by decide)]

theorem context_abg :
    tf_cosine ((ctxKept ["alpha", "beta", "gamma"]).getD 1 [])
      ((ctxKept ["alpha", "xyz", "gamma"]).getD 1 []) = 2 / (Real.sqrt 3 * Real.sqrt 3) := by
  rw [tf_cosine, if_neg (by decide), if_neg (by decide), if_neg (by decide)]
  rw [show cdot ((ctxKept ["alpha", "beta", "gamma"]).getD 1 [])
      ((ctxKept ["alpha", "xyz", "gamma"]).getD 1 []) = 2 from by decide]
  rw [show csq ((ctxKept ["alpha", "beta", "gamma"]).getD 1 []) = 3 from by decide]
  rw [show csq ((ctxKept ["alpha", "xyz", "gamma"]).getD 1 []) = 3 from by decide]
  norm_num

theorem simMatrix_abg :
    simMatrix (tokKept ["alpha", "beta", "gamma"]) (tokKept ["alpha", "xyz", "gamma"])
      (ctxKept ["alpha", "beta", "gamma"]) (ctxKept ["alpha", "xyz", "gamma"])
      [1] [1] = [[(0.4 : ℝ)]] := by
  simp only [simMatrix]
  rw [show ([1] : List Nat).enum = [(0, 1)] from rfl]
  simp only [List.map_cons, List.map_nil]
  rw [content_abg, context_abg, Real.mul_self_sqrt (by norm_num : (0 : ℝ) ≤ 3)]
  rw [if_pos (by norm_num : (0.7 * 0 + 0.3 * (2 / 3) : ℝ) ≥ 0.05)]
  norm_num

theorem rawMappings_abg :
    rawMappings ["alpha", "beta", "gamma"] ["alpha", "xyz", "gamma"]
      = [⟨some 1, some 1⟩, ⟨some 2, some 2⟩, ⟨some 3, some 3⟩] := by
  rw [rawMappings, seqOpcodes_abg]
  rw [show keepIdx ["alpha", "beta", "gamma"] = [0, 1, 2] from by decide]
  rw [show keepIdx ["alpha", "xyz", "gamma"] = [0, 1, 2] from by decide]
  rw [List.foldl_cons, List.foldl_cons, List.foldl_cons, List.foldl_nil]
  rw [show processOpcode [0, 1, 2] [0, 1, 2]
      (tokKept ["alpha", "beta", "gamma"]) (tokKept ["alpha", "xyz", "gamma"])
      (ctxKept ["alpha", "beta", "gamma"]) (ctxKept ["alpha", "xyz", "gamma"])
      ⟨[], [], []⟩ ⟨Tag.equal, 0, 1, 0, 1⟩
      = ⟨[⟨some 1, some 1⟩], [0], [0]⟩ from rfl]
  rw [processOpcode_replace]
  simp only [emitReplace_eq]
  rw [show List.range' 1 (2 - 1) = [1] from rfl]
  rw [simMatrix_abg, maxAssignment_single]
  simp only [List.foldl_cons, List.foldl_nil, repAcceptStep]
  rw [show (([[(0.4 : ℝ)]]).getD 0 []).getD 0 0 = (0.4 : ℝ) from rfl]
  rw [if_neg (by norm_num : ¬((0.4 : ℝ) < 0.1))]
  rfl

/-- C6 is false as stated: on old_lines = ["alpha", "beta", "gamma"] and
new_lines = ["alpha", "xyz", "gamma"] the output contains neither (2, None) nor
(None, 2) — the middle lines are matched through the shared context, not left
unmatched. -/
theorem c6_counterexample :
    (⟨some 2, none⟩ : LineMapping)
        ∉ mapLines (fun _ => 0) ["alpha", "beta", "gamma"] ["alpha", "xyz", "gamma"] ∧
      (⟨none, some 2⟩ : LineMapping)
        ∉ mapLines (fun _ => 0) ["alpha", "beta", "gamma"] ["alpha", "xyz", "gamma"] := by
  rw [mapLines_eq_sorted_raw, rawMappings_abg, sorted_raw_eq (by decide)]
  decide

/-- C6 (amended): on old_lines = ["alpha", "beta", "gamma"] and
new_lines = ["alpha", "xyz", "gamma"], map_lines pairs the middle lines: although
"beta" and "xyz" share no tokens (content cosine 0), the 4-line context windows share
alpha and gamma, so the pair scores 0.7*0 + 0.3*(2/3) = 0.2, clears the 0.05 bonus
gate, gains the +0.2 positional bonus, and at 0.4 passes the 0.1 acceptance
threshold; the output is [(1, 1), (2, 2), (3, 3)]. -/
theorem c6_replace_matched :
    mapLines (fun _ => 0) ["alpha", "beta", "gamma"] ["alpha", "xyz", "gamma"]
      = [⟨some 1, some 1⟩, ⟨some 2, some 2⟩, ⟨some 3, some 3⟩] := by
  rw [mapLines_eq_sorted_raw, rawMappings_abg]
  exact sorted_raw_eq (by decide)

end LineMapper